import Mathlib

/-!
A verification development for the `json-hashify` feature-extraction pipeline.

The JavaScript source (class `JSONHashify`) is shallowly embedded below:
JavaScript strings become lists of UTF-16 code units (`JsStr`), the
rolling polynomial hash is computed over `Int` exactly as the source does
(all intermediate values stay far below 2^53, so JavaScript number
arithmetic is exact there), JavaScript `Map`-based multisets become
`Multiset Nat`, `Set`s become `Finset Nat`, and the explicit work-stack /
BFS-queue loops become fuelled tail-recursive functions (with fuel chosen
provably large enough for the loops to run to completion).
-/

/-- JavaScript strings, as their lists of UTF-16 code units (`charCodeAt`). -/
abbrev JsStr := List Nat

/-- Code units of a Lean string literal (all characters used in this
development are below the surrogate range, where Unicode scalar values and
UTF-16 code units agree). -/
def str2codes (s : String) : JsStr := s.data.map Char.toNat

/- JSON values.  Arrays and objects carry their own list types so that all
recursions below are structural (and hence kernel-reducible). -/
mutual
inductive JSON where
  | null : JSON
  | bool (b : Bool) : JSON
  | num (n : Int) : JSON
  | str (s : JsStr) : JSON
  | arr (elems : JArr) : JSON
  | obj (members : JObj) : JSON

inductive JArr where
  | nil : JArr
  | cons (hd : JSON) (tl : JArr) : JArr

inductive JObj where
  | nil : JObj
  | cons (key : JsStr) (val : JSON) (tl : JObj) : JObj
end

/- Size of a JSON value (used as loop fuel for the work-stack traversal). -/
mutual
def jsize : JSON → Nat
  | .null => 1
  | .bool _ => 1
  | .num _ => 1
  | .str _ => 1
  | .arr xs => 1 + jsizeA xs
  | .obj kvs => 1 + jsizeO kvs

def jsizeA : JArr → Nat
  | .nil => 0
  | .cons x xs => jsize x + jsizeA xs

def jsizeO : JObj → Nat
  | .nil => 0
  | .cons _ v kvs => jsize v + jsizeO kvs
end

/-- `typeof item !== 'object' || item === null`: scalars and `null` are
leaves, arrays and (non-null) objects are composites. -/
def JSON.isLeaf : JSON → Bool
  | .arr _ => false
  | .obj _ => false
  | _ => true

/-- A JavaScript scalar value, as stored in `node.value` for leaves. -/
inductive Scalar where
  | null : Scalar
  | bool (b : Bool) : Scalar
  | num (n : Int) : Scalar
  | str (s : JsStr) : Scalar
  deriving DecidableEq

/-- `isLeaf ? item : undefined`: the scalar payload of a leaf. -/
def JSON.asScalar : JSON → Option Scalar
  | .null => some .null
  | .bool b => some (.bool b)
  | .num n => some (.num n)
  | .str s => some (.str s)
  | .arr _ => none
  | .obj _ => none

/-- Decimal digits of a natural number, as code units (`String(n)`). -/
def natToCodes (n : Nat) : JsStr := (Nat.toDigits 10 n).map Char.toNat

/-- `String(n)` for an integer (json-hashify only ever stringifies numbers
that are mathematical integers in this model). -/
def intToCodes (n : Int) : JsStr :=
  if n < 0 then 45 :: natToCodes n.natAbs else natToCodes n.toNat

/-- String form of a leaf value, as computed in
`_updateShingleFrequenciesForNode`: strings verbatim, `String(value)` for
numbers and booleans, `JSON.stringify(value)` (here: only `null` reaches
this branch) otherwise. -/
def stringifyScalar : Scalar → JsStr
  | .str s => s
  | .num n => intToCodes n
  | .bool true => str2codes "true"
  | .bool false => str2codes "false"
  | .null => str2codes "null"

/-- A node record of `nodeMap`; the node id is its index in the node table. -/
structure NodeRec where
  path : JsStr
  value : Option Scalar
  deriving DecidableEq

/-- The canonical `path[:value]` string of a node.  Both branches of
`_updateShingleFrequenciesForNode` build this string identically. -/
def nodeString (node : NodeRec) : JsStr :=
  node.path ++ (match node.value with
    | none => []
    | some v => 58 :: stringifyScalar v)

/-- Resolved configuration of a `JSONHashify` instance. -/
structure Config where
  subtreeDepth : Nat
  frequencyThreshold : Nat
  numHashFunctions : Nat
  numGroups : Nat
  preserveArrayOrder : Bool
  shingleSize : Nat
  ignoreKeys : List JsStr
  enableNodeStringCache : Bool
  nodeStringCacheSize : Nat

/-- `'$root'` -/
def rootPath : JsStr := str2codes "$root"

/-- `'[' + i + ']'` -/
def brk (i : Nat) : JsStr := 91 :: (natToCodes i ++ [93])

/- ### Rolling hash -/

def ROLLING_PRIME_BASE : Int := 257
def ROLLING_PRIME_MODULUS : Int := 1000000007

/-- `_rollingHashPower`: `ROLLING_PRIME_BASE^(shingleSize-1) % MODULUS`,
computed by `k-1` iterated modular multiplications as in the constructor. -/
def rollingHashPower (k : Nat) : Int :=
  (fun p => (p * ROLLING_PRIME_BASE) % ROLLING_PRIME_MODULUS)^[k - 1] 1

/-- The initial-window loop: `currentHash = (currentHash * primeBase +
charCodeAt(j)) % primeModulus` folded over a string. -/
def hornerHash (s : JsStr) : Int :=
  s.foldl (fun h c => (h * ROLLING_PRIME_BASE + (c : Int)) % ROLLING_PRIME_MODULUS) 0

/-- One iteration of the rolling loop: remove the outgoing character's
weighted contribution, shift, add the incoming character. -/
def rollStep (k : Nat) (h : Int) (charOutCode charInCode : Nat) : Int :=
  let termToRemove := ((charOutCode : Int) * rollingHashPower k) % ROLLING_PRIME_MODULUS
  let h1 := (h - termToRemove + ROLLING_PRIME_MODULUS) % ROLLING_PRIME_MODULUS
  let h2 := (h1 * ROLLING_PRIME_BASE) % ROLLING_PRIME_MODULUS
  (h2 + (charInCode : Int)) % ROLLING_PRIME_MODULUS

/-- All rolled polynomial hashes of a string with `s.length ≥ k`: the hash
of the first window followed by one rolled value per loop iteration `i`,
with outgoing character `s[i]` and incoming character `s[i+k]`. -/
def rollingHashes (k : Nat) (s : JsStr) : List Int :=
  ((s.zip (s.drop k)).scanl (fun h p => rollStep k h p.1 p.2) (hornerHash (s.take k)))

/- ### Murmur finalizer (external collaborator) -/

/-- 32-bit rotate left. -/
def rotl32 (x r : Nat) : Nat := ((x <<< r) % 2 ^ 32) ||| (x % 2 ^ 32) >>> (32 - r)

/-- Modelled from the spec: `murmurhash3_32_gc_single_int` is imported from
the external `grouped-oph` package (its source is not part of this
repository).  Spec §4.4 requires only "a fixed deterministic 32-bit
avalanche finalizer applied to each rolled hash value", a pure function of
the polynomial hash alone.  We model it as the standard MurmurHash3 32-bit
routine on the single 4-byte block given by the input, with seed 0. -/
def murmurhash3_32_gc_single_int (x : Nat) : Nat :=
  let k1 := (x % 2 ^ 32 * 0xcc9e2d51) % 2 ^ 32
  let k1 := rotl32 k1 15
  let k1 := (k1 * 0x1b873593) % 2 ^ 32
  let h1 := k1
  let h1 := rotl32 h1 13
  let h1 := (h1 * 5 + 0xe6546b64) % 2 ^ 32
  let h1 := h1 ^^^ 4
  let h1 := h1 ^^^ (h1 >>> 16)
  let h1 := (h1 * 0x85ebca6b) % 2 ^ 32
  let h1 := h1 ^^^ (h1 >>> 13)
  let h1 := (h1 * 0xc2b2ae35) % 2 ^ 32
  h1 ^^^ (h1 >>> 16)

/-- The ordered list of finalized shingle hashes produced for one canonical
string, exactly as the stateless branch of
`_updateShingleFrequenciesForNode` inserts them:
all `len - k + 1` rolled window hashes when `len ≥ k`, one degenerate
whole-string hash when `0 < len < k`, nothing for the empty string. -/
def nodeShingles (k : Nat) (s : JsStr) : List Nat :=
  if k ≤ s.length then
    (rollingHashes k s).map (fun h => murmurhash3_32_gc_single_int h.toNat)
  else if 0 < s.length then
    [murmurhash3_32_gc_single_int (hornerHash s).toNat]
  else []

/- ### Shingle collections -/

/-- The shingle collection: a `Set` when `_useSetForShingles` (i.e.
`frequencyThreshold === 1`), a `Map` from hash to count otherwise. -/
inductive ShingleColl where
  | set (s : Finset Nat)
  | map (m : Multiset Nat)

/-- Insert one hash: `add` on the Set, increment-count on the Map. -/
def ShingleColl.addHash : ShingleColl → Nat → ShingleColl
  | .set s, h => .set (insert h s)
  | .map m, h => .map (h ::ₘ m)

/-- Insert each produced hash, in production order. -/
def ShingleColl.addHashes (c : ShingleColl) (hs : List Nat) : ShingleColl :=
  hs.foldl ShingleColl.addHash c

/-- Replay a cached shingle set: each member is inserted exactly once. -/
def ShingleColl.addFinset : ShingleColl → Finset Nat → ShingleColl
  | .set s, fs => .set (s ∪ fs)
  | .map m, fs => .map (m + fs.val)

/- ### Node-string shingle cache (external collaborator) -/

/-- Modelled from the spec: the `HyperbolicLRUCache` of the external
`hyperbolic-lru` package, of which only the `has`/`get`/`set`/`clear`
contract and the bounded-capacity LRU guarantee matter (spec §4.6).  The
cache is a recency-ordered association list, most recently used first. -/
abbrev NodeCache := List (JsStr × Finset Nat)

/-- `has(key)` / `get(key)`: look the key up; on a hit the entry moves to
the front (it becomes most recently used). -/
def cacheGet (c : NodeCache) (key : JsStr) : Option (Finset Nat) × NodeCache :=
  match c.find? (fun e => e.1 = key) with
  | none => (none, c)
  | some e => (some e.2, e :: c.filter (fun e2 => ¬ e2.1 = key))

/-- `set(key, value)`: insert at the front, evicting the least recently
used entries beyond the capacity. -/
def cacheSet (cap : Nat) (c : NodeCache) (key : JsStr) (v : Finset Nat) : NodeCache :=
  ((key, v) :: c.filter (fun e => ¬ e.1 = key)).take cap

/- ### `_updateShingleFrequenciesForNode` -/

/-- `_updateShingleFrequenciesForNode`.  The caching branch first looks the
canonical string up; on a miss it computes the node's shingles into a
fresh `Set` (`shinglesGeneratedForThisNode`, here
`(nodeShingles …).toFinset` — the source duplicates the rolling-hash loop
of the stateless branch verbatim, collecting into a `Set` instead), stores
that set, and in either case inserts each member of the set once into the
collection.  The stateless branch inserts every produced hash directly. -/
def updateShingleFrequenciesForNode (cfg : Config) (cache : NodeCache)
    (node : Option NodeRec) (coll : ShingleColl) : NodeCache × ShingleColl :=
  match node with
  | none => (cache, coll)
  | some node =>
    let s := nodeString node
    if cfg.enableNodeStringCache then
      match cacheGet cache s with
      | (some cached, cache1) => (cache1, coll.addFinset cached)
      | (none, cache1) =>
        let fs := (nodeShingles cfg.shingleSize s).toFinset
        (cacheSet cfg.nodeStringCacheSize cache1 s fs, coll.addFinset fs)
    else
      (cache, coll.addHashes (nodeShingles cfg.shingleSize s))

/- ### `_buildCSRFromJSON` -/

/-- A work-stack frame `{obj, path, parentId}`. -/
structure BuildFrame where
  obj : JSON
  path : JsStr
  parentId : Nat

/-- Mutable traversal state: the node table (`nodeMap`, indexed by id) and
the per-id child lists (`childLists`). -/
structure BuildState where
  nodes : List NodeRec
  childLists : List (List Nat)

/-- `processNode`: allocate the next id for `item`, record its path (a bare
key under the root, `currentPath + '.' + itemKey` otherwise) and — for a
leaf — its value, register it as the next child of `parentId`, and hand
back a work-stack frame when the item is composite. -/
def processNode (st : BuildState) (item : JSON) (itemKey currentPath : JsStr)
    (parentId : Nat) : BuildState × Option BuildFrame :=
  let elementPath := if currentPath = rootPath then itemKey else currentPath ++ 46 :: itemKey
  let childId := st.nodes.length
  let st1 : BuildState :=
    ⟨st.nodes ++ [⟨elementPath, item.asScalar⟩],
     (st.childLists.set parentId ((st.childLists.getD parentId []) ++ [childId])) ++ [[]]⟩
  (st1, if item.isLeaf then none else some ⟨item, elementPath, childId⟩)

/-- The array branch of the work loop.  Note the source computes
`fullPath = path + '[' + i + ']'` but never uses it: `processNode` is
called with the bracket string as `itemKey` (the empty string when
`preserveArrayOrder` is off) and `path` as `currentPath`. -/
def processArrItems (cfg : Config) (st : BuildState) (path : JsStr) (parentId i : Nat) :
    JArr → BuildState × List BuildFrame
  | .nil => (st, [])
  | .cons item rest =>
    let itemKey := if cfg.preserveArrayOrder then brk i else []
    let r1 := processNode st item itemKey path parentId
    let r2 := processArrItems cfg r1.1 path parentId (i + 1) rest
    (r2.1, r1.2.toList ++ r2.2)

/-- The object branch of the work loop: members in insertion order, keys in
the ignore set skipped (together with their whole subtree, which is never
pushed). -/
def processObjItems (cfg : Config) (st : BuildState) (path : JsStr) (parentId : Nat) :
    JObj → BuildState × List BuildFrame
  | .nil => (st, [])
  | .cons key val rest =>
    if key ∈ cfg.ignoreKeys then processObjItems cfg st path parentId rest
    else
      let r1 := processNode st val key path parentId
      let r2 := processObjItems cfg r1.1 path parentId rest
      (r2.1, r1.2.toList ++ r2.2)

/-- One pop of the work stack: process every element/member of the frame's
composite value.  The returned frames are in push order. -/
def processFrame (cfg : Config) (st : BuildState) (f : BuildFrame) :
    BuildState × List BuildFrame :=
  match f.obj with
  | .arr xs => processArrItems cfg st f.path f.parentId 0 xs
  | .obj kvs => processObjItems cfg st f.path f.parentId kvs
  | _ => (st, [])

/-- The `while (stack.length > 0)` loop.  The JavaScript array is used
LIFO (`push`/`pop`), so the frames produced by one pop are processed in
reverse push order before the remainder of the stack: the model keeps the
top of the stack at the head of the list. -/
def buildLoop (cfg : Config) : Nat → BuildState → List BuildFrame → BuildState
  | _, st, [] => st
  | 0, st, _ => st
  | fuel + 1, st, f :: rest =>
    let r := processFrame cfg st f
    buildLoop cfg fuel r.1 (r.2.reverse ++ rest)

/-- The CSR result: `rowPtr`, `colIndices` and the node table. -/
structure CSRData where
  rowPtr : List Nat
  colIndices : List Nat
  nodes : List NodeRec

/-- Assemble the CSR arrays from the finished child lists:
`rowPtr[0] = 0`, `rowPtr[i+1] = rowPtr[i] + childLists[i].length`, and
`colIndices` is the concatenation of the child lists. -/
def assembleCSR (st : BuildState) : CSRData :=
  ⟨(st.childLists.map List.length).scanl (· + ·) 0, st.childLists.flatten, st.nodes⟩

/-- The finished traversal state of `_buildCSRFromJSON`: a scalar (or
null) root yields the single node `('$root', value)` with no children; a
composite root yields the root node plus the work-stack traversal seeded
with `(json, '$root', rootId)`.  The fuel `jsize json` bounds the number
of loop iterations (one frame is popped per iteration and only composite
values ever become frames; `processFrame_measure_lt` below makes this
sufficiency precise). -/
def buildStateOf (cfg : Config) (json : JSON) : BuildState :=
  if json.isLeaf then
    ⟨[⟨rootPath, json.asScalar⟩], [[]]⟩
  else
    buildLoop cfg (jsize json) ⟨[⟨rootPath, none⟩], [[]]⟩ [⟨json, rootPath, 0⟩]

/-- `_buildCSRFromJSON`: run the traversal, then assemble the CSR arrays
(for a scalar root this gives `rowPtr = [0,0]` and empty `colIndices`). -/
def buildCSRFromJSON (cfg : Config) (json : JSON) : CSRData :=
  assembleCSR (buildStateOf cfg json)

/- ### `_extractSubtrees` -/

/-- The children of node `v`: `colIndices[rowPtr[v] .. rowPtr[v+1])`. -/
def childrenSlice (csr : CSRData) (v : Nat) : List Nat :=
  (csr.colIndices.drop (csr.rowPtr.getD v 0)).take (csr.rowPtr.getD (v + 1) 0 - csr.rowPtr.getD v 0)

/-- The inner enqueue loop: each child that is a known node and unvisited
is marked visited immediately and appended to the queue at depth `d`. -/
def bfsEnqueue (csr : CSRData) (d : Nat) :
    Finset Nat → List (Nat × Nat) → List Nat → Finset Nat × List (Nat × Nat)
  | visited, queue, [] => (visited, queue)
  | visited, queue, c :: cs =>
    if c < csr.nodes.length ∧ c ∉ visited then
      bfsEnqueue csr d (insert c visited) (queue ++ [(c, d)]) cs
    else
      bfsEnqueue csr d visited queue cs

/-- The BFS loop of `_extractSubtrees`: dequeue from the front, append the
node to the result, and enqueue its unvisited children while the current
depth is below the bound.  The result keeps the depth labels; the fuel
bounds the number of dequeues. -/
def bfsLoop (cfg : Config) (csr : CSRData) :
    Nat → List (Nat × Nat) → Finset Nat → List (Nat × Nat) → List (Nat × Nat)
  | _, [], _, acc => acc
  | 0, _, _, acc => acc
  | fuel + 1, (v, d) :: qs, visited, acc =>
    if d < cfg.subtreeDepth then
      let r := bfsEnqueue csr (d + 1) visited qs (childrenSlice csr v)
      bfsLoop cfg csr fuel r.2 r.1 (acc ++ [(v, d)])
    else
      bfsLoop cfg csr fuel qs visited (acc ++ [(v, d)])

/-- `_extractSubtrees` with its depth labels: guard on
`nodeMap.has(startNodeId)` and `startNodeId < rowPtr.length - 1`, then run
the BFS seeded with `(startNodeId, 0)` already visited.  At most
`csr.nodes.length` nodes are ever dequeued, which the fuel covers. -/
def extractSubtreesD (cfg : Config) (csr : CSRData) (startNodeId : Nat) : List (Nat × Nat) :=
  if startNodeId < csr.nodes.length ∧ startNodeId + 1 < csr.rowPtr.length then
    bfsLoop cfg csr csr.nodes.length [(startNodeId, 0)] {startNodeId} []
  else []

/-- `_extractSubtrees`: the list of node ids of the extracted subtree. -/
def extractSubtrees (cfg : Config) (csr : CSRData) (startNodeId : Nat) : List Nat :=
  (extractSubtreesD cfg csr startNodeId).map Prod.fst

/- ### `_buildShingleMultiset`, thresholding, and the public operations -/

/-- Process one extracted subtree: update the collection with every node of
the subtree in order. -/
def updateForSubtree (cfg : Config) (csr : CSRData) (acc : NodeCache × ShingleColl)
    (ids : List Nat) : NodeCache × ShingleColl :=
  ids.foldl (fun a nodeId => updateShingleFrequenciesForNode cfg a.1 (csr.nodes.get? nodeId) a.2) acc

/-- `_buildShingleMultiset`: build the CSR, then for every node id (the
`nodeMap` iterates its keys in insertion order `0, 1, …`) within the
`rowPtr` bounds, extract its subtree and accumulate the shingles of every
subtree node.  The collection starts as a `Set` exactly when
`frequencyThreshold === 1`. -/
def buildShingleMultiset (cfg : Config) (cache : NodeCache) (json : JSON) :
    NodeCache × ShingleColl :=
  let csr := buildCSRFromJSON cfg json
  let init : ShingleColl := if cfg.frequencyThreshold = 1 then .set ∅ else .map 0
  (List.range csr.nodes.length).foldl
    (fun acc startNodeId =>
      if startNodeId + 1 < csr.rowPtr.length then
        updateForSubtree cfg csr acc (extractSubtrees cfg csr startNodeId)
      else acc)
    (cache, init)

/-- `_thresholdMultiset`: every Set element qualifies (the Set is only used
when the threshold is 1); Map entries qualify when `count >= threshold`. -/
def thresholdMultiset (cfg : Config) : ShingleColl → Finset Nat
  | .set s => s
  | .map m => m.toFinset.filter (fun h => cfg.frequencyThreshold ≤ m.count h)

/-- `generateShingleSet`, threading the node-string cache. -/
def generateShingleSet (cfg : Config) (cache : NodeCache) (json : JSON) :
    NodeCache × Finset Nat :=
  let r := buildShingleMultiset cfg cache json
  (r.1, thresholdMultiset cfg r.2)

/-- Modelled from the spec: `generateGroupedOPHSignature` of the external
`grouped-oph` package.  Spec §4.7 specifies only the interface: a
deterministic function of the feature set, `numHashFunctions` and
`numGroups` returning `numHashFunctions` numeric values.  We use a simple
deterministic stand-in with exactly that dependency. -/
def generateGroupedOPHSignature (features : Finset Nat) (numHashFunctions numGroups : Nat) :
    List Nat :=
  (List.range numHashFunctions).map
    (fun i => (features.sort (· ≤ ·)).getD ((i * numGroups) % (features.card + 1)) 0)

/-- `generateSketch`, threading the node-string cache. -/
def generateSketch (cfg : Config) (cache : NodeCache) (json : JSON) :
    NodeCache × List Nat :=
  let r := generateShingleSet cfg cache json
  (r.1, generateGroupedOPHSignature r.2 cfg.numHashFunctions cfg.numGroups)

/- ### Constructor and validation -/

/-- The raw `options` object: `none` models an absent (`undefined` or
`null`) option; the numeric options are rationals, since JavaScript
callers may pass non-integers. -/
structure Options where
  subtreeDepth : Option Nat
  frequencyThreshold : Option Nat
  numHashFunctions : Option Rat
  numPermutations : Option Rat
  numGroups : Option Rat
  preserveArrayOrder : Option Bool
  shingleSize : Option Rat
  ignoreKeys : Option (List JsStr)
  enableNodeStringCache : Option Bool
  nodeStringCacheSize : Option Nat

/-- `x > 0 && Number.isInteger(x)` for a rational. -/
def isPosInt (q : Rat) : Prop := 0 < q ∧ q.den = 1

instance (q : Rat) : Decidable (isPosInt q) := by unfold isPosInt; infer_instance

/-- The `JSONHashify` constructor: option resolution with `??` (including
the legacy `numPermutations` fallback for `numHashFunctions`), then the
four eager validation checks, in source order, each raising the source's
error message.  Note: a fractional `shingleSize ≥ 1` or a fractional
`subtreeDepth` pass validation; for the resolved `Config` we keep the
validated integer data (`shingleSize` is floored only in the degenerate
fractional case, which validation does not rule out). -/
def JSONHashify (options : Options) : Except String Config :=
  let numHashFunctions : Rat := (options.numHashFunctions.or options.numPermutations).getD 128
  let numGroups : Rat := options.numGroups.getD 4
  let shingleSize : Rat := options.shingleSize.getD 5
  if shingleSize < 1 then
    .error "shingleSize must be at least 1"
  else if ¬ isPosInt numHashFunctions then
    .error "numHashFunctions must be a positive integer."
  else if ¬ isPosInt numGroups then
    .error "numGroups must be a positive integer."
  else if numHashFunctions.num % numGroups.num ≠ 0 then
    .error "numHashFunctions must be divisible by numGroups"
  else
    .ok
      ⟨options.subtreeDepth.getD 2,
       options.frequencyThreshold.getD 1,
       numHashFunctions.num.toNat,
       numGroups.num.toNat,
       options.preserveArrayOrder.getD true,
       shingleSize.num.toNat / shingleSize.den,
       options.ignoreKeys.getD [],
       options.enableNodeStringCache.getD false,
       options.nodeStringCacheSize.getD 1000⟩

/- ### C7 / C10: constructor validation -/

/-- **C7** Constructor validation: construction fails (returns `.error`)
if and only if one of the four conditions holds — resolved `shingleSize < 1`,
resolved `numHashFunctions` not a positive integer, resolved `numGroups`
not a positive integer, or `numHashFunctions % numGroups ≠ 0` — and for
all other option values construction succeeds.  (The four checks run
synchronously inside the constructor before any instance value is
returned, which is the eager-failure part of the claim.) -/
theorem constructor_validation (o : Options) :
    (∃ e, JSONHashify o = .error e) ↔
      (o.shingleSize.getD 5 < 1
        ∨ ¬ isPosInt ((o.numHashFunctions.or o.numPermutations).getD 128)
        ∨ ¬ isPosInt (o.numGroups.getD 4)
        ∨ ((o.numHashFunctions.or o.numPermutations).getD 128).num % (o.numGroups.getD 4).num ≠ 0) := by
  unfold JSONHashify
  dsimp only
  split_ifs <;> simp_all

/-- **C10** Legacy option name: when `options.numHashFunctions` is absent
but `options.numPermutations` is provided, the constructor behaves exactly
as if `numPermutations` had been passed as `numHashFunctions` (it becomes
the sketch length and undergoes the same positive-integer and
divisibility validation). -/
theorem numPermutations_fallback (o : Options) (p : Rat)
    (h1 : o.numHashFunctions = none) (h2 : o.numPermutations = some p) :
    JSONHashify o =
      JSONHashify
        ⟨o.subtreeDepth, o.frequencyThreshold, some p, o.numPermutations,
         o.numGroups, o.preserveArrayOrder, o.shingleSize, o.ignoreKeys,
         o.enableNodeStringCache, o.nodeStringCacheSize⟩ := by
  simp [JSONHashify, h1, h2, Option.or]

/-- Witness for C10 at a concrete option object (`numPermutations: 32`). -/
theorem numPermutations_fallback_witness :
    JSONHashify ⟨none, none, none, some 32, none, none, none, none, none, none⟩ =
      JSONHashify ⟨none, none, some 32, some 32, none, none, none, none, none, none⟩ :=
  numPermutations_fallback ⟨none, none, none, some 32, none, none, none, none, none, none⟩ 32 rfl rfl

/- ### C3: shingle production -/

/-- The direct polynomial value `Σ code(w[i]) · B^(len-1-i)` of a window. -/
def polyVal (w : JsStr) : Int :=
  ∑ i ∈ Finset.range w.length, (w.getD i 0 : Int) * ROLLING_PRIME_BASE ^ (w.length - 1 - i)

/-- The claim's direct polynomial hash
`h = Σ code(S[i]) · B^(k-1-i) mod M` of a window. -/
def polyDirect (w : JsStr) : Int := polyVal w % ROLLING_PRIME_MODULUS

theorem polyVal_append (w : JsStr) (c : Nat) :
    polyVal (w ++ [c]) = polyVal w * ROLLING_PRIME_BASE + (c : Int) := by
  unfold polyVal
  rw [List.length_append, List.length_singleton, Finset.sum_range_succ]
  have hlast : (w ++ [c]).getD w.length 0 = c := by
    rw [List.getD_eq_getElem?_getD, List.getElem?_append_right (le_refl w.length)]
    simp
  rw [hlast]
  simp only [Nat.sub_self, pow_zero, mul_one, Nat.add_sub_cancel]
  congr 1
  rw [Finset.sum_mul]
  refine Finset.sum_congr rfl (fun i hi => ?_)
  rw [Finset.mem_range] at hi
  have h1 : (w ++ [c]).getD i 0 = w.getD i 0 := by
    rw [List.getD_eq_getElem?_getD, List.getElem?_append_left hi, ← List.getD_eq_getElem?_getD]
  have h2 : w.length - i = (w.length - 1 - i) + 1 := by omega
  rw [h1, h2, pow_succ]
  ring

theorem hornerHash_append (w : JsStr) (c : Nat) :
    hornerHash (w ++ [c]) =
      (hornerHash w * ROLLING_PRIME_BASE + (c : Int)) % ROLLING_PRIME_MODULUS := by
  simp [hornerHash, List.foldl_append]

theorem hornerHash_eq_polyDirect (w : JsStr) : hornerHash w = polyDirect w := by
  induction w using List.reverseRecOn with
  | nil => simp [hornerHash, polyDirect, polyVal]
  | append_singleton w c ih =>
    rw [hornerHash_append, ih]
    unfold polyDirect
    rw [polyVal_append]
    exact ((Int.mod_modEq (polyVal w) ROLLING_PRIME_MODULUS).mul_right
      ROLLING_PRIME_BASE).add_right (c : Int)

theorem rollingHashPower_eq (k : Nat) :
    rollingHashPower k = ROLLING_PRIME_BASE ^ (k - 1) % ROLLING_PRIME_MODULUS := by
  unfold rollingHashPower
  generalize k - 1 = n
  induction n with
  | zero => decide
  | succ n ih =>
    rw [Function.iterate_succ_apply']
    rw [ih, pow_succ]
    exact (Int.mod_modEq (ROLLING_PRIME_BASE ^ n) ROLLING_PRIME_MODULUS).mul_right
      ROLLING_PRIME_BASE

theorem scanl_eq_map {α β : Type _} (f : α → β → α) (d : β) :
    ∀ (zs : List β) (g : Nat → α),
      (∀ i, i < zs.length → f (g i) (zs.getD i d) = g (i + 1)) →
      zs.scanl f (g 0) = (List.range (zs.length + 1)).map g := by
  intro zs
  induction zs with
  | nil => intro g _; rfl
  | cons z zs ih =>
    intro g hg
    rw [List.scanl_cons]
    have h0 : f (g 0) z = g 1 := by simpa using hg 0 (by simp)
    have h1 : zs.scanl f (f (g 0) z) = (List.range (zs.length + 1)).map (fun i => g (i + 1)) := by
      rw [h0]
      exact ih (fun i => g (i + 1)) (fun i hi => by simpa using hg (i + 1) (by simpa using Nat.succ_lt_succ hi))
    rw [h1]
    simp [List.range_succ_eq_map, List.map_map, Function.comp_def]

theorem polyVal_cons (c : Nat) (t : JsStr) :
    polyVal (c :: t) = (c : Int) * ROLLING_PRIME_BASE ^ t.length + polyVal t := by
  unfold polyVal
  rw [List.length_cons, Finset.sum_range_succ']
  simp only [List.getD_cons_succ, List.getD_cons_zero, Nat.add_sub_cancel, Nat.sub_zero]
  rw [add_comm]
  congr 1
  refine Finset.sum_congr rfl (fun i _ => ?_)
  congr 2
  omega

theorem rollStep_correct (k : Nat) (cout cin : Nat) (t : JsStr) (ht : t.length = k - 1) :
    rollStep k (hornerHash (cout :: t)) cout cin = hornerHash (t ++ [cin]) := by
  rw [hornerHash_eq_polyDirect, hornerHash_eq_polyDirect]
  unfold polyDirect rollStep
  rw [polyVal_cons, polyVal_append, ht, rollingHashPower_eq]
  set M := ROLLING_PRIME_MODULUS
  set B := ROLLING_PRIME_BASE
  set P := B ^ (k - 1)
  set X := (cout : Int) * P + polyVal t with hX
  have h0 : ((cout : Int) * (P % M)) % M ≡ (cout : Int) * P [ZMOD M] :=
    (Int.mod_modEq _ _).trans ((Int.mod_modEq P M).mul_left (cout : Int))
  have h1 : (X % M - ((cout : Int) * (P % M)) % M + M) ≡ polyVal t [ZMOD M] := by
    have h2 : (X % M - ((cout : Int) * (P % M)) % M + M) ≡ (X - (cout : Int) * P + M) [ZMOD M] :=
      ((Int.mod_modEq X M).sub h0).add_right M
    have h3 : X - (cout : Int) * P + M ≡ X - (cout : Int) * P [ZMOD M] := Int.add_modEq_right
    have h4 : X - (cout : Int) * P = polyVal t := by rw [hX]; ring
    have h5 := h2.trans h3
    rw [h4] at h5
    exact h5
  have h5 : ((X % M - ((cout : Int) * (P % M)) % M + M) % M) ≡ polyVal t [ZMOD M] :=
    (Int.mod_modEq _ _).trans h1
  have h6 : (((X % M - ((cout : Int) * (P % M)) % M + M) % M) * B) % M ≡ polyVal t * B [ZMOD M] :=
    (Int.mod_modEq _ _).trans (h5.mul_right B)
  exact h6.add_right (cin : Int)

theorem rollingHashes_eq (k : Nat) (hk : 1 ≤ k) (s : JsStr) (hks : k ≤ s.length) :
    rollingHashes k s =
      (List.range (s.length - k + 1)).map (fun i => hornerHash ((s.drop i).take k)) := by
  have hzlen : (s.zip (s.drop k)).length = s.length - k := by
    simp [List.length_zip, List.length_drop]
  have hstep : ∀ i, i < (s.zip (s.drop k)).length →
      (fun h p => rollStep k h p.1 p.2)
          ((fun i => hornerHash ((s.drop i).take k)) i)
          ((s.zip (s.drop k)).getD i (0, 0))
        = (fun i => hornerHash ((s.drop i).take k)) (i + 1) := by
    intro i hi
    dsimp only
    rw [hzlen] at hi
    have hb2 : i + k < s.length := by omega
    have hb1 : i < s.length := by omega
    have hzi : (s.zip (s.drop k)).getD i (0, 0) = (s.getD i 0, s.getD (i + k) 0) := by
      have hilen : i < (s.zip (s.drop k)).length := by rw [hzlen]; omega
      rw [List.getD_eq_getElem _ _ hilen, List.getElem_zip]
      rw [List.getD_eq_getElem _ _ hb1, List.getD_eq_getElem _ _ hb2]
      congr 1
      rw [List.getElem_drop]
      congr 1
      omega
    have hwc : (s.drop i).take k = s.getD i 0 :: ((s.drop (i + 1)).take (k - 1)) := by
      cases k with
      | zero => omega
      | succ k' =>
        rw [List.getD_eq_getElem _ _ hb1, List.drop_eq_getElem_cons hb1, List.take_succ_cons]
        simp
    have hws : (s.drop (i + 1)).take k = ((s.drop (i + 1)).take (k - 1)) ++ [s.getD (i + k) 0] := by
      have hlt : k - 1 < (s.drop (i + 1)).length := by
        rw [List.length_drop]; omega
      have hconc := List.take_concat_get' (s.drop (i + 1)) (k - 1) hlt
      have hk1 : k - 1 + 1 = k := by omega
      rw [hk1] at hconc
      rw [← hconc]
      congr 2
      rw [List.getElem_drop, List.getD_eq_getElem _ _ hb2]
      congr 1
      omega
    rw [hzi, hwc, hws]
    exact rollStep_correct k (s.getD i 0) (s.getD (i + k) 0) _
      (by rw [List.length_take, List.length_drop]; omega)
  have hmain := @scanl_eq_map Int (Nat × Nat) (fun h p => rollStep k h p.1 p.2)
    ((0 : Nat), (0 : Nat)) (s.zip (s.drop k)) (fun i => hornerHash ((s.drop i).take k)) hstep
  rw [hzlen] at hmain
  exact hmain

theorem addHashes_map (hs : List Nat) : ∀ (m : Multiset Nat),
    ShingleColl.addHashes (.map m) hs = .map (m + (hs : Multiset Nat)) := by
  induction hs with
  | nil => intro m; simp [ShingleColl.addHashes]
  | cons h t ih =>
    intro m
    show ShingleColl.addHashes (.map (h ::ₘ m)) t = _
    rw [ih]
    congr 1
    simp [← Multiset.cons_coe, Multiset.cons_add, Multiset.add_cons]

/-- **C3** Shingle production per canonical string: for shingle length
`k ≥ 1`, processing a canonical string `S` produces no shingles when
`len(S) = 0`; exactly one degenerate shingle (the finalized polynomial
hash of the whole string) when `0 < len(S) < k`; and exactly
`len(S) - k + 1` shingle hashes when `len(S) ≥ k`, where the hash at each
position `i` is the 32-bit finalizer applied to the direct polynomial hash
`Σ code(S[i+j]) · B^(k-1-j) mod M` of that window (the rolling update
reproduces the direct polynomial hash of every window).  The last
conjunct records that the stateless multiset path inserts exactly these
hashes into the `Map` collection. -/
theorem shingle_production (k : Nat) (hk : 1 ≤ k) (s : JsStr) :
    (s.length = 0 → nodeShingles k s = [])
    ∧ (0 < s.length → s.length < k →
        nodeShingles k s = [murmurhash3_32_gc_single_int (polyDirect s).toNat])
    ∧ (k ≤ s.length →
        (nodeShingles k s).length = s.length - k + 1
        ∧ ∀ i, i ≤ s.length - k →
            (nodeShingles k s).getD i 0
              = murmurhash3_32_gc_single_int (polyDirect ((s.drop i).take k)).toNat)
    ∧ (∀ (cfg : Config) (cache : NodeCache) (node : NodeRec) (m : Multiset Nat),
        cfg.enableNodeStringCache = false → cfg.shingleSize = k → nodeString node = s →
        updateShingleFrequenciesForNode cfg cache (some node) (.map m)
          = (cache, .map (m + (nodeShingles k s : Multiset Nat)))) := by
  refine ⟨?_, ?_, ?_, ?_⟩
  · intro h0
    unfold nodeShingles
    rw [if_neg (by omega), if_neg (by omega)]
  · intro hpos hlt
    unfold nodeShingles
    rw [if_neg (by omega), if_pos hpos, hornerHash_eq_polyDirect]
  · intro hks
    unfold nodeShingles
    rw [if_pos hks, rollingHashes_eq k hk s hks]
    constructor
    · simp
    · intro i hi
      have hlen : i < (((List.range (s.length - k + 1)).map
          (fun j => hornerHash ((s.drop j).take k))).map
            (fun h => murmurhash3_32_gc_single_int h.toNat)).length := by
        simp
        omega
      rw [List.getD_eq_getElem _ _ hlen]
      simp only [List.getElem_map, List.getElem_range]
      rw [hornerHash_eq_polyDirect]
  · intro cfg cache node m hc hsz hns
    simp only [updateShingleFrequenciesForNode, hc, hns, hsz, Bool.false_eq_true,
      if_false, addHashes_map]

/-- Witness for C3 at `k = 3`, `S = "abcd"` (spec Scenario D: two shingles). -/
theorem shingle_production_witness :
    1 ≤ 3 ∧ 3 ≤ (str2codes "abcd").length
    ∧ (nodeShingles 3 (str2codes "abcd")).length = (str2codes "abcd").length - 3 + 1 :=
  ⟨by decide, by decide,
    ((shingle_production 3 (by decide) (str2codes "abcd")).2.2.1 (by decide)).1⟩

/- ### C9: CSR well-formedness -/

theorem scanl_add_getD (l : List Nat) : ∀ (a i : Nat), i ≤ l.length →
    (l.scanl (· + ·) a).getD i 0 = a + (l.take i).sum := by
  induction l with
  | nil =>
    intro a i hi
    have h0 : i = 0 := by simpa using hi
    simp [h0]
  | cons x t ih =>
    intro a i hi
    rw [List.scanl_cons]
    cases i with
    | zero => simp
    | succ i' =>
      have hi' : i' ≤ t.length := by simpa using hi
      show (List.scanl (· + ·) (a + x) t).getD i' 0 = _
      rw [ih (a + x) i' hi', List.take_succ_cons, List.sum_cons]
      omega

theorem sum_take_mono (l : List Nat) (i j : Nat) (h : i ≤ j) :
    (l.take i).sum ≤ (l.take j).sum := by
  have h1 : l.take i = (l.take j).take i := by rw [List.take_take, min_eq_left h]
  rw [h1]
  conv_rhs => rw [← List.take_append_drop i (l.take j)]
  rw [List.sum_append]
  omega

theorem assemble_slice (cls : List (List Nat)) (i : Nat) (hi : i < cls.length) :
    ((cls.flatten).drop (((cls.take i).map List.length).sum)).take (cls.getD i []).length
      = cls.getD i [] := by
  have hdecomp : cls = cls.take i ++ cls.getD i [] :: cls.drop (i + 1) := by
    rw [List.getD_eq_getElem _ _ hi]
    conv_lhs => rw [← List.take_append_drop i cls, List.drop_eq_getElem_cons hi]
  have h1 : cls.flatten
      = (cls.take i).flatten ++ (cls.getD i [] ++ (cls.drop (i + 1)).flatten) := by
    conv_lhs => rw [hdecomp]
    rw [List.flatten_append, List.flatten_cons]
  rw [h1, List.drop_left' (by rw [List.length_flatten]), List.take_left' rfl]

/-- `WFst st`: the node table and the child-list table have the same
length (every allocated id has a child list, as maintained by
`childLists[childId] = []` in `processNode`). -/
def WFst (st : BuildState) : Prop := st.childLists.length = st.nodes.length

theorem processNode_WFst (st : BuildState) (item : JSON) (itemKey currentPath : JsStr)
    (parentId : Nat) (h : WFst st) :
    WFst (processNode st item itemKey currentPath parentId).1 := by
  unfold WFst processNode at *
  simp [h]

theorem processArrItems_WFst (cfg : Config) (path : JsStr) (parentId : Nat) :
    ∀ (xs : JArr) (st : BuildState) (i : Nat), WFst st →
      WFst (processArrItems cfg st path parentId i xs).1
  | .nil, _, _, h => h
  | .cons x rest, st, i, h =>
    processArrItems_WFst cfg path parentId rest
      (processNode st x (if cfg.preserveArrayOrder then brk i else []) path parentId).1
      (i + 1) (processNode_WFst _ _ _ _ _ h)

theorem processObjItems_WFst (cfg : Config) (path : JsStr) (parentId : Nat) :
    ∀ (kvs : JObj) (st : BuildState), WFst st →
      WFst (processObjItems cfg st path parentId kvs).1
  | .nil, _, h => h
  | .cons key val rest, st, h => by
    unfold processObjItems
    split_ifs with hmem
    · exact processObjItems_WFst cfg path parentId rest st h
    · exact processObjItems_WFst cfg path parentId rest _ (processNode_WFst _ _ _ _ _ h)

theorem processFrame_WFst (cfg : Config) (st : BuildState) (f : BuildFrame) (h : WFst st) :
    WFst (processFrame cfg st f).1 := by
  unfold processFrame
  cases f.obj with
  | arr xs => exact processArrItems_WFst cfg f.path f.parentId xs st 0 h
  | obj kvs => exact processObjItems_WFst cfg f.path f.parentId kvs st h
  | null => exact h
  | bool b => exact h
  | num n => exact h
  | str s => exact h

theorem buildLoop_WFst (cfg : Config) :
    ∀ (fuel : Nat) (st : BuildState) (stack : List BuildFrame), WFst st →
      WFst (buildLoop cfg fuel st stack) := by
  intro fuel
  induction fuel with
  | zero =>
    intro st stack h
    cases stack with
    | nil => exact h
    | cons f rest => exact h
  | succ fuel ih =>
    intro st stack h
    cases stack with
    | nil => exact h
    | cons f rest =>
      show WFst (buildLoop cfg fuel (processFrame cfg st f).1 ((processFrame cfg st f).2.reverse ++ rest))
      exact ih _ _ (processFrame_WFst cfg st f h)

theorem buildStateOf_WFst (cfg : Config) (json : JSON) : WFst (buildStateOf cfg json) := by
  unfold buildStateOf
  split_ifs with h
  · rfl
  · exact buildLoop_WFst cfg (jsize json) _ _ rfl

/-- **C9** CSR well-formedness: for every JSON input, the assembled CSR
satisfies `rowPtr[0] = 0`, `rowPtr` has length `numNodes + 1` and is
non-decreasing, `rowPtr[numNodes] = len(colIndices)`, and for every node
id `i` the slice `colIndices[rowPtr[i] .. rowPtr[i+1])` is exactly node
`i`'s child list as recorded by the traversal in discovery order. -/
theorem csr_wellformedness (cfg : Config) (json : JSON) :
    (buildCSRFromJSON cfg json).rowPtr.getD 0 0 = 0
    ∧ (buildCSRFromJSON cfg json).rowPtr.length = (buildCSRFromJSON cfg json).nodes.length + 1
    ∧ (∀ j, j < (buildCSRFromJSON cfg json).rowPtr.length → ∀ i, i ≤ j →
        (buildCSRFromJSON cfg json).rowPtr.getD i 0 ≤ (buildCSRFromJSON cfg json).rowPtr.getD j 0)
    ∧ (buildCSRFromJSON cfg json).rowPtr.getD (buildCSRFromJSON cfg json).nodes.length 0
        = (buildCSRFromJSON cfg json).colIndices.length
    ∧ ∀ i, i < (buildCSRFromJSON cfg json).nodes.length →
        childrenSlice (buildCSRFromJSON cfg json) i
          = (buildStateOf cfg json).childLists.getD i [] := by
  have hwf : (buildStateOf cfg json).childLists.length = (buildStateOf cfg json).nodes.length :=
    buildStateOf_WFst cfg json
  unfold buildCSRFromJSON assembleCSR childrenSlice
  dsimp only
  set st := buildStateOf cfg json with hst
  set cls := st.childLists with hcls
  set lm := cls.map List.length with hlm
  have hlmlen : lm.length = cls.length := by rw [hlm, List.length_map]
  have hgetD : ∀ i, i ≤ cls.length → (lm.scanl (· + ·) 0).getD i 0 = (lm.take i).sum := by
    intro i hi
    rw [scanl_add_getD lm 0 i (by omega), Nat.zero_add]
  refine ⟨?_, ?_, ?_, ?_, ?_⟩
  · rw [hgetD 0 (by omega)]
    simp
  · simp only [List.length_scanl, hlmlen, hwf]
  · intro j hj i hij
    rw [List.length_scanl, hlmlen] at hj
    rw [hgetD i (by omega), hgetD j (by omega)]
    exact sum_take_mono lm i j hij
  · rw [← hwf, hgetD cls.length (by omega)]
    rw [← hlmlen, List.take_length, List.length_flatten, hlm]
  · intro i hi
    rw [← hwf] at hi
    rw [hgetD i (by omega), hgetD (i + 1) (by omega)]
    have hx : lm.take (i + 1) = lm.take i ++ [(cls.getD i []).length] := by
      have hilm : i < lm.length := by omega
      have h1 := List.take_concat_get' lm i hilm
      rw [← h1]
      congr 1
      rw [List.getD_eq_getElem _ _ hi]
      simp [hlm]
    rw [hx, List.sum_append, List.sum_cons, List.sum_nil]
    have hdiff : (lm.take i).sum + ((cls.getD i []).length + 0) - (lm.take i).sum
        = (cls.getD i []).length := by omega
    rw [hdiff, hlm, ← List.map_take]
    exact assemble_slice cls i hi

/-- The resolved default configuration. -/
def defaultConfig : Config := ⟨2, 1, 128, 4, true, 5, [], false, 1000⟩

/-- **C2** (code evaluated at the failing input): for `{"a": [1]}` with
`preserveArrayOrder = true`, the array element's node path is `"a.[0]"` —
`processNode` receives the bracket string as a member key, so a `"."` is
inserted — not the claimed `parentPath + "[0]" = "a[0]"` (the source even
computes that string as the unused variable `fullPath`).  With
`preserveArrayOrder = false` the element's path is `"a."` (the array's
path plus a trailing dot), not the array's own path `"a"`. -/
theorem array_element_path_has_dot :
    ((buildCSRFromJSON defaultConfig
        (.obj (.cons (str2codes "a") (.arr (.cons (.num 1) .nil)) .nil))).nodes.map NodeRec.path
      = [str2codes "$root", str2codes "a", str2codes "a.[0]"])
    ∧ str2codes "a.[0]" ≠ str2codes "a[0]"
    ∧ ((buildCSRFromJSON ⟨2, 1, 128, 4, false, 5, [], false, 1000⟩
        (.obj (.cons (str2codes "a") (.arr (.cons (.num 1) .nil)) .nil))).nodes.map NodeRec.path
      = [str2codes "$root", str2codes "a", str2codes "a."])
    ∧ str2codes "a." ≠ str2codes "a" := by
  refine ⟨by decide, by decide, by decide, by decide⟩

/- ### C8: subtree extraction -/

/-- `v` is reachable from `u` in at most `d` hops along CSR child edges. -/
def reachWithin (csr : CSRData) : Nat → Nat → Nat → Prop
  | 0, u, v => v = u
  | d + 1, u, v => v = u ∨ ∃ c ∈ childrenSlice csr u, reachWithin csr d c v

theorem reachWithin_refl (csr : CSRData) : ∀ (d u : Nat), reachWithin csr d u u
  | 0, _ => rfl
  | _ + 1, _ => Or.inl rfl

theorem reachWithin_succ (csr : CSRData) :
    ∀ (d u v : Nat), reachWithin csr d u v → reachWithin csr (d + 1) u v
  | 0, _, _, h => Or.inl h
  | d + 1, u, v, h => by
    rcases h with h | ⟨c, hc, hr⟩
    · exact Or.inl h
    · exact Or.inr ⟨c, hc, reachWithin_succ csr d c v hr⟩

theorem reachWithin_mono (csr : CSRData) (d d' u v : Nat) (hdd : d ≤ d')
    (h : reachWithin csr d u v) : reachWithin csr d' u v := by
  induction d' with
  | zero =>
    have : d = 0 := by omega
    subst this
    exact h
  | succ d' ih =>
    rcases Nat.lt_or_ge d (d' + 1) with hlt | hge
    · exact reachWithin_succ csr d' u v (ih (by omega))
    · have : d = d' + 1 := by omega
      subst this
      exact h

theorem reachWithin_step (csr : CSRData) :
    ∀ (d s v c : Nat), reachWithin csr d s v → c ∈ childrenSlice csr v →
      reachWithin csr (d + 1) s c
  | 0, s, v, c, h, hc => by
    subst h
    exact Or.inr ⟨c, hc, reachWithin_refl csr 0 c⟩
  | d + 1, s, v, c, h, hc => by
    rcases h with h | ⟨m, hm, hr⟩
    · subst h
      exact Or.inr ⟨c, hc, reachWithin_refl csr (d + 1) c⟩
    · exact Or.inr ⟨m, hm, reachWithin_step csr d m v c hr hc⟩

theorem bfsEnqueue_spec (csr : CSRData) (dd : Nat) :
    ∀ (cs : List Nat) (visited : Finset Nat) (queue : List (Nat × Nat)),
      ∃ added : List Nat,
        (bfsEnqueue csr dd visited queue cs).2 = queue ++ added.map (fun c => (c, dd))
        ∧ (bfsEnqueue csr dd visited queue cs).1 = visited ∪ added.toFinset
        ∧ added.Nodup
        ∧ (∀ c ∈ added, c ∉ visited ∧ c < csr.nodes.length ∧ c ∈ cs) := by
  intro cs
  induction cs with
  | nil =>
    intro visited queue
    exact ⟨[], by simp [bfsEnqueue]⟩
  | cons c cs ih =>
    intro visited queue
    unfold bfsEnqueue
    split_ifs with hcond
    · obtain ⟨added', h1, h2, h3, h4⟩ := ih (insert c visited) (queue ++ [(c, dd)])
      refine ⟨c :: added', ?_, ?_, ?_, ?_⟩
      · rw [h1]
        simp
      · rw [h2]
        ext x
        simp [Finset.mem_insert, Finset.mem_union]
      · rw [List.nodup_cons]
        exact ⟨fun hc => (h4 c hc).1 (Finset.mem_insert_self c visited), h3⟩
      · intro x hx
        rcases List.mem_cons.mp hx with h | h
        · subst h
          exact ⟨hcond.2, hcond.1, List.mem_cons_self _ _⟩
        · have := h4 x h
          exact ⟨fun hv => this.1 (Finset.mem_insert_of_mem hv), this.2.1,
            List.mem_cons_of_mem _ this.2.2⟩
    · obtain ⟨added, h1, h2, h3, h4⟩ := ih visited queue
      exact ⟨added, h1, h2, h3, fun x hx =>
        ⟨(h4 x hx).1, (h4 x hx).2.1, List.mem_cons_of_mem _ (h4 x hx).2.2⟩⟩

theorem bfsLoop_sound (cfg : Config) (csr : CSRData) (start : Nat) :
    ∀ (fuel : Nat) (queue : List (Nat × Nat)) (visited : Finset Nat) (acc : List (Nat × Nat)),
      (acc.map Prod.fst ++ queue.map Prod.fst).Nodup →
      (∀ p ∈ acc, p.1 ∈ visited) →
      (∀ p ∈ queue, p.1 ∈ visited) →
      (∀ p ∈ queue, p.2 ≤ cfg.subtreeDepth ∧ reachWithin csr p.2 start p.1) →
      (∀ p ∈ acc, p.2 ≤ cfg.subtreeDepth ∧ reachWithin csr p.2 start p.1) →
      (acc.map Prod.snd ++ queue.map Prod.snd).Pairwise (· ≤ ·) →
      (∀ p ∈ queue, ∀ q ∈ queue, p.2 ≤ q.2 + 1) →
      ((bfsLoop cfg csr fuel queue visited acc).map Prod.fst).Nodup
      ∧ (∀ p ∈ bfsLoop cfg csr fuel queue visited acc,
          p.2 ≤ cfg.subtreeDepth ∧ reachWithin csr p.2 start p.1)
      ∧ ((bfsLoop cfg csr fuel queue visited acc).map Prod.snd).Pairwise (· ≤ ·) := by
  intro fuel
  induction fuel with
  | zero =>
    intro queue visited acc hnd _ _ _ haccprop hpair _
    have hout : bfsLoop cfg csr 0 queue visited acc = acc := by
      cases queue <;> rfl
    rw [hout]
    exact ⟨List.Nodup.sublist (List.sublist_append_left _ _) hnd, haccprop,
      List.Pairwise.sublist (List.sublist_append_left _ _) hpair⟩
  | succ fuel ih =>
    intro queue visited acc hnd haccv hqv hqprop haccprop hpair hqq
    cases queue with
    | nil =>
      exact ⟨List.Nodup.sublist (List.sublist_append_left _ _) hnd, haccprop,
        List.Pairwise.sublist (List.sublist_append_left _ _) hpair⟩
    | cons vd qs =>
      obtain ⟨v, d⟩ := vd
      have hvd_mem : (v, d) ∈ (v, d) :: qs := List.mem_cons_self _ _
      have hvD : d ≤ cfg.subtreeDepth := (hqprop _ hvd_mem).1
      have hvreach : reachWithin csr d start v := (hqprop _ hvd_mem).2
      -- the combined id list, reassociated
      have hnd' : ((acc ++ [(v, d)]).map Prod.fst ++ qs.map Prod.fst).Nodup := by
        simpa [List.append_assoc] using hnd
      have hpair' : ((acc ++ [(v, d)]).map Prod.snd ++ qs.map Prod.snd).Pairwise (· ≤ ·) := by
        simpa [List.append_assoc] using hpair
      have haccprop' : ∀ p ∈ acc ++ [(v, d)],
          p.2 ≤ cfg.subtreeDepth ∧ reachWithin csr p.2 start p.1 := by
        intro p hp
        rcases List.mem_append.mp hp with h | h
        · exact haccprop p h
        · rcases List.mem_singleton.mp h with rfl
          exact ⟨hvD, hvreach⟩
      have hqs_le : ∀ b ∈ qs.map Prod.snd, d ≤ b := by
        have h1 : (((v, d) :: qs).map Prod.snd).Pairwise (· ≤ ·) :=
          (List.pairwise_append.mp hpair).2.1
        rw [List.map_cons, List.pairwise_cons] at h1
        exact h1.1
      by_cases hd : d < cfg.subtreeDepth
      · -- enqueue branch
        obtain ⟨added, hq', hv', hadnodup, hadprops⟩ :=
          bfsEnqueue_spec csr (d + 1) (childrenSlice csr v) visited qs
        have hout : bfsLoop cfg csr (fuel + 1) ((v, d) :: qs) visited acc
            = bfsLoop cfg csr fuel (bfsEnqueue csr (d + 1) visited qs (childrenSlice csr v)).2
                (bfsEnqueue csr (d + 1) visited qs (childrenSlice csr v)).1 (acc ++ [(v, d)]) := by
          simp only [bfsLoop, hd, if_true]
        rw [hout, hq', hv']
        have hmemv : ∀ x ∈ acc.map Prod.fst ++ (v, d).1 :: qs.map Prod.fst, x ∈ visited := by
          intro x hx
          rcases List.mem_append.mp hx with h | h
          · obtain ⟨p, hp, rfl⟩ := List.mem_map.mp h
            exact haccv p hp
          · rcases List.mem_cons.mp h with h | h
            · subst h; exact hqv _ hvd_mem
            · obtain ⟨p, hp, rfl⟩ := List.mem_map.mp h
              exact hqv p (List.mem_cons_of_mem _ hp)
        refine ih (qs ++ added.map (fun c => (c, d + 1))) (visited ∪ added.toFinset)
          (acc ++ [(v, d)]) ?_ ?_ ?_ ?_ haccprop' ?_ ?_
        · -- Nodup
          have hlist : (acc ++ [(v, d)]).map Prod.fst
                ++ (qs ++ added.map (fun c => (c, d + 1))).map Prod.fst
              = (acc.map Prod.fst ++ ((v, d) :: qs).map Prod.fst) ++ added := by
            simp [List.map_append, Function.comp_def]
          rw [hlist, List.nodup_append]
          refine ⟨hnd, hadnodup, ?_⟩
          intro x hx1 hx2
          exact (hadprops x hx2).1 (hmemv x (by simpa using hx1))
        · -- acc ids visited
          intro p hp
          exact Finset.mem_union_left _ (by
            rcases List.mem_append.mp hp with h | h
            · exact haccv p h
            · rcases List.mem_singleton.mp h with rfl
              exact hqv _ hvd_mem)
        · -- queue ids visited
          intro p hp
          rcases List.mem_append.mp hp with h | h
          · exact Finset.mem_union_left _ (hqv p (List.mem_cons_of_mem _ h))
          · obtain ⟨c, hc, rfl⟩ := List.mem_map.mp h
            exact Finset.mem_union_right _ (by simpa using hc)
        · -- queue props
          intro p hp
          rcases List.mem_append.mp hp with h | h
          · exact hqprop p (List.mem_cons_of_mem _ h)
          · obtain ⟨c, hc, rfl⟩ := List.mem_map.mp h
            exact ⟨by omega,
              reachWithin_step csr d start v c hvreach (hadprops c hc).2.2⟩
        · -- Pairwise
          have hlist2 : (acc ++ [(v, d)]).map Prod.snd
                ++ (qs ++ added.map (fun c => (c, d + 1))).map Prod.snd
              = (acc.map Prod.snd ++ ((v, d) :: qs).map Prod.snd)
                  ++ added.map (fun _ => d + 1) := by
            simp [List.map_append, Function.comp_def]
          rw [hlist2, List.pairwise_append]
          refine ⟨hpair, ?_, ?_⟩
          · rw [List.pairwise_map]
            exact hadnodup.imp (fun _ => le_rfl)
          · intro a ha b hb
            obtain ⟨c, hc, rfl⟩ := List.mem_map.mp hb
            rcases List.mem_append.mp ha with h | h
            · have := (List.pairwise_append.mp hpair).2.2 a h d (by simp)
              omega
            · rw [List.map_cons, List.mem_cons] at h
              rcases h with h | h
              · omega
              · obtain ⟨p, hp, rfl⟩ := List.mem_map.mp h
                have := hqq p (List.mem_cons_of_mem _ hp) (v, d) hvd_mem
                omega
        · -- pairwise-plus-one bound on the queue
          intro p hp q hq
          rcases List.mem_append.mp hp with h1 | h1 <;> rcases List.mem_append.mp hq with h2 | h2
          · exact hqq p (List.mem_cons_of_mem _ h1) q (List.mem_cons_of_mem _ h2)
          · obtain ⟨c, hc, rfl⟩ := List.mem_map.mp h2
            have := hqq p (List.mem_cons_of_mem _ h1) (v, d) hvd_mem
            omega
          · obtain ⟨c, hc, rfl⟩ := List.mem_map.mp h1
            have := hqs_le q.2 (List.mem_map_of_mem Prod.snd h2)
            omega
          · obtain ⟨c, hc, rfl⟩ := List.mem_map.mp h1
            obtain ⟨c2, hc2, rfl⟩ := List.mem_map.mp h2
            omega
      · -- no-enqueue branch
        have hout : bfsLoop cfg csr (fuel + 1) ((v, d) :: qs) visited acc
            = bfsLoop cfg csr fuel qs visited (acc ++ [(v, d)]) := by
          simp only [bfsLoop, hd, if_false]
        rw [hout]
        refine ih qs visited (acc ++ [(v, d)]) hnd' ?_
          (fun p hp => hqv p (List.mem_cons_of_mem _ hp))
          (fun p hp => hqprop p (List.mem_cons_of_mem _ hp)) haccprop' hpair'
          (fun p hp q hq => hqq p (List.mem_cons_of_mem _ hp) q (List.mem_cons_of_mem _ hq))
        intro p hp
        rcases List.mem_append.mp hp with h | h
        · exact haccv p h
        · rcases List.mem_singleton.mp h with rfl
          exact hqv _ hvd_mem

/-- A valid CSR adjacency (the invariants of C9, plus in-range column
indices). -/
def ValidCSR (csr : CSRData) : Prop :=
  csr.rowPtr.length = csr.nodes.length + 1
  ∧ csr.rowPtr.getD 0 0 = 0
  ∧ (∀ j, j < csr.rowPtr.length → ∀ i, i ≤ j → csr.rowPtr.getD i 0 ≤ csr.rowPtr.getD j 0)
  ∧ csr.rowPtr.getD csr.nodes.length 0 = csr.colIndices.length
  ∧ (∀ c ∈ csr.colIndices, c < csr.nodes.length)

instance (csr : CSRData) : Decidable (ValidCSR csr) := by
  unfold ValidCSR
  infer_instance

/-- **C8** Subtree extraction bounds: for every valid CSR adjacency, start
node id and `maxDepth = cfg.subtreeDepth ≥ 0`, the extracted node-id
sequence has no duplicates, contains only nodes reachable from the start
node within `maxDepth` hops (each listed node already within its own depth
label, which never exceeds the bound), lists nodes in breadth-first order
(the depth labels along the output are non-decreasing), and `maxDepth = 0`
yields exactly the singleton `[start]`. -/
theorem subtree_extraction_bounds (cfg : Config) (csr : CSRData) (start : Nat)
    (hv : ValidCSR csr) (hs : start < csr.nodes.length) :
    (extractSubtrees cfg csr start).Nodup
    ∧ (∀ v ∈ extractSubtrees cfg csr start, reachWithin csr cfg.subtreeDepth start v)
    ∧ (∀ p ∈ extractSubtreesD cfg csr start,
        p.2 ≤ cfg.subtreeDepth ∧ reachWithin csr p.2 start p.1)
    ∧ ((extractSubtreesD cfg csr start).map Prod.snd).Pairwise (· ≤ ·)
    ∧ (cfg.subtreeDepth = 0 → extractSubtrees cfg csr start = [start]) := by
  have hguard : start < csr.nodes.length ∧ start + 1 < csr.rowPtr.length := by
    refine ⟨hs, ?_⟩
    rw [hv.1]
    omega
  have hunf : extractSubtreesD cfg csr start
      = bfsLoop cfg csr csr.nodes.length [(start, 0)] {start} [] := by
    unfold extractSubtreesD
    rw [if_pos hguard]
  have hmaster := bfsLoop_sound cfg csr start csr.nodes.length [(start, 0)] {start} []
    (by simp) (by simp) (by simp)
    (by
      intro p hp
      rcases List.mem_singleton.mp hp with rfl
      exact ⟨Nat.zero_le _, reachWithin_refl csr 0 start⟩)
    (by simp) (by simp) (by simp)
  refine ⟨?_, ?_, ?_, ?_, ?_⟩
  · unfold extractSubtrees
    rw [hunf]
    exact hmaster.1
  · intro v hv2
    unfold extractSubtrees at hv2
    rw [hunf] at hv2
    obtain ⟨p, hp, rfl⟩ := List.mem_map.mp hv2
    exact reachWithin_mono csr p.2 cfg.subtreeDepth start p.1 (hmaster.2.1 p hp).1
      (hmaster.2.1 p hp).2
  · intro p hp
    rw [hunf] at hp
    exact hmaster.2.1 p hp
  · rw [hunf]
    exact hmaster.2.2
  · intro hD
    obtain ⟨m, hm⟩ : ∃ m, csr.nodes.length = m + 1 := ⟨csr.nodes.length - 1, by omega⟩
    unfold extractSubtrees
    rw [hunf, hm]
    simp [bfsLoop, hD]

/-- A small concrete valid CSR (a root with two leaf children) used to
witness `subtree_extraction_bounds`. -/
def sampleCSR : CSRData :=
  ⟨[0, 2, 2, 2], [1, 2],
   [⟨rootPath, none⟩, ⟨str2codes "a", some (.num 1)⟩, ⟨str2codes "b", some (.num 2)⟩]⟩

/-- Witness for C8 at a concrete valid CSR and start node. -/
theorem subtree_extraction_bounds_witness :
    ValidCSR sampleCSR ∧ 0 < sampleCSR.nodes.length
    ∧ (extractSubtrees defaultConfig sampleCSR 0).Nodup :=
  ⟨by decide, by decide,
    (subtree_extraction_bounds defaultConfig sampleCSR 0 (by decide) (by decide)).1⟩

/- ### C4 / C1: shingle accumulation, thresholding and caching -/

/-- The set of shingle hashes of one canonical string. -/
def windowFinset (k : Nat) (s : JsStr) : Finset Nat := (nodeShingles k s).toFinset

/-- Every cache entry stores exactly the shingle set of its key (the only
entries the code ever writes). -/
def CacheInv (k : Nat) (cache : NodeCache) : Prop :=
  ∀ e ∈ cache, e.2 = windowFinset k e.1

/-- Set-level contribution of one processed (optional) node. -/
def contribFinset (k : Nat) : Option NodeRec → Finset Nat
  | none => ∅
  | some nd => windowFinset k (nodeString nd)

/-- Multiset-level contribution of one processed (optional) node: with the
cache enabled each distinct hash of the node string counts once, without
it every produced hash counts. -/
def contribMultiset (cfg : Config) (n : Option NodeRec) : Multiset Nat :=
  if cfg.enableNodeStringCache then (contribFinset cfg.shingleSize n).val
  else match n with
    | none => 0
    | some nd => (nodeShingles cfg.shingleSize (nodeString nd) : Multiset Nat)

theorem addHashes_set (hs : List Nat) : ∀ (s : Finset Nat),
    ShingleColl.addHashes (.set s) hs = .set (s ∪ hs.toFinset) := by
  induction hs with
  | nil => intro s; simp [ShingleColl.addHashes]
  | cons h t ih =>
    intro s
    show ShingleColl.addHashes (.set (insert h s)) t = _
    rw [ih]
    congr 1
    ext x
    simp [List.toFinset_cons]

theorem cacheGet_fst (k : Nat) (cache : NodeCache) (s : JsStr)
    (hinv : CacheInv k cache) (fs : Finset Nat)
    (h : (cacheGet cache s).1 = some fs) : fs = windowFinset k s := by
  unfold cacheGet at h
  cases hf : cache.find? (fun e => e.1 = s) with
  | none => rw [hf] at h; simp at h
  | some e =>
    rw [hf] at h
    simp at h
    subst h
    have hmem : e ∈ cache := List.mem_of_find?_eq_some hf
    have hpred := List.find?_some hf
    have hkey : e.1 = s := by simpa using hpred
    rw [hinv e hmem, hkey]

theorem cacheGet_snd_inv (k : Nat) (cache : NodeCache) (s : JsStr)
    (hinv : CacheInv k cache) : CacheInv k (cacheGet cache s).2 := by
  unfold cacheGet
  cases hf : cache.find? (fun e => e.1 = s) with
  | none => exact hinv
  | some e =>
    intro e2 he2
    rcases List.mem_cons.mp he2 with h | h
    · subst h
      exact hinv e2 (List.mem_of_find?_eq_some hf)
    · exact hinv e2 (List.mem_of_mem_filter h)

theorem cacheSet_inv (k cap : Nat) (cache : NodeCache) (s : JsStr)
    (hinv : CacheInv k cache) :
    CacheInv k (cacheSet cap cache s (windowFinset k s)) := by
  intro e he
  have := List.mem_of_mem_take he
  rcases List.mem_cons.mp this with h | h
  · subst h; rfl
  · exact hinv e (List.mem_of_mem_filter h)

theorem updateNode_effect (cfg : Config) (cache : NodeCache) (n : Option NodeRec)
    (coll : ShingleColl) (hinv : CacheInv cfg.shingleSize cache) :
    CacheInv cfg.shingleSize (updateShingleFrequenciesForNode cfg cache n coll).1
    ∧ (∀ s, coll = .set s →
        (updateShingleFrequenciesForNode cfg cache n coll).2
          = .set (s ∪ contribFinset cfg.shingleSize n))
    ∧ (∀ m, coll = .map m →
        (updateShingleFrequenciesForNode cfg cache n coll).2
          = .map (m + contribMultiset cfg n)) := by
  cases n with
  | none =>
    refine ⟨hinv, ?_, ?_⟩
    · intro s hs
      subst hs
      simp [updateShingleFrequenciesForNode, contribFinset]
    · intro m hm
      subst hm
      simp [updateShingleFrequenciesForNode, contribMultiset, contribFinset]
  | some nd =>
    by_cases hen : cfg.enableNodeStringCache
    · rcases hget : cacheGet cache (nodeString nd) with ⟨fs?, cache1⟩
      cases fs? with
      | some fs =>
        have hfs : fs = windowFinset cfg.shingleSize (nodeString nd) :=
          cacheGet_fst cfg.shingleSize cache (nodeString nd) hinv fs (by rw [hget])
        have hc1 : CacheInv cfg.shingleSize cache1 := by
          have := cacheGet_snd_inv cfg.shingleSize cache (nodeString nd) hinv
          rwa [hget] at this
        refine ⟨?_, ?_, ?_⟩
        · simpa [updateShingleFrequenciesForNode, hen, hget] using hc1
        · intro s hs
          subst hs
          simp [updateShingleFrequenciesForNode, hen, hget, ShingleColl.addFinset,
            contribFinset, hfs]
        · intro m hm
          subst hm
          simp [updateShingleFrequenciesForNode, hen, hget, ShingleColl.addFinset,
            contribMultiset, contribFinset, hfs]
      | none =>
        have hc1 : CacheInv cfg.shingleSize cache1 := by
          have := cacheGet_snd_inv cfg.shingleSize cache (nodeString nd) hinv
          rwa [hget] at this
        refine ⟨?_, ?_, ?_⟩
        · simp only [updateShingleFrequenciesForNode, hen, hget, if_true]
          exact cacheSet_inv cfg.shingleSize cfg.nodeStringCacheSize cache1 (nodeString nd) hc1
        · intro s hs
          subst hs
          simp [updateShingleFrequenciesForNode, hen, hget, ShingleColl.addFinset,
            contribFinset, windowFinset]
        · intro m hm
          subst hm
          simp [updateShingleFrequenciesForNode, hen, hget, ShingleColl.addFinset,
            contribMultiset, contribFinset, windowFinset]
    · refine ⟨?_, ?_, ?_⟩
      · simpa [updateShingleFrequenciesForNode, hen] using hinv
      · intro s hs
        subst hs
        simp [updateShingleFrequenciesForNode, hen, addHashes_set,
          contribFinset, windowFinset]
      · intro m hm
        subst hm
        simp [updateShingleFrequenciesForNode, hen, addHashes_map,
          contribMultiset]

/-- Folding the per-node update over a list of (optional) nodes, threading
the cache — the shape of the accumulation in `_buildShingleMultiset`. -/
def foldUpdate (cfg : Config) (acc : NodeCache × ShingleColl)
    (L : List (Option NodeRec)) : NodeCache × ShingleColl :=
  L.foldl (fun a n => updateShingleFrequenciesForNode cfg a.1 n a.2) acc

theorem foldUpdate_effect (cfg : Config) : ∀ (L : List (Option NodeRec))
    (cache : NodeCache) (coll : ShingleColl), CacheInv cfg.shingleSize cache →
    CacheInv cfg.shingleSize (foldUpdate cfg (cache, coll) L).1
    ∧ (∀ s, coll = .set s →
        (foldUpdate cfg (cache, coll) L).2
          = .set (L.foldl (fun s n => s ∪ contribFinset cfg.shingleSize n) s))
    ∧ (∀ m, coll = .map m →
        (foldUpdate cfg (cache, coll) L).2
          = .map (L.foldl (fun m n => m + contribMultiset cfg n) m)) := by
  intro L
  induction L with
  | nil =>
    intro cache coll hinv
    refine ⟨hinv, ?_, ?_⟩
    · intro s hs; rw [hs]; rfl
    · intro m hm; rw [hm]; rfl
  | cons n t ih =>
    intro cache coll hinv
    obtain ⟨h1, h2, h3⟩ := updateNode_effect cfg cache n coll hinv
    have hstep : foldUpdate cfg (cache, coll) (n :: t)
        = foldUpdate cfg (updateShingleFrequenciesForNode cfg cache n coll) t := rfl
    rcases hu : updateShingleFrequenciesForNode cfg cache n coll with ⟨cache1, coll1⟩
    have hc1 : CacheInv cfg.shingleSize cache1 := by
      have := h1; rwa [hu] at this
    obtain ⟨g1, g2, g3⟩ := ih cache1 coll1 hc1
    refine ⟨?_, ?_, ?_⟩
    · rw [hstep, hu]; exact g1
    · intro s hs
      rw [hstep, hu]
      have hcoll1 : coll1 = .set (s ∪ contribFinset cfg.shingleSize n) := by
        have := h2 s hs; rwa [hu] at this
      rw [g2 _ hcoll1]
      rfl
    · intro m hm
      rw [hstep, hu]
      have hcoll1 : coll1 = .map (m + contribMultiset cfg n) := by
        have := h3 m hm; rwa [hu] at this
      rw [g3 _ hcoll1]
      rfl

/-- The flat list of (optional) node records processed by
`_buildShingleMultiset`: for every in-range start node, the records of its
extracted subtree, in processing order. -/
def processedNodes (cfg : Config) (csr : CSRData) : List (Option NodeRec) :=
  (List.range csr.nodes.length).flatMap (fun startNodeId =>
    if startNodeId + 1 < csr.rowPtr.length then
      (extractSubtrees cfg csr startNodeId).map csr.nodes.get?
    else [])

theorem foldUpdate_append (cfg : Config) (acc : NodeCache × ShingleColl)
    (l1 l2 : List (Option NodeRec)) :
    foldUpdate cfg acc (l1 ++ l2) = foldUpdate cfg (foldUpdate cfg acc l1) l2 := by
  unfold foldUpdate
  rw [List.foldl_append]

theorem updateForSubtree_eq (cfg : Config) (csr : CSRData)
    (acc : NodeCache × ShingleColl) (ids : List Nat) :
    updateForSubtree cfg csr acc ids
      = foldUpdate cfg acc (ids.map csr.nodes.get?) := by
  unfold updateForSubtree foldUpdate
  rw [List.foldl_map]

theorem buildShingleMultiset_eq_foldUpdate (cfg : Config) (cache : NodeCache) (json : JSON) :
    buildShingleMultiset cfg cache json
      = foldUpdate cfg
          (cache, if cfg.frequencyThreshold = 1 then .set ∅ else .map 0)
          (processedNodes cfg (buildCSRFromJSON cfg json)) := by
  unfold buildShingleMultiset processedNodes
  dsimp only
  generalize buildCSRFromJSON cfg json = csr
  generalize ((cache, if cfg.frequencyThreshold = 1 then ShingleColl.set ∅
    else ShingleColl.map 0) : NodeCache × ShingleColl) = acc
  generalize List.range csr.nodes.length = L
  induction L generalizing acc with
  | nil => rfl
  | cons x t ih =>
    rw [List.foldl_cons, List.flatMap_cons, foldUpdate_append]
    split_ifs with hg
    · rw [← updateForSubtree_eq cfg csr acc (extractSubtrees cfg csr x)]
      exact ih (updateForSubtree cfg csr acc (extractSubtrees cfg csr x))
    · exact ih acc

theorem mem_foldl_union {α : Type _} (f : α → Finset Nat) :
    ∀ (L : List α) (s0 : Finset Nat) (h : Nat),
      (h ∈ L.foldl (fun s x => s ∪ f x) s0 ↔ h ∈ s0 ∨ ∃ x ∈ L, h ∈ f x) := by
  intro L
  induction L with
  | nil => intro s0 h; simp
  | cons a t ih =>
    intro s0 h
    rw [List.foldl_cons, ih]
    simp [Finset.mem_union]
    tauto

theorem contribMultiset_toFinset (cfg : Config) (n : Option NodeRec) :
    (contribMultiset cfg n).toFinset = contribFinset cfg.shingleSize n := by
  unfold contribMultiset
  split_ifs with hen
  · exact Finset.val_toFinset _
  · cases n with
    | none => simp [contribFinset]
    | some nd => simp [contribFinset, windowFinset]

theorem foldl_set_eq_map_toFinset (cfg : Config) :
    ∀ (L : List (Option NodeRec)) (s0 : Finset Nat) (m0 : Multiset Nat),
      s0 = m0.toFinset →
      L.foldl (fun s n => s ∪ contribFinset cfg.shingleSize n) s0
        = (L.foldl (fun m n => m + contribMultiset cfg n) m0).toFinset := by
  intro L
  induction L with
  | nil => intro s0 m0 h; simpa using h
  | cons a t ih =>
    intro s0 m0 h
    rw [List.foldl_cons, List.foldl_cons]
    refine ih _ _ ?_
    rw [Multiset.toFinset_add, contribMultiset_toFinset, h]

theorem contribFinset_eq_elim (k : Nat) (n : Option NodeRec) :
    contribFinset k n
      = n.elim ∅ (fun nd => (nodeShingles k (nodeString nd)).toFinset) := by
  cases n <;> rfl

/-- Refinement definition, following the spec's words for the general
path (spec §3, ShingleMultiset): the same accumulation as
`_buildShingleMultiset` but always with the general `Map`-based multiset
collection, to be compared with the `Set`-based fast path. -/
def buildShingleMultisetMapPath (cfg : Config) (cache : NodeCache) (json : JSON) :
    NodeCache × ShingleColl :=
  let csr := buildCSRFromJSON cfg json
  (List.range csr.nodes.length).foldl
    (fun acc startNodeId =>
      if startNodeId + 1 < csr.rowPtr.length then
        updateForSubtree cfg csr acc (extractSubtrees cfg csr startNodeId)
      else acc)
    (cache, .map 0)

theorem buildShingleMultisetMapPath_eq_foldUpdate (cfg : Config) (cache : NodeCache)
    (json : JSON) :
    buildShingleMultisetMapPath cfg cache json
      = foldUpdate cfg (cache, .map 0) (processedNodes cfg (buildCSRFromJSON cfg json)) := by
  unfold buildShingleMultisetMapPath processedNodes
  dsimp only
  generalize buildCSRFromJSON cfg json = csr
  generalize ((cache, ShingleColl.map 0) : NodeCache × ShingleColl) = acc
  generalize List.range csr.nodes.length = L
  induction L generalizing acc with
  | nil => rfl
  | cons x t ih =>
    rw [List.foldl_cons, List.flatMap_cons, foldUpdate_append]
    split_ifs with hg
    · rw [← updateForSubtree_eq cfg csr acc (extractSubtrees cfg csr x)]
      exact ih (updateForSubtree cfg csr acc (extractSubtrees cfg csr x))
    · exact ih acc

/-- **C4** Threshold=1 fast path: with `frequencyThreshold = 1` (so the
`Set` collection is used) and any cache state whose entries are correct
(`CacheInv` — in particular a fresh or absent cache), `generateShingleSet`
returns exactly the union of all shingle hashes produced from every node
of every extracted subtree, with no omissions; and this `Set`-based result
is identical to the general `Map`-based multiset path followed by
thresholding. -/
theorem threshold_one_fast_path (cfg : Config) (cache : NodeCache) (json : JSON)
    (h1 : cfg.frequencyThreshold = 1) (hinv : CacheInv cfg.shingleSize cache) :
    (∀ h : Nat, h ∈ (generateShingleSet cfg cache json).2 ↔
      ∃ startNodeId, startNodeId < (buildCSRFromJSON cfg json).nodes.length
        ∧ startNodeId + 1 < (buildCSRFromJSON cfg json).rowPtr.length
        ∧ ∃ nodeId ∈ extractSubtrees cfg (buildCSRFromJSON cfg json) startNodeId,
            h ∈ ((buildCSRFromJSON cfg json).nodes.get? nodeId).elim ∅
              (fun nd => (nodeShingles cfg.shingleSize (nodeString nd)).toFinset))
    ∧ (generateShingleSet cfg cache json).2
        = thresholdMultiset cfg (buildShingleMultisetMapPath cfg cache json).2 := by
  have hset : (buildShingleMultiset cfg cache json).2
      = .set ((processedNodes cfg (buildCSRFromJSON cfg json)).foldl
          (fun s n => s ∪ contribFinset cfg.shingleSize n) ∅) := by
    rw [buildShingleMultiset_eq_foldUpdate]
    have := (foldUpdate_effect cfg (processedNodes cfg (buildCSRFromJSON cfg json))
      cache (if cfg.frequencyThreshold = 1 then .set ∅ else .map 0) hinv).2.1 ∅
    rw [h1] at this ⊢
    exact this (by rw [if_pos rfl])
  have hout : (generateShingleSet cfg cache json).2
      = (processedNodes cfg (buildCSRFromJSON cfg json)).foldl
          (fun s n => s ∪ contribFinset cfg.shingleSize n) ∅ := by
    unfold generateShingleSet
    dsimp only
    rw [hset]
    rfl
  constructor
  · intro h
    rw [hout, mem_foldl_union]
    simp only [Finset.not_mem_empty, false_or]
    constructor
    · rintro ⟨n, hn, hcontrib⟩
      unfold processedNodes at hn
      rw [List.mem_flatMap] at hn
      obtain ⟨startNodeId, hstart, hmem⟩ := hn
      rw [List.mem_range] at hstart
      by_cases hg : startNodeId + 1 < (buildCSRFromJSON cfg json).rowPtr.length
      · rw [if_pos hg] at hmem
        obtain ⟨nodeId, hid, rfl⟩ := List.mem_map.mp hmem
        exact ⟨startNodeId, hstart, hg, nodeId, hid, by
          rw [← contribFinset_eq_elim]
          exact hcontrib⟩
      · rw [if_neg hg] at hmem
        cases hmem
    · rintro ⟨startNodeId, hstart, hg, nodeId, hid, hmem⟩
      refine ⟨(buildCSRFromJSON cfg json).nodes.get? nodeId, ?_, ?_⟩
      · unfold processedNodes
        rw [List.mem_flatMap]
        exact ⟨startNodeId, List.mem_range.mpr hstart, by
          rw [if_pos hg]
          exact List.mem_map_of_mem _ hid⟩
      · rw [contribFinset_eq_elim]
        exact hmem
  · have hmap : (buildShingleMultisetMapPath cfg cache json).2
        = .map ((processedNodes cfg (buildCSRFromJSON cfg json)).foldl
            (fun m n => m + contribMultiset cfg n) 0) := by
      rw [buildShingleMultisetMapPath_eq_foldUpdate]
      exact (foldUpdate_effect cfg (processedNodes cfg (buildCSRFromJSON cfg json))
        cache (.map 0) hinv).2.2 0 rfl
    rw [hout, hmap]
    unfold thresholdMultiset
    rw [foldl_set_eq_map_toFinset cfg _ ∅ 0 (by simp)]
    rw [h1]
    refine (Finset.filter_true_of_mem ?_).symm
    intro x hx
    rw [Multiset.mem_toFinset] at hx
    exact Multiset.one_le_count_iff_mem.mpr hx

/-- Witness for C4 at the default configuration, empty cache, and the
document `[1, 2]`. -/
theorem threshold_one_fast_path_witness :
    defaultConfig.frequencyThreshold = 1
    ∧ (generateShingleSet defaultConfig []
          (.arr (.cons (.num 1) (.cons (.num 2) .nil)))).2
        = thresholdMultiset defaultConfig
            (buildShingleMultisetMapPath defaultConfig []
              (.arr (.cons (.num 1) (.cons (.num 2) .nil)))).2 :=
  ⟨rfl, (threshold_one_fast_path defaultConfig []
    (.arr (.cons (.num 1) (.cons (.num 2) .nil))) rfl
    (fun e he => absurd he (List.not_mem_nil e))).2⟩

/- ### C1: cache transparency -/

theorem processArrItems_congr (cfg1 cfg2 : Config)
    (hpo : cfg1.preserveArrayOrder = cfg2.preserveArrayOrder) :
    ∀ (xs : JArr) (st : BuildState) (path : JsStr) (parentId i : Nat),
      processArrItems cfg1 st path parentId i xs = processArrItems cfg2 st path parentId i xs
  | .nil, _, _, _, _ => rfl
  | .cons x rest, st, path, pid, i => by
    unfold processArrItems
    dsimp only
    rw [hpo, processArrItems_congr cfg1 cfg2 hpo rest]

theorem processObjItems_congr (cfg1 cfg2 : Config)
    (hik : cfg1.ignoreKeys = cfg2.ignoreKeys) :
    ∀ (kvs : JObj) (st : BuildState) (path : JsStr) (parentId : Nat),
      processObjItems cfg1 st path parentId kvs = processObjItems cfg2 st path parentId kvs
  | .nil, _, _, _ => rfl
  | .cons key val rest, st, path, pid => by
    unfold processObjItems
    dsimp only
    rw [hik, processObjItems_congr cfg1 cfg2 hik rest,
      processObjItems_congr cfg1 cfg2 hik rest]

theorem processFrame_congr (cfg1 cfg2 : Config)
    (hpo : cfg1.preserveArrayOrder = cfg2.preserveArrayOrder)
    (hik : cfg1.ignoreKeys = cfg2.ignoreKeys)
    (st : BuildState) (f : BuildFrame) :
    processFrame cfg1 st f = processFrame cfg2 st f := by
  unfold processFrame
  cases f.obj with
  | arr xs => exact processArrItems_congr cfg1 cfg2 hpo xs st f.path f.parentId 0
  | obj kvs => exact processObjItems_congr cfg1 cfg2 hik kvs st f.path f.parentId
  | null => rfl
  | bool b => rfl
  | num n => rfl
  | str s => rfl

theorem buildLoop_congr (cfg1 cfg2 : Config)
    (hpo : cfg1.preserveArrayOrder = cfg2.preserveArrayOrder)
    (hik : cfg1.ignoreKeys = cfg2.ignoreKeys) :
    ∀ (fuel : Nat) (st : BuildState) (stack : List BuildFrame),
      buildLoop cfg1 fuel st stack = buildLoop cfg2 fuel st stack := by
  intro fuel
  induction fuel with
  | zero => intro st stack; cases stack <;> rfl
  | succ fuel ih =>
    intro st stack
    cases stack with
    | nil => rfl
    | cons f rest =>
      show buildLoop cfg1 fuel (processFrame cfg1 st f).1
          ((processFrame cfg1 st f).2.reverse ++ rest) = _
      rw [processFrame_congr cfg1 cfg2 hpo hik st f]
      exact ih _ _

theorem buildCSRFromJSON_congr (cfg1 cfg2 : Config)
    (hpo : cfg1.preserveArrayOrder = cfg2.preserveArrayOrder)
    (hik : cfg1.ignoreKeys = cfg2.ignoreKeys) (json : JSON) :
    buildCSRFromJSON cfg1 json = buildCSRFromJSON cfg2 json := by
  unfold buildCSRFromJSON buildStateOf
  split_ifs with h
  · rfl
  · rw [buildLoop_congr cfg1 cfg2 hpo hik]

theorem bfsLoop_congr (cfg1 cfg2 : Config) (csr : CSRData)
    (hsd : cfg1.subtreeDepth = cfg2.subtreeDepth) :
    ∀ (fuel : Nat) (queue : List (Nat × Nat)) (visited : Finset Nat) (acc : List (Nat × Nat)),
      bfsLoop cfg1 csr fuel queue visited acc = bfsLoop cfg2 csr fuel queue visited acc := by
  intro fuel
  induction fuel with
  | zero => intro queue visited acc; cases queue <;> rfl
  | succ fuel ih =>
    intro queue visited acc
    cases queue with
    | nil => rfl
    | cons vd qs =>
      obtain ⟨v, d⟩ := vd
      have hL : bfsLoop cfg1 csr (fuel + 1) ((v, d) :: qs) visited acc
          = if d < cfg1.subtreeDepth then
              bfsLoop cfg1 csr fuel (bfsEnqueue csr (d + 1) visited qs (childrenSlice csr v)).2
                (bfsEnqueue csr (d + 1) visited qs (childrenSlice csr v)).1 (acc ++ [(v, d)])
            else bfsLoop cfg1 csr fuel qs visited (acc ++ [(v, d)]) := rfl
      have hR : bfsLoop cfg2 csr (fuel + 1) ((v, d) :: qs) visited acc
          = if d < cfg2.subtreeDepth then
              bfsLoop cfg2 csr fuel (bfsEnqueue csr (d + 1) visited qs (childrenSlice csr v)).2
                (bfsEnqueue csr (d + 1) visited qs (childrenSlice csr v)).1 (acc ++ [(v, d)])
            else bfsLoop cfg2 csr fuel qs visited (acc ++ [(v, d)]) := rfl
      rw [hL, hR, hsd]
      split_ifs with hd
      · exact ih _ _ _
      · exact ih _ _ _

theorem extractSubtrees_congr (cfg1 cfg2 : Config) (csr : CSRData)
    (hsd : cfg1.subtreeDepth = cfg2.subtreeDepth) (startNodeId : Nat) :
    extractSubtrees cfg1 csr startNodeId = extractSubtrees cfg2 csr startNodeId := by
  unfold extractSubtrees extractSubtreesD
  split_ifs with h
  · rw [bfsLoop_congr cfg1 cfg2 csr hsd]
  · rfl

theorem processedNodes_congr (cfg1 cfg2 : Config) (csr : CSRData)
    (hsd : cfg1.subtreeDepth = cfg2.subtreeDepth) :
    processedNodes cfg1 csr = processedNodes cfg2 csr := by
  unfold processedNodes
  congr 1
  funext startNodeId
  rw [extractSubtrees_congr cfg1 cfg2 csr hsd]

/-- The `Set`-collection output of `generateShingleSet` as a pure fold,
for any correct cache state, when the threshold is 1. -/
theorem generateShingleSet_set_formula (cfg : Config) (cache : NodeCache) (json : JSON)
    (h1 : cfg.frequencyThreshold = 1) (hinv : CacheInv cfg.shingleSize cache) :
    (generateShingleSet cfg cache json).2
      = (processedNodes cfg (buildCSRFromJSON cfg json)).foldl
          (fun s n => s ∪ contribFinset cfg.shingleSize n) ∅ := by
  have hset : (buildShingleMultiset cfg cache json).2
      = .set ((processedNodes cfg (buildCSRFromJSON cfg json)).foldl
          (fun s n => s ∪ contribFinset cfg.shingleSize n) ∅) := by
    rw [buildShingleMultiset_eq_foldUpdate]
    have := (foldUpdate_effect cfg (processedNodes cfg (buildCSRFromJSON cfg json))
      cache (if cfg.frequencyThreshold = 1 then .set ∅ else .map 0) hinv).2.1 ∅
    rw [h1] at this ⊢
    exact this (by rw [if_pos rfl])
  unfold generateShingleSet
  dsimp only
  rw [hset]
  rfl

/-- The configuration with the node-string cache switched on. -/
def cacheEnabled (cfg : Config) : Config :=
  ⟨cfg.subtreeDepth, cfg.frequencyThreshold, cfg.numHashFunctions, cfg.numGroups,
   cfg.preserveArrayOrder, cfg.shingleSize, cfg.ignoreKeys, true, cfg.nodeStringCacheSize⟩

/-- The configuration with the node-string cache switched off. -/
def cacheDisabled (cfg : Config) : Config :=
  ⟨cfg.subtreeDepth, cfg.frequencyThreshold, cfg.numHashFunctions, cfg.numGroups,
   cfg.preserveArrayOrder, cfg.shingleSize, cfg.ignoreKeys, false, cfg.nodeStringCacheSize⟩

/-- **C1 counterexample**: two configurations identical except for
`enableNodeStringCache` (`shingleSize = 1`, `frequencyThreshold = 2`), on
the string document `"aa"`: the canonical string `"$root:aa"` contains the
characters `o` and `a` twice, so the stateless path counts their window
hashes twice (surviving threshold 2) while the caching path collects the
node's shingles into a per-node `Set` and replays each distinct hash once
(so nothing survives).  Enabling the cache changes `generateShingleSet`. -/
theorem cache_transparency_counterexample :
    (generateShingleSet ⟨2, 2, 128, 4, true, 1, [], true, 1000⟩ [] (.str (str2codes "aa"))).2
      ≠ (generateShingleSet ⟨2, 2, 128, 4, true, 1, [], false, 1000⟩ [] (.str (str2codes "aa"))).2 := by
  decide

/-- **C1 (amended)** Cache transparency at threshold 1: when
`frequencyThreshold = 1` (the `Set`-collection case), for every JSON
input, an instance with the cache enabled — in any cache state whose
entries are correct, e.g. a fresh one — returns exactly the same
`generateShingleSet` and `generateSketch` results as the identically
configured instance with the cache disabled.  (For thresholds above 1 the
cached replay collapses duplicate windows of one canonical string, see the
counterexample.) -/
theorem cache_transparency_threshold_one (cfg : Config) (cache : NodeCache) (json : JSON)
    (h1 : cfg.frequencyThreshold = 1) (hinv : CacheInv cfg.shingleSize cache) :
    (generateShingleSet (cacheEnabled cfg) cache json).2
      = (generateShingleSet (cacheDisabled cfg) [] json).2
    ∧ (generateSketch (cacheEnabled cfg) cache json).2
      = (generateSketch (cacheDisabled cfg) [] json).2 := by
  have hss : (generateShingleSet (cacheEnabled cfg) cache json).2
      = (generateShingleSet (cacheDisabled cfg) [] json).2 := by
    rw [generateShingleSet_set_formula (cacheEnabled cfg) cache json h1 hinv,
      generateShingleSet_set_formula (cacheDisabled cfg) [] json h1
        (fun e he => absurd he (List.not_mem_nil e))]
    rw [buildCSRFromJSON_congr (cacheEnabled cfg) (cacheDisabled cfg) rfl rfl json,
      processedNodes_congr (cacheEnabled cfg) (cacheDisabled cfg) _ rfl]
    rfl
  refine ⟨hss, ?_⟩
  unfold generateSketch
  dsimp only
  rw [hss]
  rfl

/-- Witness for the amended C1 at the default configuration and `{"a":1}`. -/
theorem cache_transparency_threshold_one_witness :
    defaultConfig.frequencyThreshold = 1
    ∧ (generateShingleSet (cacheEnabled defaultConfig) []
          (.obj (.cons (str2codes "a") (.num 1) .nil))).2
        = (generateShingleSet (cacheDisabled defaultConfig) []
            (.obj (.cons (str2codes "a") (.num 1) .nil))).2 :=
  ⟨rfl, (cache_transparency_threshold_one defaultConfig []
    (.obj (.cons (str2codes "a") (.num 1) .nil)) rfl
    (fun e he => absurd he (List.not_mem_nil e))).1⟩

/- ### C6: ignore-key noninterference -/

mutual
/- `eraseIgnored ks json`: the document with every object member whose key
is in `ks` removed, transitively.  The builder skips exactly these members,
so two documents with the same erasure are indistinguishable to it;
"differing only in the presence or value of ignored members" is formalised
as having equal erasures. -/
def eraseIgnored (ks : List JsStr) : JSON → JSON
  | .null => .null
  | .bool b => .bool b
  | .num n => .num n
  | .str s => .str s
  | .arr xs => .arr (eraseIgnoredA ks xs)
  | .obj kvs => .obj (eraseIgnoredO ks kvs)

def eraseIgnoredA (ks : List JsStr) : JArr → JArr
  | .nil => .nil
  | .cons x xs => .cons (eraseIgnored ks x) (eraseIgnoredA ks xs)

def eraseIgnoredO (ks : List JsStr) : JObj → JObj
  | .nil => .nil
  | .cons key val kvs =>
    if key ∈ ks then eraseIgnoredO ks kvs
    else .cons key (eraseIgnored ks val) (eraseIgnoredO ks kvs)
end

theorem eraseIgnored_isLeaf (ks : List JsStr) (j : JSON) :
    (eraseIgnored ks j).isLeaf = j.isLeaf := by
  cases j <;> rfl

theorem eraseIgnored_asScalar (ks : List JsStr) (j : JSON) :
    (eraseIgnored ks j).asScalar = j.asScalar := by
  cases j <;> rfl

mutual
theorem jsize_erase_le (ks : List JsStr) : ∀ j : JSON, jsize (eraseIgnored ks j) ≤ jsize j
  | .null => le_refl _
  | .bool _ => le_refl _
  | .num _ => le_refl _
  | .str _ => le_refl _
  | .arr xs => by
    show 1 + jsizeA (eraseIgnoredA ks xs) ≤ 1 + jsizeA xs
    exact Nat.add_le_add_left (jsizeA_erase_le ks xs) 1
  | .obj kvs => by
    show 1 + jsizeO (eraseIgnoredO ks kvs) ≤ 1 + jsizeO kvs
    exact Nat.add_le_add_left (jsizeO_erase_le ks kvs) 1

theorem jsizeA_erase_le (ks : List JsStr) : ∀ xs : JArr, jsizeA (eraseIgnoredA ks xs) ≤ jsizeA xs
  | .nil => le_refl _
  | .cons x xs => by
    show jsize (eraseIgnored ks x) + jsizeA (eraseIgnoredA ks xs) ≤ jsize x + jsizeA xs
    exact Nat.add_le_add (jsize_erase_le ks x) (jsizeA_erase_le ks xs)

theorem jsizeO_erase_le (ks : List JsStr) : ∀ kvs : JObj, jsizeO (eraseIgnoredO ks kvs) ≤ jsizeO kvs
  | .nil => le_refl _
  | .cons key val kvs => by
    unfold eraseIgnoredO
    split_ifs with hk
    · show jsizeO (eraseIgnoredO ks kvs) ≤ jsize val + jsizeO kvs
      exact le_trans (jsizeO_erase_le ks kvs) (Nat.le_add_left _ _)
    · show jsize (eraseIgnored ks val) + jsizeO (eraseIgnoredO ks kvs) ≤ jsize val + jsizeO kvs
      exact Nat.add_le_add (jsize_erase_le ks val) (jsizeO_erase_le ks kvs)
end

theorem jsize_pos : ∀ j : JSON, 1 ≤ jsize j
  | .null => le_refl _
  | .bool _ => le_refl _
  | .num _ => le_refl _
  | .str _ => le_refl _
  | .arr _ => Nat.le_add_right 1 _
  | .obj _ => Nat.le_add_right 1 _

/-- The total size of the objects still on the work stack: each loop
iteration strictly decreases it, so it bounds the iterations left. -/
def stackMeasure (stack : List BuildFrame) : Nat := (stack.map (fun f => jsize f.obj)).sum

theorem stackMeasure_append (a b : List BuildFrame) :
    stackMeasure (a ++ b) = stackMeasure a + stackMeasure b := by
  simp [stackMeasure]

theorem processNode_measure (st : BuildState) (item : JSON) (itemKey currentPath : JsStr)
    (parentId : Nat) :
    stackMeasure (processNode st item itemKey currentPath parentId).2.toList ≤ jsize item := by
  unfold processNode
  dsimp only
  split_ifs with h
  · exact Nat.zero_le _
  · exact Nat.le_of_eq (Nat.add_zero _)
  · exact Nat.le_of_eq (Nat.add_zero _)

theorem processArrItems_measure (cfg : Config) :
    ∀ (xs : JArr) (st : BuildState) (path : JsStr) (parentId i : Nat),
      stackMeasure (processArrItems cfg st path parentId i xs).2 ≤ jsizeA xs
  | .nil, _, _, _, _ => Nat.zero_le _
  | .cons x rest, st, path, pid, i => by
    unfold processArrItems
    dsimp only
    rw [stackMeasure_append]
    exact Nat.add_le_add (processNode_measure _ _ _ _ _)
      (processArrItems_measure cfg rest _ _ _ _)

theorem processObjItems_measure (cfg : Config) :
    ∀ (kvs : JObj) (st : BuildState) (path : JsStr) (parentId : Nat),
      stackMeasure (processObjItems cfg st path parentId kvs).2 ≤ jsizeO kvs
  | .nil, _, _, _ => Nat.zero_le _
  | .cons key val rest, st, path, pid => by
    unfold processObjItems
    dsimp only
    split_ifs with hk
    · show stackMeasure (processObjItems cfg st path pid rest).2 ≤ jsize val + jsizeO rest
      exact le_trans (processObjItems_measure cfg rest _ _ _) (Nat.le_add_left _ _)
    · rw [stackMeasure_append]
      exact Nat.add_le_add (processNode_measure _ _ _ _ _)
        (processObjItems_measure cfg rest _ _ _)

/-- One pop strictly shrinks the measure: the frames produced by a pop are
the composite children of the popped object, whose sizes sum below the
popped object's own size. -/
theorem processFrame_measure_lt (cfg : Config) (st : BuildState) (f : BuildFrame) :
    stackMeasure (processFrame cfg st f).2 < jsize f.obj := by
  obtain ⟨obj, path, pid⟩ := f
  cases obj with
  | arr xs =>
    have h := processArrItems_measure cfg xs st path pid 0
    show stackMeasure (processArrItems cfg st path pid 0 xs).2 < 1 + jsizeA xs
    omega
  | obj kvs =>
    have h := processObjItems_measure cfg kvs st path pid
    show stackMeasure (processObjItems cfg st path pid kvs).2 < 1 + jsizeO kvs
    omega
  | null => exact Nat.zero_lt_one
  | bool b => exact Nat.zero_lt_one
  | num n => exact Nat.zero_lt_one
  | str s => exact Nat.zero_lt_one

/-- Fuel stabilisation: any fuel at least the stack measure gives the same
final state, so `jsize json` is sufficient fuel for the whole traversal. -/
theorem buildLoop_stable (cfg : Config) :
    ∀ (fuel₁ fuel₂ : Nat) (st : BuildState) (stack : List BuildFrame),
      stackMeasure stack ≤ fuel₁ → fuel₁ ≤ fuel₂ →
      buildLoop cfg fuel₁ st stack = buildLoop cfg fuel₂ st stack := by
  intro fuel₁
  induction fuel₁ with
  | zero =>
    intro fuel₂ st stack hm _
    cases stack with
    | nil => cases fuel₂ <;> rfl
    | cons f rest =>
      exfalso
      have h1 := jsize_pos f.obj
      have h2 : stackMeasure (f :: rest) = jsize f.obj + stackMeasure rest := by
        simp [stackMeasure]
      omega
  | succ fuel ih =>
    intro fuel₂ st stack hm hle
    cases stack with
    | nil => cases fuel₂ <;> rfl
    | cons f rest =>
      obtain ⟨fuel₂', rfl⟩ : ∃ k, fuel₂ = k + 1 := ⟨fuel₂ - 1, by omega⟩
      show buildLoop cfg fuel (processFrame cfg st f).1
          ((processFrame cfg st f).2.reverse ++ rest)
        = buildLoop cfg fuel₂' (processFrame cfg st f).1
          ((processFrame cfg st f).2.reverse ++ rest)
      apply ih
      · have hlt := processFrame_measure_lt cfg st f
        have hsm : stackMeasure ((processFrame cfg st f).2.reverse ++ rest)
            = stackMeasure (processFrame cfg st f).2 + stackMeasure rest := by
          simp [stackMeasure, List.sum_reverse]
        have hcm : stackMeasure (f :: rest) = jsize f.obj + stackMeasure rest := by
          simp [stackMeasure]
        omega
      · omega

/-- A work-stack frame with its object erased. -/
def eraseFrame (ks : List JsStr) (f : BuildFrame) : BuildFrame :=
  ⟨eraseIgnored ks f.obj, f.path, f.parentId⟩

theorem processNode_erase (ks : List JsStr) (st : BuildState) (item : JSON)
    (itemKey currentPath : JsStr) (parentId : Nat) :
    processNode st (eraseIgnored ks item) itemKey currentPath parentId
      = ((processNode st item itemKey currentPath parentId).1,
         (processNode st item itemKey currentPath parentId).2.map (eraseFrame ks)) := by
  unfold processNode
  dsimp only
  rw [eraseIgnored_asScalar, eraseIgnored_isLeaf]
  cases h : item.isLeaf <;> simp [h, eraseFrame]

theorem processArrItems_erase (cfg : Config) (ks : List JsStr) :
    ∀ (xs : JArr) (st : BuildState) (path : JsStr) (parentId i : Nat),
      processArrItems cfg st path parentId i (eraseIgnoredA ks xs)
        = ((processArrItems cfg st path parentId i xs).1,
           (processArrItems cfg st path parentId i xs).2.map (eraseFrame ks))
  | .nil, _, _, _, _ => rfl
  | .cons x rest, st, path, pid, i => by
    show processArrItems cfg st path pid i
        (.cons (eraseIgnored ks x) (eraseIgnoredA ks rest)) = _
    unfold processArrItems
    dsimp only
    rw [processNode_erase ks st x _ path pid, processArrItems_erase cfg ks rest]
    generalize (processNode st x (if cfg.preserveArrayOrder = true then brk i else []) path pid).2
      = o
    cases o <;> simp

theorem processObjItems_erase (cfg : Config) :
    ∀ (kvs : JObj) (st : BuildState) (path : JsStr) (parentId : Nat),
      processObjItems cfg st path parentId (eraseIgnoredO cfg.ignoreKeys kvs)
        = ((processObjItems cfg st path parentId kvs).1,
           (processObjItems cfg st path parentId kvs).2.map (eraseFrame cfg.ignoreKeys))
  | .nil, _, _, _ => rfl
  | .cons key val rest, st, path, pid => by
    by_cases hk : key ∈ cfg.ignoreKeys
    · have hL : eraseIgnoredO cfg.ignoreKeys (.cons key val rest)
          = eraseIgnoredO cfg.ignoreKeys rest := by
        simp only [eraseIgnoredO]
        rw [if_pos hk]
      have hR : processObjItems cfg st path pid (.cons key val rest)
          = processObjItems cfg st path pid rest := by
        simp only [processObjItems]
        rw [if_pos hk]
      rw [hL, hR, processObjItems_erase cfg rest]
    · have hL : eraseIgnoredO cfg.ignoreKeys (.cons key val rest)
          = .cons key (eraseIgnored cfg.ignoreKeys val) (eraseIgnoredO cfg.ignoreKeys rest) := by
        simp only [eraseIgnoredO]
        rw [if_neg hk]
      rw [hL]
      unfold processObjItems
      dsimp only
      rw [if_neg hk, if_neg hk,
        processNode_erase cfg.ignoreKeys st val key path pid, processObjItems_erase cfg rest]
      generalize (processNode st val key path pid).2 = o
      cases o <;> simp

theorem processFrame_erase (cfg : Config) (st : BuildState) (f : BuildFrame) :
    processFrame cfg st (eraseFrame cfg.ignoreKeys f)
      = ((processFrame cfg st f).1,
         (processFrame cfg st f).2.map (eraseFrame cfg.ignoreKeys)) := by
  obtain ⟨obj, path, pid⟩ := f
  cases obj with
  | arr xs => exact processArrItems_erase cfg cfg.ignoreKeys xs st path pid 0
  | obj kvs => exact processObjItems_erase cfg kvs st path pid
  | null => rfl
  | bool b => rfl
  | num n => rfl
  | str s => rfl

/-- The traversal cannot see erased members: with the same fuel, a stack of
erased frames produces the very same state as the original stack. -/
theorem buildLoop_erase (cfg : Config) :
    ∀ (fuel : Nat) (st : BuildState) (stack : List BuildFrame),
      buildLoop cfg fuel st (stack.map (eraseFrame cfg.ignoreKeys))
        = buildLoop cfg fuel st stack := by
  intro fuel
  induction fuel with
  | zero => intro st stack; cases stack <;> rfl
  | succ fuel ih =>
    intro st stack
    cases stack with
    | nil => rfl
    | cons f rest =>
      show buildLoop cfg fuel (processFrame cfg st (eraseFrame cfg.ignoreKeys f)).1
          ((processFrame cfg st (eraseFrame cfg.ignoreKeys f)).2.reverse
            ++ rest.map (eraseFrame cfg.ignoreKeys))
        = buildLoop cfg (fuel + 1) st (f :: rest)
      rw [processFrame_erase]
      have hlist : ((processFrame cfg st f).2.map (eraseFrame cfg.ignoreKeys)).reverse
            ++ rest.map (eraseFrame cfg.ignoreKeys)
          = ((processFrame cfg st f).2.reverse ++ rest).map (eraseFrame cfg.ignoreKeys) := by
        simp
      rw [hlist, ih]
      rfl

/-- Erasing the ignored members does not change the built CSR. -/
theorem buildCSRFromJSON_erase (cfg : Config) (json : JSON) :
    buildCSRFromJSON cfg (eraseIgnored cfg.ignoreKeys json) = buildCSRFromJSON cfg json := by
  unfold buildCSRFromJSON buildStateOf
  rw [eraseIgnored_isLeaf, eraseIgnored_asScalar]
  split_ifs with h
  · rfl
  · congr 1
    have h1 : buildLoop cfg (jsize (eraseIgnored cfg.ignoreKeys json)) ⟨[⟨rootPath, none⟩], [[]]⟩
          [⟨eraseIgnored cfg.ignoreKeys json, rootPath, 0⟩]
        = buildLoop cfg (jsize json) ⟨[⟨rootPath, none⟩], [[]]⟩
          [⟨eraseIgnored cfg.ignoreKeys json, rootPath, 0⟩] := by
      apply buildLoop_stable
      · simp [stackMeasure]
      · exact jsize_erase_le cfg.ignoreKeys json
    rw [h1]
    have h2 : ([⟨eraseIgnored cfg.ignoreKeys json, rootPath, 0⟩] : List BuildFrame)
        = ([⟨json, rootPath, 0⟩] : List BuildFrame).map (eraseFrame cfg.ignoreKeys) := rfl
    rw [h2, buildLoop_erase]

/-- **C6** Ignore-key noninterference: two documents that differ only in
the presence or value of object members whose key is in `ignoreKeys`
(together with the whole subtrees under such members) — i.e. whose
`eraseIgnored` erasures coincide — yield identical `generateShingleSet`
and `generateSketch` results, in every configuration and cache state:
ignored members and their subtrees are skipped transitively and contribute
nothing. -/
theorem ignore_key_noninterference (cfg : Config) (cache : NodeCache) (d1 d2 : JSON)
    (h : eraseIgnored cfg.ignoreKeys d1 = eraseIgnored cfg.ignoreKeys d2) :
    generateShingleSet cfg cache d1 = generateShingleSet cfg cache d2
    ∧ generateSketch cfg cache d1 = generateSketch cfg cache d2 := by
  have hcsr : buildCSRFromJSON cfg d1 = buildCSRFromJSON cfg d2 := by
    rw [← buildCSRFromJSON_erase cfg d1, ← buildCSRFromJSON_erase cfg d2, h]
  have hbm : buildShingleMultiset cfg cache d1 = buildShingleMultiset cfg cache d2 := by
    unfold buildShingleMultiset
    dsimp only
    rw [hcsr]
  have hss : generateShingleSet cfg cache d1 = generateShingleSet cfg cache d2 := by
    unfold generateShingleSet
    dsimp only
    rw [hbm]
  refine ⟨hss, ?_⟩
  unfold generateSketch
  dsimp only
  rw [hss]

/-- Witness for C6: `{"a":1,"secret":{"x":2}}` and `{"a":1}` under
`ignoreKeys = ["secret"]` give the same feature set. -/
theorem ignore_key_noninterference_witness :
    eraseIgnored [str2codes "secret"]
        (JSON.obj (.cons (str2codes "a") (.num 1)
          (.cons (str2codes "secret") (.obj (.cons (str2codes "x") (.num 2) .nil)) .nil)))
      = eraseIgnored [str2codes "secret"] (JSON.obj (.cons (str2codes "a") (.num 1) .nil))
    ∧ generateShingleSet ⟨2, 1, 128, 4, true, 4, [str2codes "secret"], false, 1000⟩ []
        (JSON.obj (.cons (str2codes "a") (.num 1)
          (.cons (str2codes "secret") (.obj (.cons (str2codes "x") (.num 2) .nil)) .nil)))
      = generateShingleSet ⟨2, 1, 128, 4, true, 4, [str2codes "secret"], false, 1000⟩ []
        (JSON.obj (.cons (str2codes "a") (.num 1) .nil)) :=
  ⟨rfl, (ignore_key_noninterference ⟨2, 1, 128, 4, true, 4, [str2codes "secret"], false, 1000⟩ []
    (JSON.obj (.cons (str2codes "a") (.num 1)
      (.cons (str2codes "secret") (.obj (.cons (str2codes "x") (.num 2) .nil)) .nil)))
    (JSON.obj (.cons (str2codes "a") (.num 1) .nil)) rfl).1⟩

/- ### C5: array order sensitivity -/

/-- `processNode`'s path rule: a bare key under the root, otherwise
`currentPath + '.' + itemKey`. -/
def joinPath (p k : JsStr) : JsStr := if p = rootPath then k else p ++ 46 :: k

/-- The path the builder gives the `i`-th element of an array at path `p`:
the bracket string as item key when order is preserved, the empty key
otherwise. -/
def elemPath (cfg : Config) (p : JsStr) (i : Nat) : JsStr :=
  joinPath p (if cfg.preserveArrayOrder then brk i else [])

/-- The traversed children of an array value, with their paths. -/
def kidsA (cfg : Config) (p : JsStr) : Nat → JArr → List (JsStr × JSON)
  | _, .nil => []
  | i, .cons x xs => (elemPath cfg p i, x) :: kidsA cfg p (i + 1) xs

/-- The traversed children of an object value: members in order, ignored
keys skipped. -/
def kidsO (cfg : Config) (p : JsStr) : JObj → List (JsStr × JSON)
  | .nil => []
  | .cons key val kvs =>
    if key ∈ cfg.ignoreKeys then kidsO cfg p kvs
    else (joinPath p key, val) :: kidsO cfg p kvs

/-- The traversed children of a value at path `p`. -/
def kids (cfg : Config) (p : JsStr) : JSON → List (JsStr × JSON)
  | .arr xs => kidsA cfg p 0 xs
  | .obj kvs => kidsO cfg p kvs
  | _ => []

/-- The multiset of node records within `D` hops below a value at path `p`
in the traversed tree. -/
def ballM (cfg : Config) : Nat → JsStr → JSON → Multiset NodeRec
  | 0, p, j => {⟨p, j.asScalar⟩}
  | D + 1, p, j =>
    ⟨p, j.asScalar⟩ ::ₘ ((kids cfg p j).map (fun s => ballM cfg D s.1 s.2)).sum

/-- The combined depth-`D` ball of a list of positions. -/
def ballList (cfg : Config) (D : Nat) (l : List (JsStr × JSON)) : Multiset NodeRec :=
  (l.map (fun s => ballM cfg D s.1 s.2)).sum

theorem ballList_nil (cfg : Config) (D : Nat) : ballList cfg D [] = 0 := rfl

theorem ballList_cons (cfg : Config) (D : Nat) (s : JsStr × JSON) (l : List (JsStr × JSON)) :
    ballList cfg D (s :: l) = ballM cfg D s.1 s.2 + ballList cfg D l := by
  simp [ballList]

theorem ballM_succ (cfg : Config) (D : Nat) (p : JsStr) (j : JSON) :
    ballM cfg (D + 1) p j = ⟨p, j.asScalar⟩ ::ₘ ballList cfg D (kids cfg p j) := rfl

mutual
/- All positions (path, value) of the traversed tree rooted at a value. -/
def positionsM (cfg : Config) : JsStr → JSON → Multiset (JsStr × JSON)
  | p, .arr xs => (p, .arr xs) ::ₘ positionsA cfg p 0 xs
  | p, .obj kvs => (p, .obj kvs) ::ₘ positionsO cfg p kvs
  | p, j => {(p, j)}

def positionsA (cfg : Config) : JsStr → Nat → JArr → Multiset (JsStr × JSON)
  | _, _, .nil => 0
  | p, i, .cons x xs => positionsM cfg (elemPath cfg p i) x + positionsA cfg p (i + 1) xs

def positionsO (cfg : Config) : JsStr → JObj → Multiset (JsStr × JSON)
  | _, .nil => 0
  | p, .cons key val kvs =>
    if key ∈ cfg.ignoreKeys then positionsO cfg p kvs
    else positionsM cfg (joinPath p key) val + positionsO cfg p kvs
end

/-- The total record multiset collected by the pipeline: the depth-bounded
ball of every position of the traversed tree. -/
def tBall (cfg : Config) (p : JsStr) (j : JSON) : Multiset NodeRec :=
  ((positionsM cfg p j).map (fun s => ballM cfg cfg.subtreeDepth s.1 s.2)).sum

/-- `tBall` summed over an array tail's positions. -/
def tBallA (cfg : Config) (p : JsStr) (i : Nat) (xs : JArr) : Multiset NodeRec :=
  ((positionsA cfg p i xs).map (fun s => ballM cfg cfg.subtreeDepth s.1 s.2)).sum

/-- `tBall` summed over an object tail's positions. -/
def tBallO (cfg : Config) (p : JsStr) (kvs : JObj) : Multiset NodeRec :=
  ((positionsO cfg p kvs).map (fun s => ballM cfg cfg.subtreeDepth s.1 s.2)).sum

mutual
/- `APerm d1 d2`: `d2` is obtained from `d1` by permuting the elements of
any arrays (recursively), leaving everything else intact. -/
inductive APerm : JSON → JSON → Prop where
  | null : APerm .null .null
  | bool : ∀ b, APerm (.bool b) (.bool b)
  | num : ∀ n, APerm (.num n) (.num n)
  | str : ∀ s, APerm (.str s) (.str s)
  | arr : ∀ {xs ys}, APermA xs ys → APerm (.arr xs) (.arr ys)
  | obj : ∀ {xs ys}, APermO xs ys → APerm (.obj xs) (.obj ys)

inductive APermA : JArr → JArr → Prop where
  | nil : APermA .nil .nil
  | cons : ∀ {x y xs ys}, APerm x y → APermA xs ys → APermA (.cons x xs) (.cons y ys)
  | swap : ∀ (x y : JSON) (l : JArr), APermA (.cons x (.cons y l)) (.cons y (.cons x l))
  | trans : ∀ {xs ys zs}, APermA xs ys → APermA ys zs → APermA xs zs

inductive APermO : JObj → JObj → Prop where
  | nil : APermO .nil .nil
  | cons : ∀ (key : JsStr) {v w : JSON} {xs ys}, APerm v w → APermO xs ys →
      APermO (.cons key v xs) (.cons key w ys)
end

theorem APerm_asScalar {j1 j2 : JSON} (h : APerm j1 j2) : j1.asScalar = j2.asScalar := by
  cases h <;> rfl

theorem elemPath_of_not_order (cfg : Config) (hpo : cfg.preserveArrayOrder = false)
    (p : JsStr) (i : Nat) : elemPath cfg p i = joinPath p [] := by
  simp [elemPath, hpo]


theorem tBall_arr (cfg : Config) (p : JsStr) (xs : JArr) :
    tBall cfg p (.arr xs)
      = ballM cfg cfg.subtreeDepth p (.arr xs) + tBallA cfg p 0 xs := by
  unfold tBall tBallA
  show ((((p, JSON.arr xs) : JsStr × JSON) ::ₘ positionsA cfg p 0 xs).map _).sum = _
  rw [Multiset.map_cons, Multiset.sum_cons]

theorem tBall_obj (cfg : Config) (p : JsStr) (kvs : JObj) :
    tBall cfg p (.obj kvs)
      = ballM cfg cfg.subtreeDepth p (.obj kvs) + tBallO cfg p kvs := by
  unfold tBall tBallO
  show ((((p, JSON.obj kvs) : JsStr × JSON) ::ₘ positionsO cfg p kvs).map _).sum = _
  rw [Multiset.map_cons, Multiset.sum_cons]

theorem tBallA_cons (cfg : Config) (p : JsStr) (i : Nat) (x : JSON) (xs : JArr) :
    tBallA cfg p i (.cons x xs)
      = tBall cfg (elemPath cfg p i) x + tBallA cfg p (i + 1) xs := by
  unfold tBallA tBall
  show ((positionsM cfg (elemPath cfg p i) x + positionsA cfg p (i + 1) xs).map _).sum = _
  rw [Multiset.map_add, Multiset.sum_add]

theorem tBallO_cons (cfg : Config) (p : JsStr) (key : JsStr) (val : JSON) (kvs : JObj) :
    tBallO cfg p (.cons key val kvs)
      = if key ∈ cfg.ignoreKeys then tBallO cfg p kvs
        else tBall cfg (joinPath p key) val + tBallO cfg p kvs := by
  unfold tBallO tBall
  show ((if key ∈ cfg.ignoreKeys then positionsO cfg p kvs
      else positionsM cfg (joinPath p key) val + positionsO cfg p kvs).map _).sum = _
  split_ifs with hk
  · rfl
  · rw [Multiset.map_add, Multiset.sum_add]

/-- With `preserveArrayOrder = false`, permuting arrays (recursively) does
not change the depth-`D` ball of any position, nor the combined kid balls,
nor the total ball multiset. -/
theorem APerm_ball_master (cfg : Config) (hpo : cfg.preserveArrayOrder = false) :
    (∀ {j1 j2 : JSON}, APerm j1 j2 →
      ∀ (D : Nat) (p : JsStr), ballM cfg D p j1 = ballM cfg D p j2)
    ∧ (∀ {xs ys : JArr}, APermA xs ys →
      ∀ (D : Nat) (p : JsStr) (i : Nat),
        ballList cfg D (kidsA cfg p i xs) = ballList cfg D (kidsA cfg p i ys))
    ∧ (∀ {xs ys : JObj}, APermO xs ys →
      ∀ (D : Nat) (p : JsStr),
        ballList cfg D (kidsO cfg p xs) = ballList cfg D (kidsO cfg p ys)) := by
  have C1 : ∀ (D : Nat) (p : JsStr), ballM cfg D p .null = ballM cfg D p .null :=
    fun _ _ => rfl
  have C2 : ∀ (b : Bool) (D : Nat) (p : JsStr),
      ballM cfg D p (.bool b) = ballM cfg D p (.bool b) := fun _ _ _ => rfl
  have C3 : ∀ (n : Int) (D : Nat) (p : JsStr),
      ballM cfg D p (.num n) = ballM cfg D p (.num n) := fun _ _ _ => rfl
  have C4 : ∀ (s : JsStr) (D : Nat) (p : JsStr),
      ballM cfg D p (.str s) = ballM cfg D p (.str s) := fun _ _ _ => rfl
  have C5 : ∀ {xs ys : JArr}, APermA xs ys →
      (∀ (D : Nat) (p : JsStr) (i : Nat),
        ballList cfg D (kidsA cfg p i xs) = ballList cfg D (kidsA cfg p i ys)) →
      ∀ (D : Nat) (p : JsStr), ballM cfg D p (.arr xs) = ballM cfg D p (.arr ys) := by
    intro xs ys hA ih D p
    cases D with
    | zero => rfl
    | succ D =>
      rw [ballM_succ, ballM_succ]
      show (⟨p, none⟩ : NodeRec) ::ₘ ballList cfg D (kidsA cfg p 0 xs)
        = (⟨p, none⟩ : NodeRec) ::ₘ ballList cfg D (kidsA cfg p 0 ys)
      rw [ih D p 0]
  have C6 : ∀ {xs ys : JObj}, APermO xs ys →
      (∀ (D : Nat) (p : JsStr),
        ballList cfg D (kidsO cfg p xs) = ballList cfg D (kidsO cfg p ys)) →
      ∀ (D : Nat) (p : JsStr), ballM cfg D p (.obj xs) = ballM cfg D p (.obj ys) := by
    intro xs ys hO ih D p
    cases D with
    | zero => rfl
    | succ D =>
      rw [ballM_succ, ballM_succ]
      show (⟨p, none⟩ : NodeRec) ::ₘ ballList cfg D (kidsO cfg p xs)
        = (⟨p, none⟩ : NodeRec) ::ₘ ballList cfg D (kidsO cfg p ys)
      rw [ih D p]
  have C7 : ∀ (D : Nat) (p : JsStr) (i : Nat),
      ballList cfg D (kidsA cfg p i .nil) = ballList cfg D (kidsA cfg p i .nil) :=
    fun _ _ _ => rfl
  have C8 : ∀ {x y : JSON} {xs ys : JArr}, APerm x y → APermA xs ys →
      (∀ (D : Nat) (p : JsStr), ballM cfg D p x = ballM cfg D p y) →
      (∀ (D : Nat) (p : JsStr) (i : Nat),
        ballList cfg D (kidsA cfg p i xs) = ballList cfg D (kidsA cfg p i ys)) →
      ∀ (D : Nat) (p : JsStr) (i : Nat),
        ballList cfg D (kidsA cfg p i (.cons x xs))
          = ballList cfg D (kidsA cfg p i (.cons y ys)) := by
    intro x y xs ys hx hxs ihx ihxs D p i
    show ballList cfg D ((elemPath cfg p i, x) :: kidsA cfg p (i + 1) xs)
      = ballList cfg D ((elemPath cfg p i, y) :: kidsA cfg p (i + 1) ys)
    rw [ballList_cons, ballList_cons]
    show ballM cfg D (elemPath cfg p i) x + _ = ballM cfg D (elemPath cfg p i) y + _
    rw [ihx D (elemPath cfg p i), ihxs D p (i + 1)]
  have C9 : ∀ (x y : JSON) (l : JArr) (D : Nat) (p : JsStr) (i : Nat),
      ballList cfg D (kidsA cfg p i (.cons x (.cons y l)))
        = ballList cfg D (kidsA cfg p i (.cons y (.cons x l))) := by
    intro x y l D p i
    show ballList cfg D ((elemPath cfg p i, x) :: (elemPath cfg p (i + 1), y)
        :: kidsA cfg p (i + 2) l)
      = ballList cfg D ((elemPath cfg p i, y) :: (elemPath cfg p (i + 1), x)
        :: kidsA cfg p (i + 2) l)
    rw [ballList_cons, ballList_cons, ballList_cons, ballList_cons,
      elemPath_of_not_order cfg hpo p i, elemPath_of_not_order cfg hpo p (i + 1)]
    show ballM cfg D (joinPath p []) x + (ballM cfg D (joinPath p []) y + _)
      = ballM cfg D (joinPath p []) y + (ballM cfg D (joinPath p []) x + _)
    rw [← add_assoc, ← add_assoc, add_comm (ballM cfg D (joinPath p []) x)]
  have C10 : ∀ {xs ys zs : JArr}, APermA xs ys → APermA ys zs →
      (∀ (D : Nat) (p : JsStr) (i : Nat),
        ballList cfg D (kidsA cfg p i xs) = ballList cfg D (kidsA cfg p i ys)) →
      (∀ (D : Nat) (p : JsStr) (i : Nat),
        ballList cfg D (kidsA cfg p i ys) = ballList cfg D (kidsA cfg p i zs)) →
      ∀ (D : Nat) (p : JsStr) (i : Nat),
        ballList cfg D (kidsA cfg p i xs) = ballList cfg D (kidsA cfg p i zs) :=
    fun _ _ ih1 ih2 D p i => (ih1 D p i).trans (ih2 D p i)
  have C11 : ∀ (D : Nat) (p : JsStr),
      ballList cfg D (kidsO cfg p .nil) = ballList cfg D (kidsO cfg p .nil) :=
    fun _ _ => rfl
  have C12 : ∀ (key : JsStr) {v w : JSON} {xs ys : JObj}, APerm v w → APermO xs ys →
      (∀ (D : Nat) (p : JsStr), ballM cfg D p v = ballM cfg D p w) →
      (∀ (D : Nat) (p : JsStr),
        ballList cfg D (kidsO cfg p xs) = ballList cfg D (kidsO cfg p ys)) →
      ∀ (D : Nat) (p : JsStr),
        ballList cfg D (kidsO cfg p (.cons key v xs))
          = ballList cfg D (kidsO cfg p (.cons key w ys)) := by
    intro key v w xs ys hv ht ihv iht D p
    show ballList cfg D (if key ∈ cfg.ignoreKeys then kidsO cfg p xs
        else (joinPath p key, v) :: kidsO cfg p xs)
      = ballList cfg D (if key ∈ cfg.ignoreKeys then kidsO cfg p ys
        else (joinPath p key, w) :: kidsO cfg p ys)
    split_ifs with hk
    · exact iht D p
    · rw [ballList_cons, ballList_cons]
      show ballM cfg D (joinPath p key) v + _ = ballM cfg D (joinPath p key) w + _
      rw [ihv D (joinPath p key), iht D p]
  refine ⟨?_, ?_, ?_⟩
  · intro j1 j2 h
    exact @APerm.rec
      (fun j1 j2 _ => ∀ (D : Nat) (p : JsStr), ballM cfg D p j1 = ballM cfg D p j2)
      (fun xs ys _ => ∀ (D : Nat) (p : JsStr) (i : Nat),
        ballList cfg D (kidsA cfg p i xs) = ballList cfg D (kidsA cfg p i ys))
      (fun xs ys _ => ∀ (D : Nat) (p : JsStr),
        ballList cfg D (kidsO cfg p xs) = ballList cfg D (kidsO cfg p ys))
      C1 C2 C3 C4 C5 C6 C7 C8 C9 C10 C11 C12 j1 j2 h
  · intro xs ys h
    exact @APermA.rec
      (fun j1 j2 _ => ∀ (D : Nat) (p : JsStr), ballM cfg D p j1 = ballM cfg D p j2)
      (fun xs ys _ => ∀ (D : Nat) (p : JsStr) (i : Nat),
        ballList cfg D (kidsA cfg p i xs) = ballList cfg D (kidsA cfg p i ys))
      (fun xs ys _ => ∀ (D : Nat) (p : JsStr),
        ballList cfg D (kidsO cfg p xs) = ballList cfg D (kidsO cfg p ys))
      C1 C2 C3 C4 C5 C6 C7 C8 C9 C10 C11 C12 xs ys h
  · intro xs ys h
    exact @APermO.rec
      (fun j1 j2 _ => ∀ (D : Nat) (p : JsStr), ballM cfg D p j1 = ballM cfg D p j2)
      (fun xs ys _ => ∀ (D : Nat) (p : JsStr) (i : Nat),
        ballList cfg D (kidsA cfg p i xs) = ballList cfg D (kidsA cfg p i ys))
      (fun xs ys _ => ∀ (D : Nat) (p : JsStr),
        ballList cfg D (kidsO cfg p xs) = ballList cfg D (kidsO cfg p ys))
      C1 C2 C3 C4 C5 C6 C7 C8 C9 C10 C11 C12 xs ys h

/-- With `preserveArrayOrder = false`, permuting arrays (recursively) does
not change the total ball multiset collected over all positions. -/
theorem APerm_tBall_master (cfg : Config) (hpo : cfg.preserveArrayOrder = false) :
    (∀ {j1 j2 : JSON}, APerm j1 j2 → ∀ (p : JsStr), tBall cfg p j1 = tBall cfg p j2)
    ∧ (∀ {xs ys : JArr}, APermA xs ys →
      ∀ (p : JsStr) (i : Nat), tBallA cfg p i xs = tBallA cfg p i ys)
    ∧ (∀ {xs ys : JObj}, APermO xs ys →
      ∀ (p : JsStr), tBallO cfg p xs = tBallO cfg p ys) := by
  have hball := APerm_ball_master cfg hpo
  have C1 : ∀ (p : JsStr), tBall cfg p .null = tBall cfg p .null := fun _ => rfl
  have C2 : ∀ (b : Bool) (p : JsStr), tBall cfg p (.bool b) = tBall cfg p (.bool b) :=
    fun _ _ => rfl
  have C3 : ∀ (n : Int) (p : JsStr), tBall cfg p (.num n) = tBall cfg p (.num n) :=
    fun _ _ => rfl
  have C4 : ∀ (s : JsStr) (p : JsStr), tBall cfg p (.str s) = tBall cfg p (.str s) :=
    fun _ _ => rfl
  have C5 : ∀ {xs ys : JArr}, APermA xs ys →
      (∀ (p : JsStr) (i : Nat), tBallA cfg p i xs = tBallA cfg p i ys) →
      ∀ (p : JsStr), tBall cfg p (.arr xs) = tBall cfg p (.arr ys) := by
    intro xs ys hA ih p
    rw [tBall_arr, tBall_arr, hball.1 (.arr hA) cfg.subtreeDepth p, ih p 0]
  have C6 : ∀ {xs ys : JObj}, APermO xs ys →
      (∀ (p : JsStr), tBallO cfg p xs = tBallO cfg p ys) →
      ∀ (p : JsStr), tBall cfg p (.obj xs) = tBall cfg p (.obj ys) := by
    intro xs ys hO ih p
    rw [tBall_obj, tBall_obj, hball.1 (.obj hO) cfg.subtreeDepth p, ih p]
  have C7 : ∀ (p : JsStr) (i : Nat), tBallA cfg p i .nil = tBallA cfg p i .nil :=
    fun _ _ => rfl
  have C8 : ∀ {x y : JSON} {xs ys : JArr}, APerm x y → APermA xs ys →
      (∀ (p : JsStr), tBall cfg p x = tBall cfg p y) →
      (∀ (p : JsStr) (i : Nat), tBallA cfg p i xs = tBallA cfg p i ys) →
      ∀ (p : JsStr) (i : Nat),
        tBallA cfg p i (.cons x xs) = tBallA cfg p i (.cons y ys) := by
    intro x y xs ys hx hxs ihx ihxs p i
    rw [tBallA_cons, tBallA_cons, ihx (elemPath cfg p i), ihxs p (i + 1)]
  have C9 : ∀ (x y : JSON) (l : JArr) (p : JsStr) (i : Nat),
      tBallA cfg p i (.cons x (.cons y l)) = tBallA cfg p i (.cons y (.cons x l)) := by
    intro x y l p i
    rw [tBallA_cons, tBallA_cons, tBallA_cons, tBallA_cons,
      elemPath_of_not_order cfg hpo p i, elemPath_of_not_order cfg hpo p (i + 1)]
    rw [← add_assoc, ← add_assoc, add_comm (tBall cfg (joinPath p []) x)]
  have C10 : ∀ {xs ys zs : JArr}, APermA xs ys → APermA ys zs →
      (∀ (p : JsStr) (i : Nat), tBallA cfg p i xs = tBallA cfg p i ys) →
      (∀ (p : JsStr) (i : Nat), tBallA cfg p i ys = tBallA cfg p i zs) →
      ∀ (p : JsStr) (i : Nat), tBallA cfg p i xs = tBallA cfg p i zs :=
    fun _ _ ih1 ih2 p i => (ih1 p i).trans (ih2 p i)
  have C11 : ∀ (p : JsStr), tBallO cfg p .nil = tBallO cfg p .nil := fun _ => rfl
  have C12 : ∀ (key : JsStr) {v w : JSON} {xs ys : JObj}, APerm v w → APermO xs ys →
      (∀ (p : JsStr), tBall cfg p v = tBall cfg p w) →
      (∀ (p : JsStr), tBallO cfg p xs = tBallO cfg p ys) →
      ∀ (p : JsStr),
        tBallO cfg p (.cons key v xs) = tBallO cfg p (.cons key w ys) := by
    intro key v w xs ys hv ht ihv iht p
    rw [tBallO_cons, tBallO_cons]
    split_ifs with hk
    · exact iht p
    · rw [ihv (joinPath p key), iht p]
  refine ⟨?_, ?_, ?_⟩
  · intro j1 j2 h
    exact @APerm.rec
      (fun j1 j2 _ => ∀ (p : JsStr), tBall cfg p j1 = tBall cfg p j2)
      (fun xs ys _ => ∀ (p : JsStr) (i : Nat), tBallA cfg p i xs = tBallA cfg p i ys)
      (fun xs ys _ => ∀ (p : JsStr), tBallO cfg p xs = tBallO cfg p ys)
      C1 C2 C3 C4 C5 C6 C7 C8 C9 C10 C11 C12 j1 j2 h
  · intro xs ys h
    exact @APermA.rec
      (fun j1 j2 _ => ∀ (p : JsStr), tBall cfg p j1 = tBall cfg p j2)
      (fun xs ys _ => ∀ (p : JsStr) (i : Nat), tBallA cfg p i xs = tBallA cfg p i ys)
      (fun xs ys _ => ∀ (p : JsStr), tBallO cfg p xs = tBallO cfg p ys)
      C1 C2 C3 C4 C5 C6 C7 C8 C9 C10 C11 C12 xs ys h
  · intro xs ys h
    exact @APermO.rec
      (fun j1 j2 _ => ∀ (p : JsStr), tBall cfg p j1 = tBall cfg p j2)
      (fun xs ys _ => ∀ (p : JsStr) (i : Nat), tBallA cfg p i xs = tBallA cfg p i ys)
      (fun xs ys _ => ∀ (p : JsStr), tBallO cfg p xs = tBallO cfg p ys)
      C1 C2 C3 C4 C5 C6 C7 C8 C9 C10 C11 C12 xs ys h

mutual
/- `RepJ cfg st v S p j`: node `v` of the traversal state `st` represents
the value `j` at path `p`; `S` is the exact set of ids of the represented
subtree (used for disjointness and freshness reasoning).  The child-id
list of `v` is aligned with the traversed children of `j`, in order. -/
inductive RepJ (cfg : Config) (st : BuildState) : Nat → Finset Nat → JsStr → JSON → Prop where
  | leaf : ∀ (v : Nat) (p : JsStr) (j : JSON), j.isLeaf = true →
      st.nodes.get? v = some ⟨p, j.asScalar⟩ →
      st.childLists.getD v [] = [] →
      RepJ cfg st v {v} p j
  | arr : ∀ (v : Nat) (S : Finset Nat) (p : JsStr) (xs : JArr),
      st.nodes.get? v = some ⟨p, none⟩ →
      RepA cfg st (st.childLists.getD v []) S p 0 xs →
      v ∉ S →
      RepJ cfg st v (insert v S) p (.arr xs)
  | obj : ∀ (v : Nat) (S : Finset Nat) (p : JsStr) (kvs : JObj),
      st.nodes.get? v = some ⟨p, none⟩ →
      RepO cfg st (st.childLists.getD v []) S p kvs →
      v ∉ S →
      RepJ cfg st v (insert v S) p (.obj kvs)

inductive RepA (cfg : Config) (st : BuildState) :
    List Nat → Finset Nat → JsStr → Nat → JArr → Prop where
  | nil : ∀ (p : JsStr) (i : Nat), RepA cfg st [] ∅ p i .nil
  | cons : ∀ (c : Nat) (Sc : Finset Nat) (cs : List Nat) (St : Finset Nat)
      (p : JsStr) (i : Nat) (x : JSON) (xs : JArr),
      RepJ cfg st c Sc (elemPath cfg p i) x →
      RepA cfg st cs St p (i + 1) xs →
      Disjoint Sc St →
      RepA cfg st (c :: cs) (Sc ∪ St) p i (.cons x xs)

inductive RepO (cfg : Config) (st : BuildState) :
    List Nat → Finset Nat → JsStr → JObj → Prop where
  | nil : ∀ (p : JsStr), RepO cfg st [] ∅ p .nil
  | skip : ∀ (cs : List Nat) (S : Finset Nat) (p key : JsStr) (val : JSON) (kvs : JObj),
      key ∈ cfg.ignoreKeys →
      RepO cfg st cs S p kvs →
      RepO cfg st cs S p (.cons key val kvs)
  | cons : ∀ (c : Nat) (Sc : Finset Nat) (cs : List Nat) (St : Finset Nat)
      (p key : JsStr) (val : JSON) (kvs : JObj),
      key ∉ cfg.ignoreKeys →
      RepJ cfg st c Sc (joinPath p key) val →
      RepO cfg st cs St p kvs →
      Disjoint Sc St →
      RepO cfg st (c :: cs) (Sc ∪ St) p (.cons key val kvs)
end

theorem RepJ_mem {cfg : Config} {st : BuildState} {v : Nat} {S : Finset Nat}
    {p : JsStr} {j : JSON} (h : RepJ cfg st v S p j) : v ∈ S := by
  cases h with
  | leaf => exact Finset.mem_singleton_self v
  | arr => exact Finset.mem_insert_self _ _
  | obj => exact Finset.mem_insert_self _ _

theorem RepJ_lt {cfg : Config} {st : BuildState} {v : Nat} {S : Finset Nat}
    {p : JsStr} {j : JSON} (h : RepJ cfg st v S p j) : v < st.nodes.length := by
  cases h with
  | leaf _ _ _ _ hget _ => exact (List.get?_eq_some.mp hget).1
  | arr _ _ _ _ hget _ _ => exact (List.get?_eq_some.mp hget).1
  | obj _ _ _ _ hget _ _ => exact (List.get?_eq_some.mp hget).1

/-- Two states agree on an id set: same node record and same child list at
every id of the set. -/
def StAgree (st st' : BuildState) (S : Finset Nat) : Prop :=
  ∀ w ∈ S, st'.nodes.get? w = st.nodes.get? w
    ∧ st'.childLists.getD w [] = st.childLists.getD w []

/-- Representation facts are stable under any state change that agrees on
the represented id set. -/
theorem Rep_mono (cfg : Config) (st st' : BuildState) :
    (∀ {v : Nat} {S : Finset Nat} {p : JsStr} {j : JSON},
      RepJ cfg st v S p j → StAgree st st' S → RepJ cfg st' v S p j)
    ∧ (∀ {cs : List Nat} {S : Finset Nat} {p : JsStr} {i : Nat} {xs : JArr},
      RepA cfg st cs S p i xs → StAgree st st' S → RepA cfg st' cs S p i xs)
    ∧ (∀ {cs : List Nat} {S : Finset Nat} {p : JsStr} {kvs : JObj},
      RepO cfg st cs S p kvs → StAgree st st' S → RepO cfg st' cs S p kvs) := by
  have C1 : ∀ (v : Nat) (p : JsStr) (j : JSON), j.isLeaf = true →
      st.nodes.get? v = some ⟨p, j.asScalar⟩ →
      st.childLists.getD v [] = [] →
      (StAgree st st' {v} → RepJ cfg st' v {v} p j) := by
    intro v p j hlf hget hcl hag
    obtain ⟨h1, h2⟩ := hag v (Finset.mem_singleton_self v)
    exact RepJ.leaf v p j hlf (h1.trans hget) (h2.trans hcl)
  have C2 : ∀ (v : Nat) (S : Finset Nat) (p : JsStr) (xs : JArr),
      st.nodes.get? v = some ⟨p, none⟩ →
      RepA cfg st (st.childLists.getD v []) S p 0 xs →
      v ∉ S →
      (StAgree st st' S → RepA cfg st' (st.childLists.getD v []) S p 0 xs) →
      (StAgree st st' (insert v S) → RepJ cfg st' v (insert v S) p (.arr xs)) := by
    intro v S p xs hget _ hv ih hag
    obtain ⟨h1, h2⟩ := hag v (Finset.mem_insert_self v S)
    have hagS : StAgree st st' S := fun w hw => hag w (Finset.mem_insert_of_mem hw)
    refine RepJ.arr v S p xs (h1.trans hget) ?_ hv
    rw [h2]
    exact ih hagS
  have C3 : ∀ (v : Nat) (S : Finset Nat) (p : JsStr) (kvs : JObj),
      st.nodes.get? v = some ⟨p, none⟩ →
      RepO cfg st (st.childLists.getD v []) S p kvs →
      v ∉ S →
      (StAgree st st' S → RepO cfg st' (st.childLists.getD v []) S p kvs) →
      (StAgree st st' (insert v S) → RepJ cfg st' v (insert v S) p (.obj kvs)) := by
    intro v S p kvs hget _ hv ih hag
    obtain ⟨h1, h2⟩ := hag v (Finset.mem_insert_self v S)
    have hagS : StAgree st st' S := fun w hw => hag w (Finset.mem_insert_of_mem hw)
    refine RepJ.obj v S p kvs (h1.trans hget) ?_ hv
    rw [h2]
    exact ih hagS
  have C4 : ∀ (p : JsStr) (i : Nat),
      StAgree st st' (∅ : Finset Nat) → RepA cfg st' [] ∅ p i .nil :=
    fun p i _ => RepA.nil p i
  have C5 : ∀ (c : Nat) (Sc : Finset Nat) (cs : List Nat) (St : Finset Nat)
      (p : JsStr) (i : Nat) (x : JSON) (xs : JArr),
      RepJ cfg st c Sc (elemPath cfg p i) x →
      RepA cfg st cs St p (i + 1) xs →
      Disjoint Sc St →
      (StAgree st st' Sc → RepJ cfg st' c Sc (elemPath cfg p i) x) →
      (StAgree st st' St → RepA cfg st' cs St p (i + 1) xs) →
      (StAgree st st' (Sc ∪ St) → RepA cfg st' (c :: cs) (Sc ∪ St) p i (.cons x xs)) := by
    intro c Sc cs St p i x xs _ _ hd ihc iht hag
    exact RepA.cons c Sc cs St p i x xs
      (ihc fun w hw => hag w (Finset.mem_union_left _ hw))
      (iht fun w hw => hag w (Finset.mem_union_right _ hw)) hd
  have C6 : ∀ (p : JsStr),
      StAgree st st' (∅ : Finset Nat) → RepO cfg st' [] ∅ p .nil :=
    fun p _ => RepO.nil p
  have C7 : ∀ (cs : List Nat) (S : Finset Nat) (p key : JsStr) (val : JSON) (kvs : JObj),
      key ∈ cfg.ignoreKeys →
      RepO cfg st cs S p kvs →
      (StAgree st st' S → RepO cfg st' cs S p kvs) →
      (StAgree st st' S → RepO cfg st' cs S p (.cons key val kvs)) := by
    intro cs S p key val kvs hk _ ih hag
    exact RepO.skip cs S p key val kvs hk (ih hag)
  have C8 : ∀ (c : Nat) (Sc : Finset Nat) (cs : List Nat) (St : Finset Nat)
      (p key : JsStr) (val : JSON) (kvs : JObj),
      key ∉ cfg.ignoreKeys →
      RepJ cfg st c Sc (joinPath p key) val →
      RepO cfg st cs St p kvs →
      Disjoint Sc St →
      (StAgree st st' Sc → RepJ cfg st' c Sc (joinPath p key) val) →
      (StAgree st st' St → RepO cfg st' cs St p kvs) →
      (StAgree st st' (Sc ∪ St) → RepO cfg st' (c :: cs) (Sc ∪ St) p (.cons key val kvs)) := by
    intro c Sc cs St p key val kvs hk _ _ hd ihc iht hag
    exact RepO.cons c Sc cs St p key val kvs hk
      (ihc fun w hw => hag w (Finset.mem_union_left _ hw))
      (iht fun w hw => hag w (Finset.mem_union_right _ hw)) hd
  refine ⟨?_, ?_, ?_⟩
  · intro v S p j h
    exact @RepJ.rec cfg st
      (fun v S p j _ => StAgree st st' S → RepJ cfg st' v S p j)
      (fun cs S p i xs _ => StAgree st st' S → RepA cfg st' cs S p i xs)
      (fun cs S p kvs _ => StAgree st st' S → RepO cfg st' cs S p kvs)
      C1 C2 C3 C4 C5 C6 C7 C8 v S p j h
  · intro cs S p i xs h
    exact @RepA.rec cfg st
      (fun v S p j _ => StAgree st st' S → RepJ cfg st' v S p j)
      (fun cs S p i xs _ => StAgree st st' S → RepA cfg st' cs S p i xs)
      (fun cs S p kvs _ => StAgree st st' S → RepO cfg st' cs S p kvs)
      C1 C2 C3 C4 C5 C6 C7 C8 cs S p i xs h
  · intro cs S p kvs h
    exact @RepO.rec cfg st
      (fun v S p j _ => StAgree st st' S → RepJ cfg st' v S p j)
      (fun cs S p i xs _ => StAgree st st' S → RepA cfg st' cs S p i xs)
      (fun cs S p kvs _ => StAgree st st' S → RepO cfg st' cs S p kvs)
      C1 C2 C3 C4 C5 C6 C7 C8 cs S p kvs h

/-- Fold-union of a list of finsets. -/
def funion (l : List (Finset Nat)) : Finset Nat := l.foldr (· ∪ ·) ∅

theorem funion_nil : funion [] = ∅ := rfl

theorem funion_cons (s : Finset Nat) (l : List (Finset Nat)) :
    funion (s :: l) = s ∪ funion l := rfl

theorem subset_funion_of_mem {s : Finset Nat} : ∀ {l : List (Finset Nat)}, s ∈ l →
    s ⊆ funion l := by
  intro l
  induction l with
  | nil => intro h; exact absurd h (List.not_mem_nil s)
  | cons a t ih =>
    intro h
    rw [funion_cons]
    rcases List.mem_cons.mp h with h | h
    · rw [h]; exact Finset.subset_union_left
    · exact subset_trans (ih h) Finset.subset_union_right

theorem RepA_toList (cfg : Config) (st : BuildState) :
    ∀ (xs : JArr) (cs : List Nat) (S : Finset Nat) (p : JsStr) (i : Nat),
      RepA cfg st cs S p i xs →
      ∃ ts : List (Nat × Finset Nat × JsStr × JSON),
        cs = ts.map (fun t => t.1)
        ∧ (∀ t ∈ ts, RepJ cfg st t.1 t.2.1 t.2.2.1 t.2.2.2)
        ∧ S = funion (ts.map (fun t => t.2.1))
        ∧ (ts.map (fun t => t.2.1)).Pairwise Disjoint
        ∧ ts.map (fun t => (t.2.2.1, t.2.2.2)) = kidsA cfg p i xs
  | .nil, cs, S, p, i, h => by
    cases h
    exact ⟨[], rfl, fun t ht => absurd ht (List.not_mem_nil t), rfl, List.Pairwise.nil, rfl⟩
  | .cons x xs, cs, S, p, i, h => by
    cases h with
    | cons c Sc cs' St _ _ _ _ h1 h2 hd =>
      obtain ⟨ts', hmap, hrep, hS, hpw, hkids⟩ := RepA_toList cfg st xs cs' St p (i + 1) h2
      refine ⟨(c, Sc, elemPath cfg p i, x) :: ts', ?_, ?_, ?_, ?_, ?_⟩
      · rw [List.map_cons, ← hmap]
      · intro t ht
        rcases List.mem_cons.mp ht with ht | ht
        · rw [ht]; exact h1
        · exact hrep t ht
      · rw [List.map_cons, funion_cons, ← hS]
      · rw [List.map_cons]
        refine List.Pairwise.cons ?_ hpw
        intro s hs
        rw [hS] at hd
        exact Finset.disjoint_of_subset_right (subset_funion_of_mem hs) hd
      · rw [List.map_cons, hkids]
        rfl

theorem RepO_toList (cfg : Config) (st : BuildState) :
    ∀ (kvs : JObj) (cs : List Nat) (S : Finset Nat) (p : JsStr),
      RepO cfg st cs S p kvs →
      ∃ ts : List (Nat × Finset Nat × JsStr × JSON),
        cs = ts.map (fun t => t.1)
        ∧ (∀ t ∈ ts, RepJ cfg st t.1 t.2.1 t.2.2.1 t.2.2.2)
        ∧ S = funion (ts.map (fun t => t.2.1))
        ∧ (ts.map (fun t => t.2.1)).Pairwise Disjoint
        ∧ ts.map (fun t => (t.2.2.1, t.2.2.2)) = kidsO cfg p kvs
  | .nil, cs, S, p, h => by
    cases h
    exact ⟨[], rfl, fun t ht => absurd ht (List.not_mem_nil t), rfl, List.Pairwise.nil, rfl⟩
  | .cons key val kvs, cs, S, p, h => by
    cases h with
    | skip _ _ _ _ _ _ hk h2 =>
      obtain ⟨ts', hmap, hrep, hS, hpw, hkids⟩ := RepO_toList cfg st kvs cs S p h2
      refine ⟨ts', hmap, hrep, hS, hpw, ?_⟩
      show ts'.map _ = kidsO cfg p (.cons key val kvs)
      rw [hkids]
      show kidsO cfg p kvs = if key ∈ cfg.ignoreKeys then kidsO cfg p kvs else _
      rw [if_pos hk]
    | cons c Sc cs' St _ _ _ _ hk h1 h2 hd =>
      obtain ⟨ts', hmap, hrep, hS, hpw, hkids⟩ := RepO_toList cfg st kvs cs' St p h2
      refine ⟨(c, Sc, joinPath p key, val) :: ts', ?_, ?_, ?_, ?_, ?_⟩
      · rw [List.map_cons, ← hmap]
      · intro t ht
        rcases List.mem_cons.mp ht with ht | ht
        · rw [ht]; exact h1
        · exact hrep t ht
      · rw [List.map_cons, funion_cons, ← hS]
      · rw [List.map_cons]
        refine List.Pairwise.cons ?_ hpw
        intro s hs
        rw [hS] at hd
        exact Finset.disjoint_of_subset_right (subset_funion_of_mem hs) hd
      · rw [List.map_cons, hkids]
        show _ :: kidsO cfg p kvs = if key ∈ cfg.ignoreKeys then _ else _
        rw [if_neg hk]

theorem positionsA_eq (cfg : Config) (p : JsStr) :
    ∀ (xs : JArr) (i : Nat),
      positionsA cfg p i xs
        = ((kidsA cfg p i xs).map (fun s => positionsM cfg s.1 s.2)).sum
  | .nil, i => by
    show (0 : Multiset (JsStr × JSON)) = (([] : List (JsStr × JSON)).map _).sum
    rfl
  | .cons x xs, i => by
    show positionsM cfg (elemPath cfg p i) x + positionsA cfg p (i + 1) xs
      = (((elemPath cfg p i, x) :: kidsA cfg p (i + 1) xs).map _).sum
    rw [List.map_cons, List.sum_cons, positionsA_eq cfg p xs (i + 1)]

theorem positionsO_eq (cfg : Config) (p : JsStr) :
    ∀ (kvs : JObj),
      positionsO cfg p kvs
        = ((kidsO cfg p kvs).map (fun s => positionsM cfg s.1 s.2)).sum
  | .nil => by
    show (0 : Multiset (JsStr × JSON)) = (([] : List (JsStr × JSON)).map _).sum
    rfl
  | .cons key val kvs => by
    show (if key ∈ cfg.ignoreKeys then positionsO cfg p kvs else _)
      = ((if key ∈ cfg.ignoreKeys then kidsO cfg p kvs else _).map _).sum
    split_ifs with hk
    · exact positionsO_eq cfg p kvs
    · rw [List.map_cons, List.sum_cons, positionsO_eq cfg p kvs]

theorem mem_stackMeasure {g : BuildFrame} : ∀ {L : List BuildFrame}, g ∈ L →
    jsize g.obj ≤ stackMeasure L := by
  intro L
  induction L with
  | nil => intro h; exact absurd h (List.not_mem_nil g)
  | cons a t ih =>
    intro h
    have hm : stackMeasure (a :: t) = jsize a.obj + stackMeasure t := by simp [stackMeasure]
    rcases List.mem_cons.mp h with h | h
    · rw [h]; omega
    · have := ih h; omega

/-- The traversal as a structurally recursive function: process the frame,
then recursively process the produced frames in pop order (reverse push
order), threading the state.  Equal to the fuelled work-stack loop. -/
def buildRec (cfg : Config) (st : BuildState) (f : BuildFrame) : BuildState :=
  (processFrame cfg st f).2.reverse.attach.foldl (fun s g => buildRec cfg s g.1)
    (processFrame cfg st f).1
termination_by jsize f.obj
decreasing_by
  have hmem := g.2
  rw [List.mem_reverse] at hmem
  have h1 := mem_stackMeasure hmem
  have h2 := processFrame_measure_lt cfg st f
  omega

theorem buildLoop_eq_buildRec (cfg : Config) :
    ∀ (fuel : Nat) (st : BuildState) (stack : List BuildFrame),
      stackMeasure stack ≤ fuel →
      buildLoop cfg fuel st stack = stack.foldl (buildRec cfg) st := by
  intro fuel
  induction fuel with
  | zero =>
    intro st stack hm
    cases stack with
    | nil => rfl
    | cons f rest =>
      exfalso
      have h1 := jsize_pos f.obj
      have h2 : stackMeasure (f :: rest) = jsize f.obj + stackMeasure rest := by
        simp [stackMeasure]
      omega
  | succ fuel ih =>
    intro st stack hm
    cases stack with
    | nil => rfl
    | cons f rest =>
      have hms : stackMeasure ((processFrame cfg st f).2.reverse ++ rest) ≤ fuel := by
        have h1 := processFrame_measure_lt cfg st f
        have h2 : stackMeasure ((processFrame cfg st f).2.reverse ++ rest)
            = stackMeasure (processFrame cfg st f).2 + stackMeasure rest := by
          simp [stackMeasure, List.sum_reverse]
        have h3 : stackMeasure (f :: rest) = jsize f.obj + stackMeasure rest := by
          simp [stackMeasure]
        omega
      show buildLoop cfg fuel (processFrame cfg st f).1
          ((processFrame cfg st f).2.reverse ++ rest) = _
      rw [ih _ _ hms, List.foldl_append]
      have hB : (processFrame cfg st f).2.reverse.foldl (buildRec cfg)
            (processFrame cfg st f).1
          = buildRec cfg st f := by
        conv_rhs => rw [buildRec]
        rw [List.foldl_attach]
      rw [hB]
      rfl

/- ### getD bookkeeping helpers -/

theorem getD_append_lt {α : Type} (A B : List α) (d : α) (i : Nat) (h : i < A.length) :
    (A ++ B).getD i d = A.getD i d := by
  rw [List.getD_eq_getElem?_getD, List.getD_eq_getElem?_getD, List.getElem?_append_left h]

theorem getD_append_ge {α : Type} (A B : List α) (d : α) (i : Nat) (h : A.length ≤ i) :
    (A ++ B).getD i d = B.getD (i - A.length) d := by
  rw [List.getD_eq_getElem?_getD, List.getD_eq_getElem?_getD, List.getElem?_append_right h]

theorem getD_of_ge {α : Type} (A : List α) (d : α) (i : Nat) (h : A.length ≤ i) :
    A.getD i d = d := by
  rw [List.getD_eq_getElem?_getD, List.getElem?_eq_none h]
  rfl

theorem getD_set_self {α : Type} (l : List α) (i : Nat) (a d : α) (h : i < l.length) :
    (l.set i a).getD i d = a := by
  rw [List.getD_eq_getElem?_getD, List.getElem?_set_self', List.getElem?_eq_getElem h]
  rfl

theorem getD_set_ne {α : Type} (l : List α) (i j : Nat) (a d : α) (h : j ≠ i) :
    (l.set i a).getD j d = l.getD j d := by
  rw [List.getD_eq_getElem?_getD, List.getD_eq_getElem?_getD,
    List.getElem?_set_ne (by omega : i ≠ j)]

theorem getD_singleton_nil : ∀ (m : Nat), ([([] : List Nat)] : List (List Nat)).getD m [] = []
  | 0 => rfl
  | _ + 1 => rfl

/- ### processNode effect -/

theorem processNode_nodes (st : BuildState) (x : JSON) (k p : JsStr) (pid : Nat) :
    (processNode st x k p pid).1.nodes = st.nodes ++ [⟨joinPath p k, x.asScalar⟩] := rfl

theorem processNode_nodes_length (st : BuildState) (x : JSON) (k p : JsStr) (pid : Nat) :
    (processNode st x k p pid).1.nodes.length = st.nodes.length + 1 := by
  rw [processNode_nodes, List.length_append]
  rfl

theorem processNode_cl_length (st : BuildState) (x : JSON) (k p : JsStr) (pid : Nat) :
    (processNode st x k p pid).1.childLists.length = st.childLists.length + 1 := by
  show ((st.childLists.set pid _) ++ [[]]).length = _
  rw [List.length_append, List.length_set]
  rfl

theorem processNode_cl_getD_pid (st : BuildState) (x : JSON) (k p : JsStr) (pid : Nat)
    (h : pid < st.childLists.length) :
    (processNode st x k p pid).1.childLists.getD pid []
      = st.childLists.getD pid [] ++ [st.nodes.length] := by
  show ((st.childLists.set pid (st.childLists.getD pid [] ++ [st.nodes.length]))
      ++ [[]]).getD pid [] = _
  rw [getD_append_lt _ _ _ _ (by rw [List.length_set]; exact h), getD_set_self _ _ _ _ h]

theorem processNode_cl_getD_ne (st : BuildState) (x : JSON) (k p : JsStr) (pid q : Nat)
    (h : q ≠ pid) :
    (processNode st x k p pid).1.childLists.getD q [] = st.childLists.getD q [] := by
  show ((st.childLists.set pid _) ++ [[]]).getD q [] = _
  by_cases hq : q < st.childLists.length
  · rw [getD_append_lt _ _ _ _ (by rw [List.length_set]; exact hq), getD_set_ne _ _ _ _ _ h]
  · push_neg at hq
    rw [getD_append_ge _ _ _ _ (by rw [List.length_set]; exact hq), List.length_set,
      getD_singleton_nil, getD_of_ge _ _ _ hq]

theorem processNode_frame (st : BuildState) (x : JSON) (k p : JsStr) (pid : Nat) :
    (processNode st x k p pid).2
      = if x.isLeaf then none else some ⟨x, joinPath p k, st.nodes.length⟩ := rfl

theorem asScalar_of_not_leaf : ∀ (x : JSON), x.isLeaf = false → x.asScalar = none
  | .arr _, _ => rfl
  | .obj _, _ => rfl

/- ### batch specification of one frame pop -/

/-- Records allocated for the elements of an array. -/
def recsA (cfg : Config) (p : JsStr) : Nat → JArr → List NodeRec
  | _, .nil => []
  | i, .cons x xs => ⟨elemPath cfg p i, x.asScalar⟩ :: recsA cfg p (i + 1) xs

def lenA : JArr → Nat
  | .nil => 0
  | .cons _ xs => lenA xs + 1

/-- Frames pushed for the composite elements of an array, given the next
free id `n`. -/
def framesA (cfg : Config) (p : JsStr) : Nat → Nat → JArr → List BuildFrame
  | _, _, .nil => []
  | i, n, .cons x xs =>
    if x.isLeaf then framesA cfg p (i + 1) (n + 1) xs
    else ⟨x, elemPath cfg p i, n⟩ :: framesA cfg p (i + 1) (n + 1) xs

/-- Records allocated for the non-ignored members of an object. -/
def recsO (cfg : Config) (p : JsStr) : JObj → List NodeRec
  | .nil => []
  | .cons key val kvs =>
    if key ∈ cfg.ignoreKeys then recsO cfg p kvs
    else ⟨joinPath p key, val.asScalar⟩ :: recsO cfg p kvs

def lenO (cfg : Config) : JObj → Nat
  | .nil => 0
  | .cons key _ kvs =>
    if key ∈ cfg.ignoreKeys then lenO cfg kvs else lenO cfg kvs + 1

def framesO (cfg : Config) (p : JsStr) : Nat → JObj → List BuildFrame
  | _, .nil => []
  | n, .cons key val kvs =>
    if key ∈ cfg.ignoreKeys then framesO cfg p n kvs
    else if val.isLeaf then framesO cfg p (n + 1) kvs
    else ⟨val, joinPath p key, n⟩ :: framesO cfg p (n + 1) kvs

theorem recsA_length (cfg : Config) (p : JsStr) :
    ∀ (xs : JArr) (i : Nat), (recsA cfg p i xs).length = lenA xs
  | .nil, _ => rfl
  | .cons x xs, i => by
    show (recsA cfg p (i + 1) xs).length + 1 = lenA xs + 1
    rw [recsA_length cfg p xs (i + 1)]

theorem recsO_length (cfg : Config) (p : JsStr) :
    ∀ (kvs : JObj), (recsO cfg p kvs).length = lenO cfg kvs
  | .nil => rfl
  | .cons key val kvs => by
    show (if key ∈ cfg.ignoreKeys then recsO cfg p kvs else _).length
      = if key ∈ cfg.ignoreKeys then lenO cfg kvs else _
    split_ifs with hk
    · exact recsO_length cfg p kvs
    · show (recsO cfg p kvs).length + 1 = lenO cfg kvs + 1
      rw [recsO_length cfg p kvs]

theorem processArrItems_spec (cfg : Config) (p : JsStr) (pid : Nat) :
    ∀ (xs : JArr) (st : BuildState) (i : Nat), pid < st.childLists.length →
      (processArrItems cfg st p pid i xs).1.nodes = st.nodes ++ recsA cfg p i xs
      ∧ (processArrItems cfg st p pid i xs).1.childLists.length
          = st.childLists.length + lenA xs
      ∧ (processArrItems cfg st p pid i xs).1.childLists.getD pid []
          = st.childLists.getD pid [] ++ List.range' st.nodes.length (lenA xs)
      ∧ (∀ q, q ≠ pid → (processArrItems cfg st p pid i xs).1.childLists.getD q []
          = st.childLists.getD q [])
      ∧ (processArrItems cfg st p pid i xs).2 = framesA cfg p i st.nodes.length xs
  | .nil, st, i, hpid => by
    refine ⟨?_, ?_, ?_, fun q hq => rfl, rfl⟩
    · show st.nodes = st.nodes ++ []
      rw [List.append_nil]
    · show st.childLists.length = st.childLists.length + 0
      rfl
    · show st.childLists.getD pid [] = st.childLists.getD pid [] ++ []
      rw [List.append_nil]
  | .cons x xs, st, i, hpid => by
    have hpid1 : pid < (processNode st x (if cfg.preserveArrayOrder = true then brk i else [])
        p pid).1.childLists.length := by
      rw [processNode_cl_length]; omega
    obtain ⟨h1, h2, h3, h4, h5⟩ := processArrItems_spec cfg p pid xs
      (processNode st x (if cfg.preserveArrayOrder = true then brk i else []) p pid).1
      (i + 1) hpid1
    unfold processArrItems
    dsimp only
    refine ⟨?_, ?_, ?_, ?_, ?_⟩
    · rw [h1, processNode_nodes, List.append_assoc]
      show st.nodes ++ (⟨elemPath cfg p i, x.asScalar⟩ :: recsA cfg p (i + 1) xs)
        = st.nodes ++ recsA cfg p i (.cons x xs)
      rfl
    · rw [h2, processNode_cl_length]
      show st.childLists.length + 1 + lenA xs = st.childLists.length + (lenA xs + 1)
      omega
    · rw [h3, processNode_cl_getD_pid st x _ p pid hpid, processNode_nodes_length,
        List.append_assoc]
      show st.childLists.getD pid []
          ++ (st.nodes.length :: List.range' (st.nodes.length + 1) (lenA xs))
        = st.childLists.getD pid [] ++ List.range' st.nodes.length (lenA (.cons x xs))
      rfl
    · intro q hq
      rw [h4 q hq, processNode_cl_getD_ne st x _ p pid q hq]
    · rw [h5, processNode_frame, processNode_nodes_length]
      show (if x.isLeaf = true then none
          else some (⟨x, elemPath cfg p i, st.nodes.length⟩ : BuildFrame)).toList
        ++ framesA cfg p (i + 1) (st.nodes.length + 1) xs
        = if x.isLeaf = true then framesA cfg p (i + 1) (st.nodes.length + 1) xs
          else ⟨x, elemPath cfg p i, st.nodes.length⟩
            :: framesA cfg p (i + 1) (st.nodes.length + 1) xs
      split_ifs with hx
      · rfl
      · rfl

theorem processObjItems_spec (cfg : Config) (p : JsStr) (pid : Nat) :
    ∀ (kvs : JObj) (st : BuildState), pid < st.childLists.length →
      (processObjItems cfg st p pid kvs).1.nodes = st.nodes ++ recsO cfg p kvs
      ∧ (processObjItems cfg st p pid kvs).1.childLists.length
          = st.childLists.length + lenO cfg kvs
      ∧ (processObjItems cfg st p pid kvs).1.childLists.getD pid []
          = st.childLists.getD pid [] ++ List.range' st.nodes.length (lenO cfg kvs)
      ∧ (∀ q, q ≠ pid → (processObjItems cfg st p pid kvs).1.childLists.getD q []
          = st.childLists.getD q [])
      ∧ (processObjItems cfg st p pid kvs).2 = framesO cfg p st.nodes.length kvs
  | .nil, st, hpid => by
    refine ⟨?_, ?_, ?_, fun q hq => rfl, rfl⟩
    · show st.nodes = st.nodes ++ []
      rw [List.append_nil]
    · show st.childLists.length = st.childLists.length + 0
      rfl
    · show st.childLists.getD pid [] = st.childLists.getD pid [] ++ []
      rw [List.append_nil]
  | .cons key val kvs, st, hpid => by
    unfold processObjItems
    dsimp only
    by_cases hk : key ∈ cfg.ignoreKeys
    · rw [if_pos hk]
      obtain ⟨h1, h2, h3, h4, h5⟩ := processObjItems_spec cfg p pid kvs st hpid
      refine ⟨?_, ?_, ?_, h4, ?_⟩
      · rw [h1]
        show st.nodes ++ recsO cfg p kvs
          = st.nodes ++ if key ∈ cfg.ignoreKeys then recsO cfg p kvs else _
        rw [if_pos hk]
      · rw [h2]
        show st.childLists.length + lenO cfg kvs
          = st.childLists.length + if key ∈ cfg.ignoreKeys then lenO cfg kvs else _
        rw [if_pos hk]
      · rw [h3]
        show st.childLists.getD pid [] ++ List.range' st.nodes.length (lenO cfg kvs)
          = st.childLists.getD pid []
            ++ List.range' st.nodes.length (if key ∈ cfg.ignoreKeys then lenO cfg kvs else _)
        rw [if_pos hk]
      · rw [h5]
        show framesO cfg p st.nodes.length kvs
          = if key ∈ cfg.ignoreKeys then framesO cfg p st.nodes.length kvs else _
        rw [if_pos hk]
    · rw [if_neg hk]
      have hpid1 : pid < (processNode st val key p pid).1.childLists.length := by
        rw [processNode_cl_length]; omega
      obtain ⟨h1, h2, h3, h4, h5⟩ := processObjItems_spec cfg p pid kvs
        (processNode st val key p pid).1 hpid1
      refine ⟨?_, ?_, ?_, ?_, ?_⟩
      · rw [h1, processNode_nodes, List.append_assoc]
        show st.nodes ++ (⟨joinPath p key, val.asScalar⟩ :: recsO cfg p kvs)
          = st.nodes ++ if key ∈ cfg.ignoreKeys then _ else
              ⟨joinPath p key, val.asScalar⟩ :: recsO cfg p kvs
        rw [if_neg hk]
      · rw [h2, processNode_cl_length]
        show st.childLists.length + 1 + lenO cfg kvs
          = st.childLists.length + if key ∈ cfg.ignoreKeys then _ else lenO cfg kvs + 1
        rw [if_neg hk]
        omega
      · rw [h3, processNode_cl_getD_pid st val key p pid hpid, processNode_nodes_length,
          List.append_assoc]
        show st.childLists.getD pid []
            ++ (st.nodes.length :: List.range' (st.nodes.length + 1) (lenO cfg kvs))
          = st.childLists.getD pid []
            ++ List.range' st.nodes.length (if key ∈ cfg.ignoreKeys then _ else lenO cfg kvs + 1)
        rw [if_neg hk]
        rfl
      · intro q hq
        rw [h4 q hq, processNode_cl_getD_ne st val key p pid q hq]
      · rw [h5, processNode_frame, processNode_nodes_length]
        show (if val.isLeaf = true then none
            else some (⟨val, joinPath p key, st.nodes.length⟩ : BuildFrame)).toList
          ++ framesO cfg p (st.nodes.length + 1) kvs
          = if key ∈ cfg.ignoreKeys then framesO cfg p st.nodes.length kvs
            else if val.isLeaf = true then framesO cfg p (st.nodes.length + 1) kvs
              else ⟨val, joinPath p key, st.nodes.length⟩
                :: framesO cfg p (st.nodes.length + 1) kvs
        rw [if_neg hk]
        split_ifs with hv
        · rfl
        · rfl

theorem framesA_mem (cfg : Config) (p : JsStr) :
    ∀ (xs : JArr) (i n : Nat) (g : BuildFrame), g ∈ framesA cfg p i n xs →
      g.obj.isLeaf = false ∧ n ≤ g.parentId ∧ g.parentId < n + lenA xs
      ∧ (recsA cfg p i xs).get? (g.parentId - n) = some ⟨g.path, none⟩
      ∧ jsize g.obj ≤ jsizeA xs
  | .nil, i, n, g => fun h => absurd h (List.not_mem_nil g)
  | .cons x xs, i, n, g => by
    intro h
    have hh : framesA cfg p i n (.cons x xs)
        = if x.isLeaf = true then framesA cfg p (i + 1) (n + 1) xs
          else ⟨x, elemPath cfg p i, n⟩ :: framesA cfg p (i + 1) (n + 1) xs := rfl
    rw [hh] at h
    split_ifs at h with hx
    · obtain ⟨hl, hge, hlt, hrec, hsz⟩ := framesA_mem cfg p xs (i + 1) (n + 1) g h
      have h1 := jsize_pos x
      refine ⟨hl, by omega, ?_, ?_, ?_⟩
      · show g.parentId < n + (lenA xs + 1)
        omega
      · have harith : g.parentId - n = (g.parentId - (n + 1)) + 1 := by omega
        rw [harith]
        show (recsA cfg p (i + 1) xs).get? (g.parentId - (n + 1)) = _
        exact hrec
      · show jsize g.obj ≤ jsize x + jsizeA xs
        omega
    · rcases List.mem_cons.mp h with hg | hg
      · subst hg
        simp only [Bool.not_eq_true] at hx
        dsimp only
        refine ⟨hx, le_refl n, ?_, ?_, ?_⟩
        · show n < n + (lenA xs + 1)
          omega
        · rw [Nat.sub_self]
          show some (⟨elemPath cfg p i, x.asScalar⟩ : NodeRec)
            = some (⟨elemPath cfg p i, none⟩ : NodeRec)
          rw [asScalar_of_not_leaf x hx]
        · show jsize x ≤ jsize x + jsizeA xs
          omega
      · obtain ⟨hl, hge, hlt, hrec, hsz⟩ := framesA_mem cfg p xs (i + 1) (n + 1) g hg
        have h1 := jsize_pos x
        refine ⟨hl, by omega, ?_, ?_, ?_⟩
        · show g.parentId < n + (lenA xs + 1)
          omega
        · have harith : g.parentId - n = (g.parentId - (n + 1)) + 1 := by omega
          rw [harith]
          show (recsA cfg p (i + 1) xs).get? (g.parentId - (n + 1)) = _
          exact hrec
        · show jsize g.obj ≤ jsize x + jsizeA xs
          omega

theorem framesA_nodup (cfg : Config) (p : JsStr) :
    ∀ (xs : JArr) (i n : Nat), ((framesA cfg p i n xs).map BuildFrame.parentId).Nodup
  | .nil, _, _ => List.nodup_nil
  | .cons x xs, i, n => by
    have hh : framesA cfg p i n (.cons x xs)
        = if x.isLeaf = true then framesA cfg p (i + 1) (n + 1) xs
          else ⟨x, elemPath cfg p i, n⟩ :: framesA cfg p (i + 1) (n + 1) xs := rfl
    rw [hh]
    split_ifs with hx
    · exact framesA_nodup cfg p xs (i + 1) (n + 1)
    · rw [List.map_cons]
      refine List.nodup_cons.mpr ⟨?_, framesA_nodup cfg p xs (i + 1) (n + 1)⟩
      show n ∉ (framesA cfg p (i + 1) (n + 1) xs).map BuildFrame.parentId
      intro hmem
      obtain ⟨g, hg, hpid⟩ := List.mem_map.mp hmem
      have := (framesA_mem cfg p xs (i + 1) (n + 1) g hg).2.1
      omega

theorem framesO_mem (cfg : Config) (p : JsStr) :
    ∀ (kvs : JObj) (n : Nat) (g : BuildFrame), g ∈ framesO cfg p n kvs →
      g.obj.isLeaf = false ∧ n ≤ g.parentId ∧ g.parentId < n + lenO cfg kvs
      ∧ (recsO cfg p kvs).get? (g.parentId - n) = some ⟨g.path, none⟩
      ∧ jsize g.obj ≤ jsizeO kvs
  | .nil, n, g => fun h => absurd h (List.not_mem_nil g)
  | .cons key val kvs, n, g => by
    intro h
    have hh : framesO cfg p n (.cons key val kvs)
        = if key ∈ cfg.ignoreKeys then framesO cfg p n kvs
          else if val.isLeaf = true then framesO cfg p (n + 1) kvs
            else ⟨val, joinPath p key, n⟩ :: framesO cfg p (n + 1) kvs := rfl
    have hr : recsO cfg p (.cons key val kvs)
        = if key ∈ cfg.ignoreKeys then recsO cfg p kvs
          else ⟨joinPath p key, val.asScalar⟩ :: recsO cfg p kvs := rfl
    have hlen : lenO cfg (.cons key val kvs)
        = if key ∈ cfg.ignoreKeys then lenO cfg kvs else lenO cfg kvs + 1 := rfl
    rw [hh] at h
    rw [hr, hlen]
    have h1 := jsize_pos val
    have hj : jsizeO (JObj.cons key val kvs) = jsize val + jsizeO kvs := rfl
    split_ifs at h ⊢ with hk hv
    · obtain ⟨hl, hge, hlt, hrec, hsz⟩ := framesO_mem cfg p kvs n g h
      exact ⟨hl, hge, hlt, hrec, by omega⟩
    · obtain ⟨hl, hge, hlt, hrec, hrsz⟩ := framesO_mem cfg p kvs (n + 1) g h
      refine ⟨hl, by omega, by omega, ?_, by omega⟩
      have harith : g.parentId - n = (g.parentId - (n + 1)) + 1 := by omega
      rw [harith]
      show (recsO cfg p kvs).get? (g.parentId - (n + 1)) = _
      exact hrec
    · rcases List.mem_cons.mp h with hg | hg
      · subst hg
        simp only [Bool.not_eq_true] at hv
        dsimp only
        refine ⟨hv, le_refl n, by omega, ?_, by omega⟩
        rw [Nat.sub_self]
        show some (⟨joinPath p key, val.asScalar⟩ : NodeRec)
          = some (⟨joinPath p key, none⟩ : NodeRec)
        rw [asScalar_of_not_leaf val hv]
      · obtain ⟨hl, hge, hlt, hrec, hrsz⟩ := framesO_mem cfg p kvs (n + 1) g hg
        refine ⟨hl, by omega, by omega, ?_, by omega⟩
        have harith : g.parentId - n = (g.parentId - (n + 1)) + 1 := by omega
        rw [harith]
        show (recsO cfg p kvs).get? (g.parentId - (n + 1)) = _
        exact hrec

theorem framesO_nodup (cfg : Config) (p : JsStr) :
    ∀ (kvs : JObj) (n : Nat), ((framesO cfg p n kvs).map BuildFrame.parentId).Nodup
  | .nil, _ => List.nodup_nil
  | .cons key val kvs, n => by
    have hh : framesO cfg p n (.cons key val kvs)
        = if key ∈ cfg.ignoreKeys then framesO cfg p n kvs
          else if val.isLeaf = true then framesO cfg p (n + 1) kvs
            else ⟨val, joinPath p key, n⟩ :: framesO cfg p (n + 1) kvs := rfl
    rw [hh]
    split_ifs with hk hv
    · exact framesO_nodup cfg p kvs n
    · exact framesO_nodup cfg p kvs (n + 1)
    · rw [List.map_cons]
      refine List.nodup_cons.mpr ⟨?_, framesO_nodup cfg p kvs (n + 1)⟩
      show n ∉ (framesO cfg p (n + 1) kvs).map BuildFrame.parentId
      intro hmem
      obtain ⟨g, hg, hpid⟩ := List.mem_map.mp hmem
      have := (framesO_mem cfg p kvs (n + 1) g hg).2.1
      omega

theorem prefix_get? {α : Type} {A B : List α} (h : A <+: B) (i : Nat) (hi : i < A.length) :
    B.get? i = A.get? i := by
  obtain ⟨t, rfl⟩ := h
  rw [List.get?_eq_getElem?, List.get?_eq_getElem?, List.getElem?_append_left hi]

/-- Precondition of one `buildRec` call on a frame `(x, q, c)`. -/
def BRpre (st : BuildState) (x : JSON) (q : JsStr) (c : Nat) : Prop :=
  x.isLeaf = false ∧ st.childLists.length = st.nodes.length ∧ c < st.nodes.length
  ∧ st.nodes.get? c = some ⟨q, none⟩ ∧ st.childLists.getD c [] = []

/-- Postcondition of one `buildRec` call: the node table grows, balance is
kept, only the frame's own child list among the old ids changes, and the
frame's node ends up representing its value with exactly the fresh ids as
its subtree. -/
def BRpost (cfg : Config) (st : BuildState) (x : JSON) (q : JsStr) (c : Nat) : Prop :=
  st.nodes <+: (buildRec cfg st ⟨x, q, c⟩).nodes
  ∧ (buildRec cfg st ⟨x, q, c⟩).childLists.length = (buildRec cfg st ⟨x, q, c⟩).nodes.length
  ∧ (∀ i, i ≠ c → i < st.nodes.length →
      (buildRec cfg st ⟨x, q, c⟩).childLists.getD i [] = st.childLists.getD i [])
  ∧ RepJ cfg (buildRec cfg st ⟨x, q, c⟩) c
      (insert c (Finset.Ico st.nodes.length (buildRec cfg st ⟨x, q, c⟩).nodes.length)) q x

/-- The frames of a fold, in processing order, own consecutive spans of
the fresh ids `[lo, hi)`, and each frame's node represents its object in
the final state. -/
def FoldSpans (cfg : Config) (st' : BuildState) : List BuildFrame → Nat → Nat → Prop
  | [], lo, hi => lo = hi
  | g :: G, lo, hi => ∃ m, lo ≤ m ∧ m ≤ hi
      ∧ RepJ cfg st' g.parentId (insert g.parentId (Finset.Ico lo m)) g.path g.obj
      ∧ FoldSpans cfg st' G m hi

theorem foldRec_correct (cfg : Config) (N : Nat)
    (IH : ∀ (x : JSON), jsize x ≤ N → ∀ (q : JsStr) (c : Nat) (st : BuildState),
      BRpre st x q c → BRpost cfg st x q c) :
    ∀ (G : List BuildFrame) (st : BuildState),
      st.childLists.length = st.nodes.length →
      (G.map BuildFrame.parentId).Nodup →
      (∀ g ∈ G, g.obj.isLeaf = false ∧ jsize g.obj ≤ N ∧ g.parentId < st.nodes.length
        ∧ st.nodes.get? g.parentId = some ⟨g.path, none⟩
        ∧ st.childLists.getD g.parentId [] = []) →
      st.nodes <+: (G.foldl (buildRec cfg) st).nodes
      ∧ (G.foldl (buildRec cfg) st).childLists.length
          = (G.foldl (buildRec cfg) st).nodes.length
      ∧ (∀ i, i < st.nodes.length → i ∉ G.map BuildFrame.parentId →
          (G.foldl (buildRec cfg) st).childLists.getD i [] = st.childLists.getD i [])
      ∧ FoldSpans cfg (G.foldl (buildRec cfg) st) G st.nodes.length
          (G.foldl (buildRec cfg) st).nodes.length := by
  intro G
  induction G with
  | nil =>
    intro st hbal _ _
    exact ⟨List.prefix_refl _, hbal, fun i _ _ => rfl, rfl⟩
  | cons g G ihG =>
    intro st hbal hnd hfacts
    obtain ⟨x, q, c⟩ := g
    obtain ⟨hleaf, hsz, hpid, hrec, hcl⟩ := hfacts _ (List.mem_cons_self _ _)
    obtain ⟨hpre1, hbal1, hmod1, hrep1⟩ := IH x hsz q c st ⟨hleaf, hbal, hpid, hrec, hcl⟩
    rw [List.map_cons] at hnd
    obtain ⟨hnotin, hndG⟩ := List.nodup_cons.mp hnd
    have hfactsG : ∀ g' ∈ G, g'.obj.isLeaf = false ∧ jsize g'.obj ≤ N
        ∧ g'.parentId < (buildRec cfg st ⟨x, q, c⟩).nodes.length
        ∧ (buildRec cfg st ⟨x, q, c⟩).nodes.get? g'.parentId = some ⟨g'.path, none⟩
        ∧ (buildRec cfg st ⟨x, q, c⟩).childLists.getD g'.parentId [] = [] := by
      intro g' hg'
      obtain ⟨h1, h2, h3, h4, h5⟩ := hfacts g' (List.mem_cons_of_mem _ hg')
      have hne : g'.parentId ≠ c := by
        intro heq
        apply hnotin
        show c ∈ List.map BuildFrame.parentId G
        rw [← heq]
        exact List.mem_map_of_mem BuildFrame.parentId hg'
      refine ⟨h1, h2, lt_of_lt_of_le h3 hpre1.length_le, ?_, ?_⟩
      · rw [prefix_get? hpre1 g'.parentId h3, h4]
      · rw [hmod1 g'.parentId hne h3, h5]
    obtain ⟨hpre2, hbal2, hmod2, hspans2⟩ := ihG (buildRec cfg st ⟨x, q, c⟩) hbal1 hndG hfactsG
    refine ⟨hpre1.trans hpre2, hbal2, ?_, ?_⟩
    · intro i hi hni
      rw [List.map_cons] at hni
      have hne : i ≠ c := fun h => hni (h ▸ List.mem_cons_self _ _)
      have hniG : i ∉ G.map BuildFrame.parentId := fun h => hni (List.mem_cons_of_mem _ h)
      show (G.foldl (buildRec cfg) (buildRec cfg st ⟨x, q, c⟩)).childLists.getD i []
        = st.childLists.getD i []
      rw [hmod2 i (lt_of_lt_of_le hi hpre1.length_le) hniG, hmod1 i hne hi]
    · show ∃ m, st.nodes.length ≤ m
        ∧ m ≤ (G.foldl (buildRec cfg) (buildRec cfg st ⟨x, q, c⟩)).nodes.length
        ∧ RepJ cfg (G.foldl (buildRec cfg) (buildRec cfg st ⟨x, q, c⟩)) c
            (insert c (Finset.Ico st.nodes.length m)) q x
        ∧ FoldSpans cfg (G.foldl (buildRec cfg) (buildRec cfg st ⟨x, q, c⟩)) G m
            (G.foldl (buildRec cfg) (buildRec cfg st ⟨x, q, c⟩)).nodes.length
      refine ⟨(buildRec cfg st ⟨x, q, c⟩).nodes.length, hpre1.length_le, hpre2.length_le,
        ?_, hspans2⟩
      refine (Rep_mono cfg (buildRec cfg st ⟨x, q, c⟩)
        (G.foldl (buildRec cfg) (buildRec cfg st ⟨x, q, c⟩))).1 hrep1 ?_
      intro w hw
      have hwlt : w < (buildRec cfg st ⟨x, q, c⟩).nodes.length := by
        rcases Finset.mem_insert.mp hw with hw | hw
        · subst hw; exact lt_of_lt_of_le hpid hpre1.length_le
        · exact (Finset.mem_Ico.mp hw).2
      have hwni : w ∉ G.map BuildFrame.parentId := by
        rcases Finset.mem_insert.mp hw with hw | hw
        · subst hw; exact hnotin
        · intro hmem
          obtain ⟨g', hg', hpid'⟩ := List.mem_map.mp hmem
          have := (hfacts g' (List.mem_cons_of_mem _ hg')).2.2.1
          have := (Finset.mem_Ico.mp hw).1
          omega
      exact ⟨prefix_get? hpre2 w hwlt, hmod2 w hwlt hwni⟩

/-- Like `FoldSpans` but in push (kid) order: the head frame owns the top
span of the fresh ids. -/
def SpanFacts (cfg : Config) (st' : BuildState) : List BuildFrame → Nat → Nat → Prop
  | [], lo, hi => lo = hi
  | g :: G, lo, hi => ∃ m, lo ≤ m ∧ m ≤ hi
      ∧ RepJ cfg st' g.parentId (insert g.parentId (Finset.Ico m hi)) g.path g.obj
      ∧ SpanFacts cfg st' G lo m

theorem SpanFacts_snoc (cfg : Config) (st' : BuildState) :
    ∀ (A : List BuildFrame) (g : BuildFrame) (lo m hi : Nat),
      lo ≤ m → m ≤ hi →
      RepJ cfg st' g.parentId (insert g.parentId (Finset.Ico lo m)) g.path g.obj →
      SpanFacts cfg st' A m hi →
      SpanFacts cfg st' (A ++ [g]) lo hi
  | [], g, lo, m, hi, h1, h2, hrep, hsp => by
    have hm : m = hi := hsp
    subst hm
    exact ⟨lo, le_refl lo, le_trans h1 h2, hrep, rfl⟩
  | a :: A, g, lo, m, hi, h1, h2, hrep, hsp => by
    obtain ⟨m2, hm2a, hm2b, hrepa, hspA⟩ := hsp
    exact ⟨m2, le_trans h1 hm2a, hm2b, hrepa,
      SpanFacts_snoc cfg st' A g lo m m2 h1 hm2a hrep hspA⟩

theorem FoldSpans_reverse (cfg : Config) (st' : BuildState) :
    ∀ (G : List BuildFrame) (lo hi : Nat),
      FoldSpans cfg st' G lo hi → SpanFacts cfg st' G.reverse lo hi
  | [], _, _, h => h
  | g :: G, lo, hi, h => by
    obtain ⟨m, hm1, hm2, hrep, hfs⟩ := h
    rw [List.reverse_cons]
    exact SpanFacts_snoc cfg st' G.reverse g lo m hi hm1 hm2 hrep
      (FoldSpans_reverse cfg st' G m hi hfs)

theorem repA_assemble (cfg : Config) (st' : BuildState) (q : JsStr) (n0 : Nat) :
    ∀ (xs : JArr) (t lo hi : Nat),
      SpanFacts cfg st' (framesA cfg q t (n0 + t) xs) lo hi →
      n0 + t + lenA xs ≤ lo →
      (∀ w, n0 + t ≤ w → w < n0 + t + lenA xs →
        st'.nodes.get? w = (recsA cfg q t xs).get? (w - (n0 + t))) →
      (∀ w, n0 + t ≤ w → w < n0 + t + lenA xs →
        w ∉ (framesA cfg q t (n0 + t) xs).map BuildFrame.parentId →
        st'.childLists.getD w [] = []) →
      RepA cfg st' (List.range' (n0 + t) (lenA xs))
        (Finset.Ico (n0 + t) (n0 + t + lenA xs) ∪ Finset.Ico lo hi) q t xs
  | .nil, t, lo, hi, hsp, hlo, hrec, hmod => by
    have hm : lo = hi := hsp
    subst hm
    have hS : Finset.Ico (n0 + t) (n0 + t + lenA .nil) ∪ Finset.Ico lo lo
        = (∅ : Finset Nat) := by
      ext a
      show a ∈ Finset.Ico (n0 + t) (n0 + t + 0) ∪ Finset.Ico lo lo ↔ a ∈ (∅ : Finset Nat)
      simp [Finset.mem_Ico]
    rw [hS]
    exact RepA.nil q t
  | .cons x xs, t, lo, hi, hsp, hlo, hrec, hmod => by
    have hlen : lenA (.cons x xs) = lenA xs + 1 := rfl
    have hfr : framesA cfg q t (n0 + t) (.cons x xs)
        = if x.isLeaf = true then framesA cfg q (t + 1) (n0 + t + 1) xs
          else ⟨x, elemPath cfg q t, n0 + t⟩ :: framesA cfg q (t + 1) (n0 + t + 1) xs := rfl
    have hshift : ∀ w, n0 + (t + 1) ≤ w → w < n0 + (t + 1) + lenA xs →
        st'.nodes.get? w = (recsA cfg q (t + 1) xs).get? (w - (n0 + (t + 1))) := by
      intro w hw1 hw2
      have h1 := hrec w (by omega) (by rw [hlen]; omega)
      have harith : w - (n0 + t) = (w - (n0 + (t + 1))) + 1 := by omega
      rw [h1, harith]
      rfl
    by_cases hx : x.isLeaf = true
    · rw [hfr, if_pos hx] at hsp hmod
      have htail := repA_assemble cfg st' q n0 xs (t + 1) lo hi
        (by
          have : n0 + (t + 1) = n0 + t + 1 := by omega
          rw [this]; exact hsp)
        (by rw [hlen] at hlo; omega) hshift
        (by
          intro w hw1 hw2 hwm
          have : n0 + (t + 1) = n0 + t + 1 := by omega
          rw [this] at hw1 hw2 hwm
          exact hmod w (by omega) (by rw [hlen]; omega) hwm)
      have hhead : RepJ cfg st' (n0 + t) {n0 + t} (elemPath cfg q t) x := by
        refine RepJ.leaf (n0 + t) (elemPath cfg q t) x hx ?_ ?_
        · have h1 := hrec (n0 + t) (le_refl _) (by rw [hlen]; omega)
          rw [h1, Nat.sub_self]
          rfl
        · refine hmod (n0 + t) (le_refl _) (by rw [hlen]; omega) ?_
          intro hmem
          obtain ⟨g, hg, hpid⟩ := List.mem_map.mp hmem
          have := (framesA_mem cfg q xs (t + 1) (n0 + t + 1) g hg).2.1
          omega
      have hdisj : Disjoint ({n0 + t} : Finset Nat)
          (Finset.Ico (n0 + (t + 1)) (n0 + (t + 1) + lenA xs) ∪ Finset.Ico lo hi) := by
        rw [Finset.disjoint_left]
        intro a ha hb
        rw [Finset.mem_singleton] at ha
        rw [Finset.mem_union, Finset.mem_Ico, Finset.mem_Ico] at hb
        rw [hlen] at hlo
        omega
      have hA := RepA.cons (n0 + t) {n0 + t} (List.range' (n0 + (t + 1)) (lenA xs))
        (Finset.Ico (n0 + (t + 1)) (n0 + (t + 1) + lenA xs) ∪ Finset.Ico lo hi)
        q t x xs hhead
        (by
          have : n0 + (t + 1) = n0 + t + 1 := by omega
          rw [this] at htail ⊢
          exact htail) hdisj
      have hSeq : Finset.Ico (n0 + t) (n0 + t + lenA (.cons x xs)) ∪ Finset.Ico lo hi
          = {n0 + t} ∪ (Finset.Ico (n0 + (t + 1)) (n0 + (t + 1) + lenA xs)
              ∪ Finset.Ico lo hi) := by
        ext a
        rw [hlen]
        simp only [Finset.mem_union, Finset.mem_Ico, Finset.mem_singleton,
          Finset.mem_insert]
        omega
      rw [hSeq]
      have hcs : List.range' (n0 + t) (lenA (.cons x xs))
          = (n0 + t) :: List.range' (n0 + (t + 1)) (lenA xs) := by
        rw [hlen]
        rfl
      rw [hcs]
      exact hA
    · rw [hfr, if_neg hx] at hsp hmod
      obtain ⟨m, hm1, hm2, hrephead, hsptail⟩ := hsp
      have htail := repA_assemble cfg st' q n0 xs (t + 1) lo m
        (by
          have : n0 + (t + 1) = n0 + t + 1 := by omega
          rw [this]; exact hsptail)
        (by rw [hlen] at hlo; omega) hshift
        (by
          intro w hw1 hw2 hwm
          have heq : n0 + (t + 1) = n0 + t + 1 := by omega
          rw [heq] at hw1 hw2 hwm
          refine hmod w (by omega) (by rw [hlen]; omega) ?_
          rw [List.map_cons]
          intro hmem
          rcases List.mem_cons.mp hmem with h | h
          · show False
            have : BuildFrame.parentId ⟨x, elemPath cfg q t, n0 + t⟩ = n0 + t := rfl
            omega
          · exact hwm h)
      have hdisj : Disjoint (insert (n0 + t) (Finset.Ico m hi))
          (Finset.Ico (n0 + (t + 1)) (n0 + (t + 1) + lenA xs) ∪ Finset.Ico lo m) := by
        rw [Finset.disjoint_left]
        intro a ha hb
        rw [Finset.mem_insert, Finset.mem_Ico] at ha
        rw [Finset.mem_union, Finset.mem_Ico, Finset.mem_Ico] at hb
        rw [hlen] at hlo
        omega
      have hA := RepA.cons (n0 + t) (insert (n0 + t) (Finset.Ico m hi))
        (List.range' (n0 + (t + 1)) (lenA xs))
        (Finset.Ico (n0 + (t + 1)) (n0 + (t + 1) + lenA xs) ∪ Finset.Ico lo m)
        q t x xs hrephead
        (by
          have : n0 + (t + 1) = n0 + t + 1 := by omega
          rw [this] at htail ⊢
          exact htail) hdisj
      have hSeq : Finset.Ico (n0 + t) (n0 + t + lenA (.cons x xs)) ∪ Finset.Ico lo hi
          = insert (n0 + t) (Finset.Ico m hi)
            ∪ (Finset.Ico (n0 + (t + 1)) (n0 + (t + 1) + lenA xs) ∪ Finset.Ico lo m) := by
        ext a
        rw [hlen]
        simp only [Finset.mem_union, Finset.mem_Ico, Finset.mem_insert]
        rw [hlen] at hlo
        omega
      rw [hSeq]
      have hcs : List.range' (n0 + t) (lenA (.cons x xs))
          = (n0 + t) :: List.range' (n0 + (t + 1)) (lenA xs) := by
        rw [hlen]
        rfl
      rw [hcs]
      exact hA

theorem repO_assemble (cfg : Config) (st' : BuildState) (q : JsStr) :
    ∀ (kvs : JObj) (w0 lo hi : Nat),
      SpanFacts cfg st' (framesO cfg q w0 kvs) lo hi →
      w0 + lenO cfg kvs ≤ lo →
      (∀ w, w0 ≤ w → w < w0 + lenO cfg kvs →
        st'.nodes.get? w = (recsO cfg q kvs).get? (w - w0)) →
      (∀ w, w0 ≤ w → w < w0 + lenO cfg kvs →
        w ∉ (framesO cfg q w0 kvs).map BuildFrame.parentId →
        st'.childLists.getD w [] = []) →
      RepO cfg st' (List.range' w0 (lenO cfg kvs))
        (Finset.Ico w0 (w0 + lenO cfg kvs) ∪ Finset.Ico lo hi) q kvs
  | .nil, w0, lo, hi, hsp, hlo, hrec, hmod => by
    have hm : lo = hi := hsp
    subst hm
    have hS : Finset.Ico w0 (w0 + lenO cfg .nil) ∪ Finset.Ico lo lo = (∅ : Finset Nat) := by
      ext a
      show a ∈ Finset.Ico w0 (w0 + 0) ∪ Finset.Ico lo lo ↔ a ∈ (∅ : Finset Nat)
      simp [Finset.mem_Ico]
    rw [hS]
    exact RepO.nil q
  | .cons key val kvs, w0, lo, hi, hsp, hlo, hrec, hmod => by
    have hfr : framesO cfg q w0 (.cons key val kvs)
        = if key ∈ cfg.ignoreKeys then framesO cfg q w0 kvs
          else if val.isLeaf = true then framesO cfg q (w0 + 1) kvs
            else ⟨val, joinPath q key, w0⟩ :: framesO cfg q (w0 + 1) kvs := rfl
    have hrc : recsO cfg q (.cons key val kvs)
        = if key ∈ cfg.ignoreKeys then recsO cfg q kvs
          else ⟨joinPath q key, val.asScalar⟩ :: recsO cfg q kvs := rfl
    have hlen : lenO cfg (.cons key val kvs)
        = if key ∈ cfg.ignoreKeys then lenO cfg kvs else lenO cfg kvs + 1 := rfl
    by_cases hk : key ∈ cfg.ignoreKeys
    · rw [hfr, if_pos hk] at hsp hmod
      rw [hrc, if_pos hk] at hrec
      rw [hlen, if_pos hk] at hlo ⊢
      rw [hlen, if_pos hk] at hrec hmod
      exact RepO.skip _ _ q key val kvs hk
        (repO_assemble cfg st' q kvs w0 lo hi hsp hlo hrec hmod)
    · rw [hfr, if_neg hk] at hsp hmod
      rw [hrc, if_neg hk] at hrec
      rw [hlen, if_neg hk] at hlo ⊢
      rw [hlen, if_neg hk] at hrec hmod
      have hshift : ∀ w, w0 + 1 ≤ w → w < w0 + 1 + lenO cfg kvs →
          st'.nodes.get? w = (recsO cfg q kvs).get? (w - (w0 + 1)) := by
        intro w hw1 hw2
        have h1 := hrec w (by omega) (by omega)
        have harith : w - w0 = (w - (w0 + 1)) + 1 := by omega
        rw [h1, harith]
        rfl
      by_cases hv : val.isLeaf = true
      · rw [if_pos hv] at hsp hmod
        have htail := repO_assemble cfg st' q kvs (w0 + 1) lo hi hsp (by omega) hshift
          (by
            intro w hw1 hw2 hwm
            exact hmod w (by omega) (by omega) hwm)
        have hhead : RepJ cfg st' w0 {w0} (joinPath q key) val := by
          refine RepJ.leaf w0 (joinPath q key) val hv ?_ ?_
          · have h1 := hrec w0 (le_refl _) (by omega)
            rw [h1, Nat.sub_self]
            rfl
          · refine hmod w0 (le_refl _) (by omega) ?_
            intro hmem
            obtain ⟨g, hg, hpid⟩ := List.mem_map.mp hmem
            have := (framesO_mem cfg q kvs (w0 + 1) g hg).2.1
            omega
        have hdisj : Disjoint ({w0} : Finset Nat)
            (Finset.Ico (w0 + 1) (w0 + 1 + lenO cfg kvs) ∪ Finset.Ico lo hi) := by
          rw [Finset.disjoint_left]
          intro a ha hb
          rw [Finset.mem_singleton] at ha
          rw [Finset.mem_union, Finset.mem_Ico, Finset.mem_Ico] at hb
          omega
        have hO := RepO.cons w0 {w0} (List.range' (w0 + 1) (lenO cfg kvs))
          (Finset.Ico (w0 + 1) (w0 + 1 + lenO cfg kvs) ∪ Finset.Ico lo hi)
          q key val kvs hk hhead htail hdisj
        have hSeq : Finset.Ico w0 (w0 + (lenO cfg kvs + 1)) ∪ Finset.Ico lo hi
            = {w0} ∪ (Finset.Ico (w0 + 1) (w0 + 1 + lenO cfg kvs) ∪ Finset.Ico lo hi) := by
          ext a
          simp only [Finset.mem_union, Finset.mem_Ico, Finset.mem_singleton]
          omega
        rw [hSeq]
        have hcs : List.range' w0 (lenO cfg kvs + 1)
            = w0 :: List.range' (w0 + 1) (lenO cfg kvs) := rfl
        rw [hcs]
        exact hO
      · rw [if_neg hv] at hsp hmod
        obtain ⟨m, hm1, hm2, hrephead, hsptail⟩ := hsp
        have htail := repO_assemble cfg st' q kvs (w0 + 1) lo m hsptail (by omega) hshift
          (by
            intro w hw1 hw2 hwm
            refine hmod w (by omega) (by omega) ?_
            rw [List.map_cons]
            intro hmem
            rcases List.mem_cons.mp hmem with h | h
            · show False
              have hpp : BuildFrame.parentId ⟨val, joinPath q key, w0⟩ = w0 := rfl
              omega
            · exact hwm h)
        have hdisj : Disjoint (insert w0 (Finset.Ico m hi))
            (Finset.Ico (w0 + 1) (w0 + 1 + lenO cfg kvs) ∪ Finset.Ico lo m) := by
          rw [Finset.disjoint_left]
          intro a ha hb
          rw [Finset.mem_insert, Finset.mem_Ico] at ha
          rw [Finset.mem_union, Finset.mem_Ico, Finset.mem_Ico] at hb
          omega
        have hO := RepO.cons w0 (insert w0 (Finset.Ico m hi))
          (List.range' (w0 + 1) (lenO cfg kvs))
          (Finset.Ico (w0 + 1) (w0 + 1 + lenO cfg kvs) ∪ Finset.Ico lo m)
          q key val kvs hk hrephead htail hdisj
        have hSeq : Finset.Ico w0 (w0 + (lenO cfg kvs + 1)) ∪ Finset.Ico lo hi
            = insert w0 (Finset.Ico m hi)
              ∪ (Finset.Ico (w0 + 1) (w0 + 1 + lenO cfg kvs) ∪ Finset.Ico lo m) := by
          ext a
          simp only [Finset.mem_union, Finset.mem_Ico, Finset.mem_insert]
          omega
        rw [hSeq]
        have hcs : List.range' w0 (lenO cfg kvs + 1)
            = w0 :: List.range' (w0 + 1) (lenO cfg kvs) := rfl
        rw [hcs]
        exact hO

theorem buildRec_correct (cfg : Config) :
    ∀ (N : Nat) (x : JSON), jsize x ≤ N → ∀ (q : JsStr) (c : Nat) (st : BuildState),
      BRpre st x q c → BRpost cfg st x q c := by
  intro N
  induction N with
  | zero =>
    intro x hx q c st hpre
    exfalso
    have := jsize_pos x
    omega
  | succ N ihN =>
    intro x hx q c st hpre
    obtain ⟨hleaf, hbal, hc, hrecc, hclc⟩ := hpre
    cases x with
    | null => simp [JSON.isLeaf] at hleaf
    | bool b => simp [JSON.isLeaf] at hleaf
    | num n => simp [JSON.isLeaf] at hleaf
    | str s => simp [JSON.isLeaf] at hleaf
    | arr xs =>
      have hc' : c < st.childLists.length := by rw [hbal]; exact hc
      obtain ⟨hn1, hl1, hpid1, hne1, hfr1⟩ := processArrItems_spec cfg q c xs st 0 hc'
      have hlen1 : (processArrItems cfg st q c 0 xs).1.nodes.length
          = st.nodes.length + lenA xs := by
        rw [hn1, List.length_append, recsA_length]
      have hbal1 : (processArrItems cfg st q c 0 xs).1.childLists.length
          = (processArrItems cfg st q c 0 xs).1.nodes.length := by
        rw [hl1, hlen1, hbal]
      have hgetc1 : (processArrItems cfg st q c 0 xs).1.childLists.getD c []
          = List.range' st.nodes.length (lenA xs) := by
        rw [hpid1, hclc]
        rfl
      have hB : buildRec cfg st ⟨.arr xs, q, c⟩
          = (framesA cfg q 0 st.nodes.length xs).reverse.foldl (buildRec cfg)
            (processArrItems cfg st q c 0 xs).1 := by
        conv_lhs => rw [buildRec]
        rw [List.foldl_attach]
        show (processArrItems cfg st q c 0 xs).2.reverse.foldl (buildRec cfg)
          (processArrItems cfg st q c 0 xs).1 = _
        rw [hfr1]
      have hszA : jsizeA xs ≤ N := by
        have hj : jsize (.arr xs) = 1 + jsizeA xs := rfl
        omega
      have hnd : ((framesA cfg q 0 st.nodes.length xs).reverse.map
          BuildFrame.parentId).Nodup := by
        rw [List.map_reverse]
        exact List.nodup_reverse.mpr (framesA_nodup cfg q xs 0 st.nodes.length)
      have hfacts : ∀ g ∈ (framesA cfg q 0 st.nodes.length xs).reverse,
          g.obj.isLeaf = false ∧ jsize g.obj ≤ N
          ∧ g.parentId < (processArrItems cfg st q c 0 xs).1.nodes.length
          ∧ (processArrItems cfg st q c 0 xs).1.nodes.get? g.parentId
              = some ⟨g.path, none⟩
          ∧ (processArrItems cfg st q c 0 xs).1.childLists.getD g.parentId [] = [] := by
        intro g hg
        rw [List.mem_reverse] at hg
        obtain ⟨h1, h2, h3, h4, h5⟩ := framesA_mem cfg q xs 0 st.nodes.length g hg
        refine ⟨h1, le_trans h5 hszA, ?_, ?_, ?_⟩
        · rw [hlen1]; omega
        · rw [hn1, List.get?_eq_getElem?, List.getElem?_append_right h2,
            ← List.get?_eq_getElem?]
          exact h4
        · have hnec : g.parentId ≠ c := by omega
          rw [hne1 g.parentId hnec]
          exact getD_of_ge _ _ _ (by rw [hbal]; omega)
      obtain ⟨hpre2, hbal2, hmod2, hfspans⟩ := foldRec_correct cfg N ihN
        (framesA cfg q 0 st.nodes.length xs).reverse
        (processArrItems cfg st q c 0 xs).1 hbal1 hnd hfacts
      have hnotpid : ∀ w, w < st.nodes.length →
          w ∉ ((framesA cfg q 0 st.nodes.length xs).reverse.map BuildFrame.parentId) := by
        intro w hw hm
        rw [List.map_reverse, List.mem_reverse] at hm
        obtain ⟨g, hg, hpid⟩ := List.mem_map.mp hm
        have := (framesA_mem cfg q xs 0 st.nodes.length g hg).2.1
        omega
      unfold BRpost
      rw [hB]
      have hpfx1 : st.nodes <+: (processArrItems cfg st q c 0 xs).1.nodes :=
        ⟨recsA cfg q 0 xs, hn1.symm⟩
      refine ⟨hpfx1.trans hpre2, hbal2, ?_, ?_⟩
      · intro i hic hi
        rw [hmod2 i (by rw [hlen1]; omega) (hnotpid i hi), hne1 i hic]
      · -- the representation fact
        have hrecF : ((framesA cfg q 0 st.nodes.length xs).reverse.foldl (buildRec cfg)
              (processArrItems cfg st q c 0 xs).1).nodes.get? c = some ⟨q, none⟩ := by
          rw [prefix_get? hpre2 c (by rw [hlen1]; omega), hn1, List.get?_eq_getElem?,
            List.getElem?_append_left hc, ← List.get?_eq_getElem?]
          exact hrecc
        have hclF : ((framesA cfg q 0 st.nodes.length xs).reverse.foldl (buildRec cfg)
              (processArrItems cfg st q c 0 xs).1).childLists.getD c []
            = List.range' st.nodes.length (lenA xs) := by
          rw [hmod2 c (by rw [hlen1]; omega) (hnotpid c hc), hgetc1]
        have hsp : SpanFacts cfg ((framesA cfg q 0 st.nodes.length xs).reverse.foldl
              (buildRec cfg) (processArrItems cfg st q c 0 xs).1)
            (framesA cfg q 0 (st.nodes.length + 0) xs)
            (processArrItems cfg st q c 0 xs).1.nodes.length
            ((framesA cfg q 0 st.nodes.length xs).reverse.foldl (buildRec cfg)
              (processArrItems cfg st q c 0 xs).1).nodes.length := by
          have h := FoldSpans_reverse cfg _ _ _ _ hfspans
          rw [List.reverse_reverse] at h
          exact h
        have hA := repA_assemble cfg ((framesA cfg q 0 st.nodes.length xs).reverse.foldl
              (buildRec cfg) (processArrItems cfg st q c 0 xs).1) q st.nodes.length xs 0
            (processArrItems cfg st q c 0 xs).1.nodes.length
            ((framesA cfg q 0 st.nodes.length xs).reverse.foldl (buildRec cfg)
              (processArrItems cfg st q c 0 xs).1).nodes.length
            hsp (by rw [hlen1]; omega)
            (by
              intro w hw1 hw2
              rw [prefix_get? hpre2 w (by rw [hlen1]; omega), hn1, List.get?_eq_getElem?,
                List.getElem?_append_right (by omega : st.nodes.length ≤ w),
                ← List.get?_eq_getElem?]
              rfl)
            (by
              intro w hw1 hw2 hwm
              have hwm' : w ∉ ((framesA cfg q 0 st.nodes.length xs).reverse.map
                  BuildFrame.parentId) := by
                rw [List.map_reverse, List.mem_reverse]
                exact hwm
              rw [hmod2 w (by rw [hlen1]; omega) hwm',
                hne1 w (by omega)]
              exact getD_of_ge _ _ _ (by rw [hbal]; omega))
        have hIco : Finset.Ico (st.nodes.length + 0) (st.nodes.length + 0 + lenA xs)
              ∪ Finset.Ico (processArrItems cfg st q c 0 xs).1.nodes.length
                ((framesA cfg q 0 st.nodes.length xs).reverse.foldl (buildRec cfg)
                  (processArrItems cfg st q c 0 xs).1).nodes.length
            = Finset.Ico st.nodes.length
                ((framesA cfg q 0 st.nodes.length xs).reverse.foldl (buildRec cfg)
                  (processArrItems cfg st q c 0 xs).1).nodes.length := by
          have hle := hpre2.length_le
          ext a
          simp only [Finset.mem_union, Finset.mem_Ico]
          rw [hlen1] at hle ⊢
          omega
        rw [hIco] at hA
        refine RepJ.arr c (Finset.Ico st.nodes.length _) q xs hrecF ?_ ?_
        · rw [hclF]
          exact hA
        · rw [Finset.mem_Ico]
          omega
    | obj kvs =>
      have hc' : c < st.childLists.length := by rw [hbal]; exact hc
      obtain ⟨hn1, hl1, hpid1, hne1, hfr1⟩ := processObjItems_spec cfg q c kvs st hc'
      have hlen1 : (processObjItems cfg st q c kvs).1.nodes.length
          = st.nodes.length + lenO cfg kvs := by
        rw [hn1, List.length_append, recsO_length]
      have hbal1 : (processObjItems cfg st q c kvs).1.childLists.length
          = (processObjItems cfg st q c kvs).1.nodes.length := by
        rw [hl1, hlen1, hbal]
      have hgetc1 : (processObjItems cfg st q c kvs).1.childLists.getD c []
          = List.range' st.nodes.length (lenO cfg kvs) := by
        rw [hpid1, hclc]
        rfl
      have hB : buildRec cfg st ⟨.obj kvs, q, c⟩
          = (framesO cfg q st.nodes.length kvs).reverse.foldl (buildRec cfg)
            (processObjItems cfg st q c kvs).1 := by
        conv_lhs => rw [buildRec]
        rw [List.foldl_attach]
        show (processObjItems cfg st q c kvs).2.reverse.foldl (buildRec cfg)
          (processObjItems cfg st q c kvs).1 = _
        rw [hfr1]
      have hszO : jsizeO kvs ≤ N := by
        have hj : jsize (.obj kvs) = 1 + jsizeO kvs := rfl
        omega
      have hnd : ((framesO cfg q st.nodes.length kvs).reverse.map
          BuildFrame.parentId).Nodup := by
        rw [List.map_reverse]
        exact List.nodup_reverse.mpr (framesO_nodup cfg q kvs st.nodes.length)
      have hfacts : ∀ g ∈ (framesO cfg q st.nodes.length kvs).reverse,
          g.obj.isLeaf = false ∧ jsize g.obj ≤ N
          ∧ g.parentId < (processObjItems cfg st q c kvs).1.nodes.length
          ∧ (processObjItems cfg st q c kvs).1.nodes.get? g.parentId
              = some ⟨g.path, none⟩
          ∧ (processObjItems cfg st q c kvs).1.childLists.getD g.parentId [] = [] := by
        intro g hg
        rw [List.mem_reverse] at hg
        obtain ⟨h1, h2, h3, h4, h5⟩ := framesO_mem cfg q kvs st.nodes.length g hg
        refine ⟨h1, le_trans h5 hszO, ?_, ?_, ?_⟩
        · rw [hlen1]; omega
        · rw [hn1, List.get?_eq_getElem?, List.getElem?_append_right h2,
            ← List.get?_eq_getElem?]
          exact h4
        · have hnec : g.parentId ≠ c := by omega
          rw [hne1 g.parentId hnec]
          exact getD_of_ge _ _ _ (by rw [hbal]; omega)
      obtain ⟨hpre2, hbal2, hmod2, hfspans⟩ := foldRec_correct cfg N ihN
        (framesO cfg q st.nodes.length kvs).reverse
        (processObjItems cfg st q c kvs).1 hbal1 hnd hfacts
      have hnotpid : ∀ w, w < st.nodes.length →
          w ∉ ((framesO cfg q st.nodes.length kvs).reverse.map BuildFrame.parentId) := by
        intro w hw hm
        rw [List.map_reverse, List.mem_reverse] at hm
        obtain ⟨g, hg, hpid⟩ := List.mem_map.mp hm
        have := (framesO_mem cfg q kvs st.nodes.length g hg).2.1
        omega
      unfold BRpost
      rw [hB]
      have hpfx1 : st.nodes <+: (processObjItems cfg st q c kvs).1.nodes :=
        ⟨recsO cfg q kvs, hn1.symm⟩
      refine ⟨hpfx1.trans hpre2, hbal2, ?_, ?_⟩
      · intro i hic hi
        rw [hmod2 i (by rw [hlen1]; omega) (hnotpid i hi), hne1 i hic]
      · have hrecF : ((framesO cfg q st.nodes.length kvs).reverse.foldl (buildRec cfg)
              (processObjItems cfg st q c kvs).1).nodes.get? c = some ⟨q, none⟩ := by
          rw [prefix_get? hpre2 c (by rw [hlen1]; omega), hn1, List.get?_eq_getElem?,
            List.getElem?_append_left hc, ← List.get?_eq_getElem?]
          exact hrecc
        have hclF : ((framesO cfg q st.nodes.length kvs).reverse.foldl (buildRec cfg)
              (processObjItems cfg st q c kvs).1).childLists.getD c []
            = List.range' st.nodes.length (lenO cfg kvs) := by
          rw [hmod2 c (by rw [hlen1]; omega) (hnotpid c hc), hgetc1]
        have hsp : SpanFacts cfg ((framesO cfg q st.nodes.length kvs).reverse.foldl
              (buildRec cfg) (processObjItems cfg st q c kvs).1)
            (framesO cfg q st.nodes.length kvs)
            (processObjItems cfg st q c kvs).1.nodes.length
            ((framesO cfg q st.nodes.length kvs).reverse.foldl (buildRec cfg)
              (processObjItems cfg st q c kvs).1).nodes.length := by
          have h := FoldSpans_reverse cfg _ _ _ _ hfspans
          rw [List.reverse_reverse] at h
          exact h
        have hO := repO_assemble cfg ((framesO cfg q st.nodes.length kvs).reverse.foldl
              (buildRec cfg) (processObjItems cfg st q c kvs).1) q kvs st.nodes.length
            (processObjItems cfg st q c kvs).1.nodes.length
            ((framesO cfg q st.nodes.length kvs).reverse.foldl (buildRec cfg)
              (processObjItems cfg st q c kvs).1).nodes.length
            hsp (by rw [hlen1])
            (by
              intro w hw1 hw2
              rw [prefix_get? hpre2 w (by rw [hlen1]; omega), hn1, List.get?_eq_getElem?,
                List.getElem?_append_right (by omega : st.nodes.length ≤ w),
                ← List.get?_eq_getElem?])
            (by
              intro w hw1 hw2 hwm
              have hwm' : w ∉ ((framesO cfg q st.nodes.length kvs).reverse.map
                  BuildFrame.parentId) := by
                rw [List.map_reverse, List.mem_reverse]
                exact hwm
              rw [hmod2 w (by rw [hlen1]; omega) hwm',
                hne1 w (by omega)]
              exact getD_of_ge _ _ _ (by rw [hbal]; omega))
        have hIco : Finset.Ico st.nodes.length (st.nodes.length + lenO cfg kvs)
              ∪ Finset.Ico (processObjItems cfg st q c kvs).1.nodes.length
                ((framesO cfg q st.nodes.length kvs).reverse.foldl (buildRec cfg)
                  (processObjItems cfg st q c kvs).1).nodes.length
            = Finset.Ico st.nodes.length
                ((framesO cfg q st.nodes.length kvs).reverse.foldl (buildRec cfg)
                  (processObjItems cfg st q c kvs).1).nodes.length := by
          have hle := hpre2.length_le
          ext a
          simp only [Finset.mem_union, Finset.mem_Ico]
          rw [hlen1] at hle ⊢
          omega
        rw [hIco] at hO
        refine RepJ.obj c (Finset.Ico st.nodes.length _) q kvs hrecF ?_ ?_
        · rw [hclF]
          exact hO
        · rw [Finset.mem_Ico]
          omega

/-- The finished traversal state represents the whole document at the
root, with the id set being exactly all allocated ids. -/
theorem buildStateOf_Rep (cfg : Config) (json : JSON) :
    RepJ cfg (buildStateOf cfg json) 0
      (Finset.range (buildStateOf cfg json).nodes.length) rootPath json := by
  unfold buildStateOf
  split_ifs with h
  · have hrange : (Finset.range 1 : Finset Nat) = {0} := rfl
    show RepJ cfg ⟨[⟨rootPath, json.asScalar⟩], [[]]⟩ 0 (Finset.range 1) rootPath json
    rw [hrange]
    exact RepJ.leaf 0 rootPath json h rfl rfl
  · have hleaf : json.isLeaf = false := by
      cases hj : json.isLeaf with
      | true => exact absurd hj h
      | false => rfl
    have heq : buildLoop cfg (jsize json) ⟨[⟨rootPath, none⟩], [[]]⟩ [⟨json, rootPath, 0⟩]
        = buildRec cfg ⟨[⟨rootPath, none⟩], [[]]⟩ ⟨json, rootPath, 0⟩ := by
      rw [buildLoop_eq_buildRec cfg (jsize json) _ _ (by simp [stackMeasure])]
      rfl
    rw [heq]
    obtain ⟨hpfx, hbal, hmod, hrep⟩ := buildRec_correct cfg (jsize json) json (le_refl _)
      rootPath 0 ⟨[⟨rootPath, none⟩], [[]]⟩ ⟨hleaf, rfl, Nat.zero_lt_one, rfl, rfl⟩
    have hlen : 1 ≤ (buildRec cfg ⟨[⟨rootPath, none⟩], [[]]⟩ ⟨json, rootPath, 0⟩).nodes.length :=
      hpfx.length_le
    have hset : insert 0 (Finset.Ico
          ([⟨rootPath, none⟩] : List NodeRec).length
          (buildRec cfg ⟨[⟨rootPath, none⟩], [[]]⟩ ⟨json, rootPath, 0⟩).nodes.length)
        = Finset.range
          (buildRec cfg ⟨[⟨rootPath, none⟩], [[]]⟩ ⟨json, rootPath, 0⟩).nodes.length := by
      ext a
      simp only [Finset.mem_insert, Finset.mem_Ico, Finset.mem_range, List.length_cons,
        List.length_nil]
      omega
    rw [← hset]
    exact hrep

theorem assembleCSR_nodes (st : BuildState) : (assembleCSR st).nodes = st.nodes := rfl

theorem assembleCSR_slice (st : BuildState)
    (hwf : st.childLists.length = st.nodes.length) (i : Nat) (hi : i < st.nodes.length) :
    childrenSlice (assembleCSR st) i = st.childLists.getD i [] := by
  unfold assembleCSR childrenSlice
  dsimp only
  set cls := st.childLists with hcls
  set lm := cls.map List.length with hlm
  have hlmlen : lm.length = cls.length := by rw [hlm, List.length_map]
  have hi' : i < cls.length := by rw [hcls, hwf]; exact hi
  have hgetD : ∀ k, k ≤ cls.length → (lm.scanl (· + ·) 0).getD k 0 = (lm.take k).sum := by
    intro k hk
    rw [scanl_add_getD lm 0 k (by omega), Nat.zero_add]
  rw [hgetD i (by omega), hgetD (i + 1) (by omega)]
  have hx : lm.take (i + 1) = lm.take i ++ [(cls.getD i []).length] := by
    have hilm : i < lm.length := by omega
    have h1 := List.take_concat_get' lm i hilm
    rw [← h1]
    congr 1
    rw [List.getD_eq_getElem _ _ hi']
    simp [hlm]
  rw [hx, List.sum_append, List.sum_cons, List.sum_nil]
  have hdiff : (lm.take i).sum + ((cls.getD i []).length + 0) - (lm.take i).sum
      = (cls.getD i []).length := by omega
  rw [hdiff, hlm, ← List.map_take]
  exact assemble_slice cls i hi'

theorem RepJ_record {cfg : Config} {st : BuildState} {v : Nat} {S : Finset Nat}
    {p : JsStr} {j : JSON} (h : RepJ cfg st v S p j) :
    st.nodes.get? v = some ⟨p, j.asScalar⟩ := by
  cases h with
  | leaf _ _ _ _ hget _ => exact hget
  | arr _ _ _ _ hget _ _ => exact hget
  | obj _ _ _ _ hget _ _ => exact hget

theorem kids_of_leaf (cfg : Config) (p : JsStr) :
    ∀ (j : JSON), j.isLeaf = true → kids cfg p j = []
  | .null, _ => rfl
  | .bool _, _ => rfl
  | .num _, _ => rfl
  | .str _, _ => rfl
  | .arr _, h => by simp [JSON.isLeaf] at h
  | .obj _, h => by simp [JSON.isLeaf] at h

theorem RepJ_kids {cfg : Config} {st : BuildState} {v : Nat} {S : Finset Nat} {p : JsStr}
    {j : JSON} (h : RepJ cfg st v S p j) :
    ∃ ts : List (Nat × Finset Nat × JsStr × JSON),
      st.childLists.getD v [] = ts.map (fun t => t.1)
      ∧ (∀ t ∈ ts, RepJ cfg st t.1 t.2.1 t.2.2.1 t.2.2.2)
      ∧ (ts.map (fun t => t.2.1)).Pairwise Disjoint
      ∧ ts.map (fun t => (t.2.2.1, t.2.2.2)) = kids cfg p j
      ∧ S = insert v (funion (ts.map (fun t => t.2.1)))
      ∧ v ∉ funion (ts.map (fun t => t.2.1)) := by
  cases h with
  | leaf v p j hlf hget hcl =>
    refine ⟨[], hcl, fun t ht => absurd ht (List.not_mem_nil t), List.Pairwise.nil,
      (kids_of_leaf cfg p j hlf).symm, rfl, Finset.not_mem_empty v⟩
  | arr v S p xs hget hA hv =>
    obtain ⟨ts, h1, h2, h3, h4, h5⟩ := RepA_toList cfg st xs _ S p 0 hA
    exact ⟨ts, h1, h2, h4, h5, by rw [← h3], by rw [← h3]; exact hv⟩
  | obj v S p kvs hget hO hv =>
    obtain ⟨ts, h1, h2, h3, h4, h5⟩ := RepO_toList cfg st kvs _ S p hO
    exact ⟨ts, h1, h2, h4, h5, by rw [← h3], by rw [← h3]; exact hv⟩

theorem nodup_ids_of_disjoint : ∀ {ts : List (Nat × Finset Nat × JsStr × JSON)},
    (ts.map (fun t => t.2.1)).Pairwise Disjoint →
    (∀ t ∈ ts, t.1 ∈ t.2.1) → (ts.map (fun t => t.1)).Nodup := by
  intro ts
  induction ts with
  | nil => exact fun _ _ => List.nodup_nil
  | cons a ts ih =>
    intro hpw hmem
    rw [List.map_cons] at hpw ⊢
    obtain ⟨hhd, htl⟩ := List.pairwise_cons.mp hpw
    refine List.nodup_cons.mpr ⟨?_, ih htl (fun t ht => hmem t (List.mem_cons_of_mem _ ht))⟩
    intro hm
    obtain ⟨b, hb, hab⟩ := List.mem_map.mp hm
    have hdisj := hhd b.2.1 (List.mem_map_of_mem _ hb)
    have ha := hmem a (List.mem_cons_self _ _)
    have hbmem := hmem b (List.mem_cons_of_mem _ hb)
    rw [hab] at hbmem
    exact Finset.disjoint_left.mp hdisj ha hbmem

theorem bfsEnqueue_all (csr : CSRData) (d : Nat) :
    ∀ (cs : List Nat) (visited : Finset Nat) (queue : List (Nat × Nat)),
      cs.Nodup → (∀ c ∈ cs, c < csr.nodes.length ∧ c ∉ visited) →
      bfsEnqueue csr d visited queue cs
        = (visited ∪ cs.toFinset, queue ++ cs.map (fun c => (c, d)))
  | [], visited, queue, _, _ => by
    show (visited, queue) = (visited ∪ ([] : List Nat).toFinset, queue ++ [])
    rw [List.toFinset_nil, Finset.union_empty, List.append_nil]
  | c :: cs, visited, queue, hnd, hok => by
    obtain ⟨hc1, hc2⟩ := hok c (List.mem_cons_self _ _)
    obtain ⟨hnotin, hnd'⟩ := List.nodup_cons.mp hnd
    show (if c < csr.nodes.length ∧ c ∉ visited then
        bfsEnqueue csr d (insert c visited) (queue ++ [(c, d)]) cs
      else bfsEnqueue csr d visited queue cs) = _
    rw [if_pos ⟨hc1, hc2⟩]
    rw [bfsEnqueue_all csr d cs (insert c visited) (queue ++ [(c, d)]) hnd'
      (by
        intro c' hc'
        obtain ⟨h1, h2⟩ := hok c' (List.mem_cons_of_mem _ hc')
        refine ⟨h1, ?_⟩
        rw [Finset.mem_insert]
        push_neg
        exact ⟨fun h => hnotin (h ▸ hc'), h2⟩)]
    have h1 : insert c visited ∪ cs.toFinset = visited ∪ (c :: cs).toFinset := by
      rw [List.toFinset_cons]
      ext a
      simp only [Finset.mem_insert, Finset.mem_union]
      tauto
    have h2 : (queue ++ [(c, d)]) ++ cs.map (fun c => (c, d))
        = queue ++ (c :: cs).map (fun c => (c, d)) := by
      rw [List.append_assoc]
      rfl
    rw [h1, h2]

theorem multiset_map_listSum {α β : Type} (f : α → β) :
    ∀ (l : List (Multiset α)), (l.sum).map f = (l.map (Multiset.map f)).sum
  | [] => by simp
  | m :: l => by
    rw [List.sum_cons, Multiset.map_add, multiset_map_listSum f l, List.map_cons,
      List.sum_cons]

theorem mem_id_unique : ∀ (ts : List (Nat × Finset Nat × JsStr × JSON)),
    (ts.map (fun t => t.2.1)).Pairwise Disjoint →
    (∀ t ∈ ts, t.1 ∈ t.2.1) →
    ∀ e ∈ ts, ∀ e' ∈ ts, e'.1 ∈ e.2.1 → e'.1 = e.1 := by
  intro ts
  induction ts with
  | nil => intro _ _ e he; exact absurd he (List.not_mem_nil e)
  | cons a ts ih =>
    intro hpw hmem e he e' he' hin
    rw [List.map_cons] at hpw
    obtain ⟨hhd, htl⟩ := List.pairwise_cons.mp hpw
    rcases List.mem_cons.mp he with hea | hets
    · rcases List.mem_cons.mp he' with hea' | hets'
      · rw [hea', hea]
      · exfalso
        have hd := hhd e'.2.1 (List.mem_map_of_mem _ hets')
        rw [hea] at hin
        exact Finset.disjoint_left.mp hd hin (hmem e' (List.mem_cons_of_mem _ hets'))
    · rcases List.mem_cons.mp he' with hea' | hets'
      · exfalso
        have hd := hhd e.2.1 (List.mem_map_of_mem _ hets)
        have hm : e'.1 ∈ a.2.1 := by
          rw [hea']
          exact hmem a (List.mem_cons_self _ _)
        exact Finset.disjoint_left.mp hd hm hin
      · exact ih htl (fun u hu => hmem u (List.mem_cons_of_mem _ hu)) e hets e' hets' hin

/-- Queue entry of the BFS ball invariant: id, depth label, subtree id
set, path and value of the represented node. -/
structure QEnt where
  id : Nat
  d : Nat
  S : Finset Nat
  p : JsStr
  j : JSON

theorem bfsLoop_ball (cfg : Config) (st : BuildState)
    (hwf : st.childLists.length = st.nodes.length) :
    ∀ (fuel : Nat) (Q : List QEnt) (visited : Finset Nat) (acc : List (Nat × Nat)),
      (∀ t ∈ Q, RepJ cfg st t.id t.S t.p t.j ∧ t.d ≤ cfg.subtreeDepth) →
      (Q.map QEnt.S).Pairwise Disjoint →
      (∀ t ∈ Q, visited ∩ t.S = {t.id}) →
      visited ⊆ Finset.range st.nodes.length →
      Q.length + (st.nodes.length - visited.card) ≤ fuel →
      ((bfsLoop cfg (assembleCSR st) fuel (Q.map (fun t => (t.id, t.d))) visited acc).map
          (fun pr => st.nodes.get? pr.1) : Multiset (Option NodeRec))
        = ((acc.map (fun pr => st.nodes.get? pr.1) : List (Option NodeRec))
            : Multiset (Option NodeRec))
          + (Q.map (fun t =>
              (ballM cfg (cfg.subtreeDepth - t.d) t.p t.j).map some)).sum := by
  intro fuel
  induction fuel with
  | zero =>
    intro Q visited acc hQ hpw hvis hrange hfuel
    have hQ0 : Q = [] := List.length_eq_zero.mp (by omega)
    subst hQ0
    have hred : bfsLoop cfg (assembleCSR st) 0
        (([] : List QEnt).map (fun t => (t.id, t.d))) visited acc = acc := rfl
    rw [hred]
    simp
  | succ fuel ih =>
    intro Q visited acc hQ hpw hvis hrange hfuel
    cases Q with
    | nil =>
      have hred : bfsLoop cfg (assembleCSR st) (fuel + 1)
          (([] : List QEnt).map (fun t => (t.id, t.d))) visited acc = acc := rfl
      rw [hred]
      simp
    | cons t Q' =>
      obtain ⟨hrepT, hdT⟩ := hQ t (List.mem_cons_self _ _)
      have htlt : t.id < st.nodes.length := RepJ_lt hrepT
      obtain ⟨ts, hcl, hreps, hpwts, hkids, hSeq, hvnot⟩ := RepJ_kids hrepT
      have hslice : childrenSlice (assembleCSR st) t.id = ts.map (fun e => e.1) := by
        rw [assembleCSR_slice st hwf t.id htlt, hcl]
      have hmemS : ∀ e ∈ ts, e.1 ∈ e.2.1 := fun e he => RepJ_mem (hreps e he)
      have hsubS : ∀ e ∈ ts, e.2.1 ⊆ funion (ts.map (fun e => e.2.1)) := fun e he =>
        subset_funion_of_mem (List.mem_map_of_mem _ he)
      rw [List.map_cons] at hpw
      obtain ⟨hheadpw, htailpw⟩ := List.pairwise_cons.mp hpw
      have hstep : bfsLoop cfg (assembleCSR st) (fuel + 1)
          ((t.id, t.d) :: Q'.map (fun e => (e.id, e.d))) visited acc
          = if t.d < cfg.subtreeDepth then
              bfsLoop cfg (assembleCSR st) fuel
                (bfsEnqueue (assembleCSR st) (t.d + 1) visited
                  (Q'.map (fun e => (e.id, e.d)))
                  (childrenSlice (assembleCSR st) t.id)).2
                (bfsEnqueue (assembleCSR st) (t.d + 1) visited
                  (Q'.map (fun e => (e.id, e.d)))
                  (childrenSlice (assembleCSR st) t.id)).1
                (acc ++ [(t.id, t.d)])
            else bfsLoop cfg (assembleCSR st) fuel (Q'.map (fun e => (e.id, e.d)))
              visited (acc ++ [(t.id, t.d)]) := rfl
      rw [List.map_cons, List.map_cons, List.sum_cons]
      by_cases hd : t.d < cfg.subtreeDepth
      · rw [hstep, if_pos hd, hslice]
        have hnd : (ts.map (fun e => e.1)).Nodup := nodup_ids_of_disjoint hpwts hmemS
        have hok : ∀ c ∈ ts.map (fun e => e.1),
            c < (assembleCSR st).nodes.length ∧ c ∉ visited := by
          intro c hcm
          obtain ⟨e, he, hce⟩ := List.mem_map.mp hcm
          subst hce
          refine ⟨RepJ_lt (hreps e he), ?_⟩
          intro hcv
          have h1 : e.1 ∈ t.S := by
            rw [hSeq]
            exact Finset.mem_insert_of_mem (hsubS e he (hmemS e he))
          have h2 : e.1 ∈ visited ∩ t.S := Finset.mem_inter.mpr ⟨hcv, h1⟩
          rw [hvis t (List.mem_cons_self _ _), Finset.mem_singleton] at h2
          apply hvnot
          rw [← h2]
          exact hsubS e he (hmemS e he)
        rw [bfsEnqueue_all (assembleCSR st) (t.d + 1) (ts.map (fun e => e.1))
          visited (Q'.map (fun e => (e.id, e.d))) hnd hok]
        have hqm : Q'.map (fun e => (e.id, e.d))
              ++ (ts.map (fun e => e.1)).map (fun c => (c, t.d + 1))
            = (Q' ++ ts.map (fun e => QEnt.mk e.1 (t.d + 1) e.2.1 e.2.2.1 e.2.2.2)).map
              (fun e => (e.id, e.d)) := by
          rw [List.map_append, List.map_map, List.map_map]
          rfl
        rw [hqm]
        have hcsF : ∀ a, a ∈ (ts.map (fun e => e.1)).toFinset
            → ∃ e ∈ ts, e.1 = a := by
          intro a ha
          rw [List.mem_toFinset] at ha
          obtain ⟨e, he, hea⟩ := List.mem_map.mp ha
          exact ⟨e, he, hea⟩
        have hih := ih (Q' ++ ts.map (fun e => QEnt.mk e.1 (t.d + 1) e.2.1 e.2.2.1 e.2.2.2))
          (visited ∪ (ts.map (fun e => e.1)).toFinset) (acc ++ [(t.id, t.d)])
          ?hq ?hpw ?hvis ?hrange ?hfuel
        case hq =>
          intro u hu
          rcases List.mem_append.mp hu with hu | hu
          · exact hQ u (List.mem_cons_of_mem _ hu)
          · obtain ⟨e, he, heu⟩ := List.mem_map.mp hu
            subst heu
            refine ⟨hreps e he, ?_⟩
            show t.d + 1 ≤ cfg.subtreeDepth
            omega
        case hpw =>
          rw [List.map_append, List.pairwise_append]
          refine ⟨htailpw, ?_, ?_⟩
          · rw [List.map_map]
            exact hpwts
          · intro s1 hs1 s2 hs2
            rw [List.map_map] at hs2
            obtain ⟨e, he, hes⟩ := List.mem_map.mp hs2
            have hsub : s2 ⊆ t.S := by
              rw [← hes, hSeq]
              exact subset_trans (hsubS e he) (Finset.subset_insert _ _)
            exact Finset.disjoint_of_subset_right hsub (hheadpw s1 hs1).symm
        case hvis =>
          intro u hu
          rcases List.mem_append.mp hu with hu | hu
          · have hvq := hvis u (List.mem_cons_of_mem _ hu)
            ext a
            rw [Finset.mem_inter, Finset.mem_union, Finset.mem_singleton]
            constructor
            · rintro ⟨ha1 | ha1, ha2⟩
              · have : a ∈ visited ∩ u.S := Finset.mem_inter.mpr ⟨ha1, ha2⟩
                rw [hvq, Finset.mem_singleton] at this
                exact this
              · exfalso
                obtain ⟨e, he, hea⟩ := hcsF a ha1
                have hat : a ∈ t.S := by
                  rw [hSeq, ← hea]
                  exact Finset.mem_insert_of_mem (hsubS e he (hmemS e he))
                exact Finset.disjoint_left.mp (hheadpw u.S (List.mem_map_of_mem _ hu))
                  hat ha2
            · intro ha
              subst ha
              have h1 : u.id ∈ visited ∩ u.S := by
                rw [hvq]
                exact Finset.mem_singleton_self _
              rw [Finset.mem_inter] at h1
              exact ⟨Or.inl h1.1, h1.2⟩
          · obtain ⟨e, he, heu⟩ := List.mem_map.mp hu
            subst heu
            ext a
            rw [Finset.mem_inter, Finset.mem_union, Finset.mem_singleton]
            constructor
            · rintro ⟨ha1 | ha1, ha2⟩
              · exfalso
                have hat : a ∈ t.S := by
                  rw [hSeq]
                  exact Finset.mem_insert_of_mem (hsubS e he ha2)
                have h2 : a ∈ visited ∩ t.S := Finset.mem_inter.mpr ⟨ha1, hat⟩
                rw [hvis t (List.mem_cons_self _ _), Finset.mem_singleton] at h2
                apply hvnot
                rw [← h2]
                exact hsubS e he ha2
              · obtain ⟨e', he', hea⟩ := hcsF a ha1
                rw [← hea] at ha2 ⊢
                exact mem_id_unique ts hpwts hmemS e he e' he' ha2
            · intro ha
              subst ha
              refine ⟨Or.inr ?_, hmemS e he⟩
              rw [List.mem_toFinset]
              exact List.mem_map_of_mem _ he
        case hrange =>
          intro a ha
          rw [Finset.mem_union] at ha
          rcases ha with ha | ha
          · exact hrange ha
          · obtain ⟨e, he, hea⟩ := hcsF a ha
            rw [Finset.mem_range, ← hea]
            exact RepJ_lt (hreps e he)
        case hfuel =>
          have hdisj : Disjoint visited (ts.map (fun e => e.1)).toFinset := by
            rw [Finset.disjoint_right]
            intro a ha
            obtain ⟨e, he, hea⟩ := hcsF a ha
            rw [← hea]
            exact ((hok e.1 (List.mem_map_of_mem _ he)).2)
          have hcard : (visited ∪ (ts.map (fun e => e.1)).toFinset).card
              = visited.card + ts.length := by
            rw [Finset.card_union_of_disjoint hdisj, List.toFinset_card_of_nodup hnd,
              List.length_map]
          have hsub : visited ∪ (ts.map (fun e => e.1)).toFinset
              ⊆ Finset.range st.nodes.length := by
            intro a ha
            rw [Finset.mem_union] at ha
            rcases ha with ha | ha
            · exact hrange ha
            · obtain ⟨e, he, hea⟩ := hcsF a ha
              rw [Finset.mem_range, ← hea]
              exact RepJ_lt (hreps e he)
          have hle : (visited ∪ (ts.map (fun e => e.1)).toFinset).card
              ≤ st.nodes.length := by
            have := Finset.card_le_card hsub
            rw [Finset.card_range] at this
            exact this
          rw [List.length_append, List.length_map]
          rw [hcard] at hle
          simp only [List.length_cons] at hfuel
          omega
        rw [hih]
        -- now pure multiset algebra
        have haccm : (((acc ++ [(t.id, t.d)]).map (fun pr => st.nodes.get? pr.1)
              : List (Option NodeRec)) : Multiset (Option NodeRec))
            = ((acc.map (fun pr => st.nodes.get? pr.1) : List (Option NodeRec))
                : Multiset (Option NodeRec)) + {st.nodes.get? t.id} := by
          rw [List.map_append]
          rfl
        have hsum : ((Q' ++ ts.map (fun e => QEnt.mk e.1 (t.d + 1) e.2.1 e.2.2.1 e.2.2.2)).map
              (fun u => (ballM cfg (cfg.subtreeDepth - u.d) u.p u.j).map some)).sum
            = (Q'.map (fun u =>
                (ballM cfg (cfg.subtreeDepth - u.d) u.p u.j).map some)).sum
              + ((kids cfg t.p t.j).map (fun s =>
                (ballM cfg (cfg.subtreeDepth - (t.d + 1)) s.1 s.2).map some)).sum := by
          rw [List.map_append, List.sum_append]
          congr 1
          rw [← hkids, List.map_map, List.map_map]
          rfl
        have hball : (ballM cfg (cfg.subtreeDepth - t.d) t.p t.j).map some
            = (some ⟨t.p, t.j.asScalar⟩ : Option NodeRec)
              ::ₘ ((kids cfg t.p t.j).map (fun s =>
                (ballM cfg (cfg.subtreeDepth - (t.d + 1)) s.1 s.2).map some)).sum := by
          have harith : cfg.subtreeDepth - t.d = (cfg.subtreeDepth - (t.d + 1)) + 1 := by
            omega
          rw [harith, ballM_succ, Multiset.map_cons]
          congr 1
          unfold ballList
          rw [multiset_map_listSum, List.map_map]
          rfl
        rw [haccm, hball, hsum, RepJ_record hrepT]
        rw [← Multiset.singleton_add]
        abel
      · rw [hstep, if_neg hd]
        have hih := ih Q' visited (acc ++ [(t.id, t.d)])
          (fun u hu => hQ u (List.mem_cons_of_mem _ hu)) htailpw
          (fun u hu => hvis u (List.mem_cons_of_mem _ hu)) hrange
          (by simp only [List.length_cons] at hfuel; omega)
        rw [hih]
        have haccm : (((acc ++ [(t.id, t.d)]).map (fun pr => st.nodes.get? pr.1)
              : List (Option NodeRec)) : Multiset (Option NodeRec))
            = ((acc.map (fun pr => st.nodes.get? pr.1) : List (Option NodeRec))
                : Multiset (Option NodeRec)) + {st.nodes.get? t.id} := by
          rw [List.map_append]
          rfl
        have hd0 : cfg.subtreeDepth - t.d = 0 := by omega
        have hball : (ballM cfg (cfg.subtreeDepth - t.d) t.p t.j).map some
            = ({some ⟨t.p, t.j.asScalar⟩} : Multiset (Option NodeRec)) := by
          rw [hd0]
          rfl
        rw [haccm, hball, RepJ_record hrepT]
        abel

/-- One subtree extraction returns exactly the records of the depth-bounded
ball below the start node: the node-record multiset of
`_extractSubtrees(start)` is the tree ball of the represented position. -/
theorem extract_ball (cfg : Config) (st : BuildState)
    (hwf : st.childLists.length = st.nodes.length) {v : Nat} {S : Finset Nat}
    {p : JsStr} {j : JSON} (h : RepJ cfg st v S p j) :
    ((extractSubtrees cfg (assembleCSR st) v).map st.nodes.get?
        : List (Option NodeRec))
      = ((ballM cfg cfg.subtreeDepth p j).map some : Multiset (Option NodeRec)) := by
  have hvlt : v < st.nodes.length := RepJ_lt h
  have hrp : (assembleCSR st).rowPtr.length = st.nodes.length + 1 := by
    show ((st.childLists.map List.length).scanl (· + ·) 0).length = _
    rw [List.length_scanl, List.length_map, hwf]
  unfold extractSubtrees extractSubtreesD
  rw [if_pos ⟨hvlt, by rw [hrp]; omega⟩]
  have hmain := bfsLoop_ball cfg st hwf (assembleCSR st).nodes.length
    [⟨v, 0, S, p, j⟩] {v} []
    (by
      intro t ht
      rcases List.mem_cons.mp ht with ht | ht
      · rw [ht]
        exact ⟨h, Nat.zero_le _⟩
      · exact absurd ht (List.not_mem_nil t))
    (by
      rw [List.map_cons, List.map_nil]
      exact List.pairwise_singleton _ _)
    (by
      intro t ht
      rcases List.mem_cons.mp ht with ht | ht
      · rw [ht]
        show ({v} : Finset Nat) ∩ S = {v}
        ext a
        rw [Finset.mem_inter, Finset.mem_singleton]
        constructor
        · rintro ⟨h1, _⟩; exact h1
        · intro ha
          subst ha
          exact ⟨rfl, RepJ_mem h⟩
      · exact absurd ht (List.not_mem_nil t))
    (by
      intro a ha
      rw [Finset.mem_singleton] at ha
      rw [Finset.mem_range, ha]
      exact hvlt)
    (by
      have hcard : ({v} : Finset Nat).card = 1 := Finset.card_singleton v
      rw [List.length_cons, List.length_nil, hcard]
      show 0 + 1 + (st.nodes.length - 1) ≤ st.nodes.length
      omega)
  have hql : ([⟨v, 0, S, p, j⟩] : List QEnt).map (fun t => (t.id, t.d)) = [(v, 0)] := rfl
  rw [hql] at hmain
  have hmm : ((bfsLoop cfg (assembleCSR st) (assembleCSR st).nodes.length [(v, 0)] {v}
        []).map Prod.fst).map st.nodes.get?
      = (bfsLoop cfg (assembleCSR st) (assembleCSR st).nodes.length [(v, 0)] {v}
        []).map (fun pr => st.nodes.get? pr.1) := by
    rw [List.map_map]
    rfl
  show (↑(((bfsLoop cfg (assembleCSR st) (assembleCSR st).nodes.length [(v, 0)] {v}
      []).map Prod.fst).map st.nodes.get?) : Multiset (Option NodeRec)) = _
  rw [hmm, hmain]
  show (0 : Multiset (Option NodeRec))
      + ([(ballM cfg (cfg.subtreeDepth - 0) p j).map some].sum) = _
  rw [List.sum_cons, List.sum_nil, Nat.sub_zero]
  rw [zero_add, add_zero]

theorem positionsM_of_leaf (cfg : Config) (p : JsStr) :
    ∀ (j : JSON), j.isLeaf = true → positionsM cfg p j = {(p, j)}
  | .null, _ => rfl
  | .bool _, _ => rfl
  | .num _, _ => rfl
  | .str _, _ => rfl
  | .arr _, h => by simp [JSON.isLeaf] at h
  | .obj _, h => by simp [JSON.isLeaf] at h

theorem disjoint_funion {a : Finset Nat} : ∀ {l : List (Finset Nat)},
    (∀ s ∈ l, Disjoint a s) → Disjoint a (funion l) := by
  intro l
  induction l with
  | nil => intro _; rw [funion_nil]; exact Finset.disjoint_empty_right a
  | cons s t ih =>
    intro h
    rw [funion_cons, Finset.disjoint_union_right]
    exact ⟨h s (List.mem_cons_self _ _), ih (fun u hu => h u (List.mem_cons_of_mem _ hu))⟩

theorem union_val_disjoint (s t : Finset Nat) (h : Disjoint s t) :
    (s ∪ t).val = s.val + t.val := by
  rw [← Finset.disjUnion_eq_union s t h]
  rfl

theorem Rep_enum (cfg : Config) (st : BuildState) :
    ∀ (n : Nat) {v : Nat} {S : Finset Nat} {p : JsStr} {j : JSON},
      S.card ≤ n → RepJ cfg st v S p j →
      ∃ L : List (Nat × JsStr × JSON),
        ((L.map (fun t => t.1) : List Nat) : Multiset Nat) = S.val
        ∧ (∀ t ∈ L, ∃ S', RepJ cfg st t.1 S' t.2.1 t.2.2)
        ∧ ((L.map (fun t => t.2) : List (JsStr × JSON)) : Multiset (JsStr × JSON))
            = positionsM cfg p j := by
  intro n
  induction n with
  | zero =>
    intro v S p j hcard h
    exfalso
    have h1 := RepJ_mem h
    have h2 : 0 < S.card := Finset.card_pos.mpr ⟨v, h1⟩
    omega
  | succ n ihn =>
    intro v S p j hcard h
    have henumList : ∀ (ts : List (Nat × Finset Nat × JsStr × JSON)),
        (∀ e ∈ ts, RepJ cfg st e.1 e.2.1 e.2.2.1 e.2.2.2) →
        (ts.map (fun e => e.2.1)).Pairwise Disjoint →
        (∀ e ∈ ts, e.2.1.card ≤ n) →
        ∃ L : List (Nat × JsStr × JSON),
          ((L.map (fun t => t.1) : List Nat) : Multiset Nat)
              = (funion (ts.map (fun e => e.2.1))).val
          ∧ (∀ t ∈ L, ∃ S', RepJ cfg st t.1 S' t.2.1 t.2.2)
          ∧ ((L.map (fun t => t.2) : List (JsStr × JSON)) : Multiset (JsStr × JSON))
              = ((ts.map (fun e => (e.2.2.1, e.2.2.2))).map
                  (fun s => positionsM cfg s.1 s.2)).sum := by
      intro ts
      induction ts with
      | nil =>
        intro _ _ _
        exact ⟨[], rfl, fun t ht => absurd ht (List.not_mem_nil t), rfl⟩
      | cons e ts ihts =>
        intro hreps hpw hcards
        rw [List.map_cons] at hpw
        obtain ⟨hhd, htl⟩ := List.pairwise_cons.mp hpw
        obtain ⟨Le, he1, he2, he3⟩ := ihn (hcards e (List.mem_cons_self _ _))
          (hreps e (List.mem_cons_self _ _))
        obtain ⟨Lt, ht1, ht2, ht3⟩ := ihts
          (fun u hu => hreps u (List.mem_cons_of_mem _ hu)) htl
          (fun u hu => hcards u (List.mem_cons_of_mem _ hu))
        refine ⟨Le ++ Lt, ?_, ?_, ?_⟩
        · rw [List.map_append]
          show ((Le.map (fun t => t.1) : List Nat) : Multiset Nat)
              + ((Lt.map (fun t => t.1) : List Nat) : Multiset Nat) = _
          rw [he1, ht1, List.map_cons, funion_cons,
            union_val_disjoint _ _ (disjoint_funion (fun s hs => hhd s hs))]
        · intro t ht
          rcases List.mem_append.mp ht with ht | ht
          · exact he2 t ht
          · exact ht2 t ht
        · rw [List.map_append]
          show ((Le.map (fun t => t.2) : List (JsStr × JSON)) : Multiset (JsStr × JSON))
              + ((Lt.map (fun t => t.2) : List (JsStr × JSON)) : Multiset (JsStr × JSON))
            = _
          rw [he3, ht3, List.map_cons, List.map_cons, List.sum_cons]
    cases h with
    | leaf v p j hlf hget hcl =>
      refine ⟨[(v, p, j)], ?_, ?_, ?_⟩
      · rfl
      · intro t ht
        rcases List.mem_cons.mp ht with ht | ht
        · rw [ht]
          exact ⟨{v}, RepJ.leaf v p j hlf hget hcl⟩
        · exact absurd ht (List.not_mem_nil t)
      · rw [positionsM_of_leaf cfg p j hlf]
        rfl
    | arr v S' p xs hget hA hvn =>
      obtain ⟨ts, h1, h2, h3, h4, h5⟩ := RepA_toList cfg st xs _ S' p 0 hA
      have hScard : S'.card ≤ n := by
        have hc : (insert v S').card = S'.card + 1 := Finset.card_insert_of_not_mem hvn
        omega
      have hcards : ∀ e ∈ ts, e.2.1.card ≤ n := by
        intro e he
        have hsub : e.2.1 ⊆ S' := by
          rw [h3]
          exact subset_funion_of_mem (List.mem_map_of_mem _ he)
        exact le_trans (Finset.card_le_card hsub) hScard
      obtain ⟨L, hL1, hL2, hL3⟩ := henumList ts h2 h4 hcards
      refine ⟨(v, p, .arr xs) :: L, ?_, ?_, ?_⟩
      · rw [List.map_cons]
        show (v ::ₘ ((L.map (fun t => t.1) : List Nat) : Multiset Nat)) = _
        rw [hL1, ← h3, Finset.insert_val_of_not_mem hvn]
      · intro t ht
        rcases List.mem_cons.mp ht with ht | ht
        · rw [ht]
          exact ⟨insert v S', RepJ.arr v S' p xs hget hA hvn⟩
        · exact hL2 t ht
      · rw [List.map_cons]
        show ((p, JSON.arr xs) ::ₘ ((L.map (fun t => t.2) : List (JsStr × JSON))
            : Multiset (JsStr × JSON))) = _
        rw [hL3, h5]
        show _ = (p, JSON.arr xs) ::ₘ positionsA cfg p 0 xs
        rw [positionsA_eq cfg p xs 0]
    | obj v S' p kvs hget hO hvn =>
      obtain ⟨ts, h1, h2, h3, h4, h5⟩ := RepO_toList cfg st kvs _ S' p hO
      have hScard : S'.card ≤ n := by
        have hc : (insert v S').card = S'.card + 1 := Finset.card_insert_of_not_mem hvn
        omega
      have hcards : ∀ e ∈ ts, e.2.1.card ≤ n := by
        intro e he
        have hsub : e.2.1 ⊆ S' := by
          rw [h3]
          exact subset_funion_of_mem (List.mem_map_of_mem _ he)
        exact le_trans (Finset.card_le_card hsub) hScard
      obtain ⟨L, hL1, hL2, hL3⟩ := henumList ts h2 h4 hcards
      refine ⟨(v, p, .obj kvs) :: L, ?_, ?_, ?_⟩
      · rw [List.map_cons]
        show (v ::ₘ ((L.map (fun t => t.1) : List Nat) : Multiset Nat)) = _
        rw [hL1, ← h3, Finset.insert_val_of_not_mem hvn]
      · intro t ht
        rcases List.mem_cons.mp ht with ht | ht
        · rw [ht]
          exact ⟨insert v S', RepJ.obj v S' p kvs hget hO hvn⟩
        · exact hL2 t ht
      · rw [List.map_cons]
        show ((p, JSON.obj kvs) ::ₘ ((L.map (fun t => t.2) : List (JsStr × JSON))
            : Multiset (JsStr × JSON))) = _
        rw [hL3, h5]
        show _ = (p, JSON.obj kvs) ::ₘ positionsO cfg p kvs
        rw [positionsO_eq cfg p kvs]

theorem flatMap_multiset {α β : Type} (f : α → List β) :
    ∀ (l : List α), ((l.flatMap f : List β) : Multiset β)
      = (l.map (fun v => ((f v : List β) : Multiset β))).sum
  | [] => rfl
  | a :: l => by
    rw [List.flatMap_cons, List.map_cons, List.sum_cons]
    show ((f a ++ l.flatMap f : List β) : Multiset β) = _
    rw [← flatMap_multiset f l]
    rfl

theorem multiset_map_msetSum {α β : Type} (f : α → β) (s : Multiset (Multiset α)) :
    s.sum.map f = (s.map (Multiset.map f)).sum := by
  induction s using Multiset.induction with
  | empty => simp
  | cons a s ih => simp [ih]

/-- The multiset of node records processed by the whole pipeline is
exactly the tree-side total ball multiset: every node is a start node, and
each extraction contributes the depth-bounded ball of its position. -/
theorem processedNodes_ball (cfg : Config) (json : JSON) :
    ((processedNodes cfg (buildCSRFromJSON cfg json) : List (Option NodeRec))
        : Multiset (Option NodeRec))
      = (tBall cfg rootPath json).map some := by
  have hwf := buildStateOf_WFst cfg json
  obtain ⟨L, hL1, hL2, hL3⟩ := Rep_enum cfg (buildStateOf cfg json)
    (Finset.range (buildStateOf cfg json).nodes.length).card (le_refl _)
    (buildStateOf_Rep cfg json)
  have hrp : (assembleCSR (buildStateOf cfg json)).rowPtr.length
      = (buildStateOf cfg json).nodes.length + 1 := by
    show (((buildStateOf cfg json).childLists.map List.length).scanl (· + ·) 0).length = _
    rw [List.length_scanl, List.length_map, hwf]
  have h1 : ((processedNodes cfg (buildCSRFromJSON cfg json) : List (Option NodeRec))
        : Multiset (Option NodeRec))
      = ((List.range (buildStateOf cfg json).nodes.length).map
          (fun v => (((extractSubtrees cfg (assembleCSR (buildStateOf cfg json)) v).map
            (buildStateOf cfg json).nodes.get? : List (Option NodeRec))
              : Multiset (Option NodeRec)))).sum := by
    show (((List.range (buildStateOf cfg json).nodes.length).flatMap
        (fun startNodeId =>
          if startNodeId + 1 < (assembleCSR (buildStateOf cfg json)).rowPtr.length then
            (extractSubtrees cfg (assembleCSR (buildStateOf cfg json)) startNodeId).map
              (assembleCSR (buildStateOf cfg json)).nodes.get?
          else []) : List (Option NodeRec)) : Multiset (Option NodeRec)) = _
    rw [flatMap_multiset]
    congr 1
    apply List.map_congr_left
    intro v hv
    rw [List.mem_range] at hv
    rw [if_pos (by rw [hrp]; omega)]
    rfl
  rw [h1]
  have hvals : ((List.range (buildStateOf cfg json).nodes.length : List Nat) : Multiset Nat)
      = ((L.map (fun t => t.1) : List Nat) : Multiset Nat) := by
    rw [hL1]
    rfl
  have hstep2 : ((List.range (buildStateOf cfg json).nodes.length).map
        (fun v => (((extractSubtrees cfg (assembleCSR (buildStateOf cfg json)) v).map
          (buildStateOf cfg json).nodes.get? : List (Option NodeRec))
            : Multiset (Option NodeRec)))).sum
      = ((L.map (fun t => t.1)).map
          (fun v => (((extractSubtrees cfg (assembleCSR (buildStateOf cfg json)) v).map
            (buildStateOf cfg json).nodes.get? : List (Option NodeRec))
              : Multiset (Option NodeRec)))).sum := by
    exact congrArg (fun (M : Multiset Nat) => (Multiset.map
      (fun v => (((extractSubtrees cfg (assembleCSR (buildStateOf cfg json)) v).map
        (buildStateOf cfg json).nodes.get? : List (Option NodeRec))
          : Multiset (Option NodeRec))) M).sum) hvals
  rw [hstep2]
  have hmap : (L.map (fun t => t.1)).map
        (fun v => (((extractSubtrees cfg (assembleCSR (buildStateOf cfg json)) v).map
          (buildStateOf cfg json).nodes.get? : List (Option NodeRec))
            : Multiset (Option NodeRec)))
      = L.map (fun t => (ballM cfg cfg.subtreeDepth t.2.1 t.2.2).map some) := by
    rw [List.map_map]
    apply List.map_congr_left
    intro t ht
    obtain ⟨S', hS'⟩ := hL2 t ht
    exact extract_ball cfg (buildStateOf cfg json) hwf hS'
  rw [hmap]
  unfold tBall
  rw [multiset_map_msetSum, Multiset.map_map, ← hL3]
  show (L.map (fun t => (ballM cfg cfg.subtreeDepth t.2.1 t.2.2).map some)).sum
    = ((L.map (fun t => t.2)).map
        (fun s => (ballM cfg cfg.subtreeDepth s.1 s.2).map some)).sum
  rw [List.map_map]
  rfl

theorem foldl_union_perm {α : Type} (f : α → Finset Nat) (L1 L2 : List α)
    (h : (L1 : Multiset α) = (L2 : Multiset α)) (s0 : Finset Nat) :
    L1.foldl (fun s n => s ∪ f n) s0 = L2.foldl (fun s n => s ∪ f n) s0 := by
  have hmem : ∀ x : α, x ∈ L1 ↔ x ∈ L2 := by
    intro x
    rw [← Multiset.mem_coe, ← Multiset.mem_coe, h]
  ext a
  rw [mem_foldl_union, mem_foldl_union]
  constructor
  · rintro (h0 | ⟨x, hx, hfx⟩)
    · exact Or.inl h0
    · exact Or.inr ⟨x, (hmem x).mp hx, hfx⟩
  · rintro (h0 | ⟨x, hx, hfx⟩)
    · exact Or.inl h0
    · exact Or.inr ⟨x, (hmem x).mpr hx, hfx⟩

theorem foldl_add_sum {β : Type} (g : β → Multiset Nat) :
    ∀ (L : List β) (m0 : Multiset Nat),
      L.foldl (fun m n => m + g n) m0 = m0 + (L.map g).sum
  | [], m0 => by simp
  | a :: t, m0 => by
    rw [List.foldl_cons, foldl_add_sum g t, List.map_cons, List.sum_cons, add_assoc]

theorem map_sum_perm {α : Type} (g : α → Multiset Nat) (L1 L2 : List α)
    (h : (L1 : Multiset α) = (L2 : Multiset α)) :
    (L1.map g).sum = (L2.map g).sum :=
  congrArg (fun (M : Multiset α) => (Multiset.map g M).sum) h

/-- With `preserveArrayOrder = false`, the feature set is invariant under
any permutation of array elements anywhere in the document (assuming a
correct cache state). -/
theorem order_insensitive (cfg : Config) (cache : NodeCache) (d1 d2 : JSON)
    (hpo : cfg.preserveArrayOrder = false) (hperm : APerm d1 d2)
    (hinv : CacheInv cfg.shingleSize cache) :
    (generateShingleSet cfg cache d1).2 = (generateShingleSet cfg cache d2).2 := by
  have htb : tBall cfg rootPath d1 = tBall cfg rootPath d2 :=
    (APerm_tBall_master cfg hpo).1 hperm rootPath
  have hmult : ((processedNodes cfg (buildCSRFromJSON cfg d1) : List (Option NodeRec))
        : Multiset (Option NodeRec))
      = ((processedNodes cfg (buildCSRFromJSON cfg d2) : List (Option NodeRec))
        : Multiset (Option NodeRec)) := by
    rw [processedNodes_ball cfg d1, processedNodes_ball cfg d2, htb]
  show thresholdMultiset cfg (buildShingleMultiset cfg cache d1).2
      = thresholdMultiset cfg (buildShingleMultiset cfg cache d2).2
  rw [buildShingleMultiset_eq_foldUpdate, buildShingleMultiset_eq_foldUpdate]
  by_cases hft : cfg.frequencyThreshold = 1
  · rw [if_pos hft]
    obtain ⟨-, h2a, -⟩ := foldUpdate_effect cfg
      (processedNodes cfg (buildCSRFromJSON cfg d1)) cache (.set ∅) hinv
    obtain ⟨-, h2b, -⟩ := foldUpdate_effect cfg
      (processedNodes cfg (buildCSRFromJSON cfg d2)) cache (.set ∅) hinv
    rw [h2a ∅ rfl, h2b ∅ rfl]
    show (processedNodes cfg (buildCSRFromJSON cfg d1)).foldl
        (fun s n => s ∪ contribFinset cfg.shingleSize n) ∅
      = (processedNodes cfg (buildCSRFromJSON cfg d2)).foldl
        (fun s n => s ∪ contribFinset cfg.shingleSize n) ∅
    exact foldl_union_perm _ _ _ hmult ∅
  · rw [if_neg hft]
    obtain ⟨-, -, h3a⟩ := foldUpdate_effect cfg
      (processedNodes cfg (buildCSRFromJSON cfg d1)) cache (.map 0) hinv
    obtain ⟨-, -, h3b⟩ := foldUpdate_effect cfg
      (processedNodes cfg (buildCSRFromJSON cfg d2)) cache (.map 0) hinv
    rw [h3a 0 rfl, h3b 0 rfl,
      foldl_add_sum (contribMultiset cfg) (processedNodes cfg (buildCSRFromJSON cfg d1)) 0,
      foldl_add_sum (contribMultiset cfg) (processedNodes cfg (buildCSRFromJSON cfg d2)) 0,
      map_sum_perm (contribMultiset cfg) _ _ hmult]

/- ### C5: concrete documents -/

/-- `[1, 2]`. -/
def docA : JSON := .arr (.cons (.num 1) (.cons (.num 2) .nil))

/-- `[2, 1]`. -/
def docB : JSON := .arr (.cons (.num 2) (.cons (.num 1) .nil))

/-- `[1, "1"]`. -/
def docC : JSON := .arr (.cons (.num 1) (.cons (.str (str2codes "1")) .nil))

/-- `["1", 1]`. -/
def docD : JSON := .arr (.cons (.str (str2codes "1")) (.cons (.num 1) .nil))

/-- **C5 counterexample**: with `preserveArrayOrder = true` (the default
configuration), permuting an array's elements does NOT always change the
feature set: `[1, "1"]` and `["1", 1]` are distinct documents related by an
array-element permutation, yet their feature sets coincide (the number `1`
and the string `"1"` stringify identically, so swapping them only swaps
which of the two positional node strings each element produces). -/
theorem array_order_counterexample :
    defaultConfig.preserveArrayOrder = true
    ∧ APerm docC docD
    ∧ docC ≠ docD
    ∧ (generateShingleSet defaultConfig [] docC).2
        = (generateShingleSet defaultConfig [] docD).2 := by
  refine ⟨rfl, APerm.arr (APermA.swap _ _ _), ?_, by decide⟩
  intro h
  unfold docC docD at h
  injection h with ha
  injection ha with hh ht
  exact JSON.noConfusion hh

/-- A configuration identical to the default except `preserveArrayOrder = false`. -/
def cfgNoOrder : Config := ⟨2, 1, 128, 4, false, 5, [], false, 1000⟩

/-- **C5** (amended): array order sensitivity.  With
`preserveArrayOrder = true`, permuting an array's elements CAN change the
feature set (it does for `[1, 2]` vs `[2, 1]` under the default
configuration) — but not always, see the counterexample.  With
`preserveArrayOrder = false`, for every configuration, every correct cache
state, and every pair of documents related by a permutation of the
elements of any arrays (`APerm`), the feature set of `generateShingleSet`
is unchanged. -/
theorem array_order_sensitivity (cfg : Config) (cache : NodeCache) (d1 d2 : JSON)
    (hpo : cfg.preserveArrayOrder = false) (hperm : APerm d1 d2)
    (hinv : CacheInv cfg.shingleSize cache) :
    (APerm docA docB
      ∧ (generateShingleSet defaultConfig [] docA).2
          ≠ (generateShingleSet defaultConfig [] docB).2)
    ∧ (generateShingleSet cfg cache d1).2 = (generateShingleSet cfg cache d2).2 :=
  ⟨⟨APerm.arr (APermA.swap _ _ _), by decide⟩,
    order_insensitive cfg cache d1 d2 hpo hperm hinv⟩

/-- Witness for C5 at a concrete instance: the configuration with
`preserveArrayOrder = false`, the empty cache, and the permuted pair
`[1, 2]` / `[2, 1]`. -/
theorem array_order_sensitivity_witness :
    cfgNoOrder.preserveArrayOrder = false
    ∧ APerm docA docB
    ∧ CacheInv cfgNoOrder.shingleSize []
    ∧ ((APerm docA docB
        ∧ (generateShingleSet defaultConfig [] docA).2
            ≠ (generateShingleSet defaultConfig [] docB).2)
      ∧ (generateShingleSet cfgNoOrder [] docA).2
          = (generateShingleSet cfgNoOrder [] docB).2) :=
  ⟨rfl, APerm.arr (APermA.swap _ _ _),
    fun e he => absurd he (List.not_mem_nil e),
    array_order_sensitivity cfgNoOrder [] docA docB rfl
      (APerm.arr (APermA.swap _ _ _))
      (fun e he => absurd he (List.not_mem_nil e))⟩
